import Mathlib

/-
  Verification of the calling-convention instrumentation layer (class
  nc::core::ir::calling::Hooks) of the Snowman decompiler.

  The repository provides the class declaration (Hooks.h) with the exact
  shapes of the data members: the registries held by const reference, the
  three append-only key-to-record hook caches keyed by composite tuples,
  the per-site last-hook maps, and the per-function inserted-statement
  tracking.  The member function bodies (Hooks.cpp) are not part of the
  provided sources, so the operational behaviour below is modelled from
  the specification, keeping the header's data shapes.

  Pointer identities (Function*, Call*, Return*, Convention*, hook record
  addresses, statement addresses) are modelled as numeric identities.
-/

set_option linter.unusedVariables false

namespace Snowman

/-- Identity of a function in the IR (models the Function pointer). -/
abbrev FunId := Nat

/-- Identity of a call statement in the IR (models the Call pointer). -/
abbrev CallId := Nat

/-- Identity of a return statement in the IR (models the Return pointer). -/
abbrev RetId := Nat

/-- Byte address inside the binary (models ByteAddr; addresses are only
compared for equality, never computed with, so no overflow arises). -/
abbrev ByteAddr := Int

/-- Identity of a Convention object owned by the external registry
(models the Convention pointer held by non-owning identity). -/
abbrev Convention := Nat

/-- Allocation identity of a hook record (models the address of the
heap-allocated, uniquely-owned hook object). -/
abbrev HookId := Nat

/-- Identity of a marker statement: the hook record that owns it paired
with its index inside that hook.  Distinct hook records therefore always
own disjoint marker statements. -/
abbrev StmtId := Nat × Nat

/-- Modelled from the spec: CalleeId identifies the target of a call: a
resolved address, an abstract identity for an indirect (unresolved) call,
or a function identity. -/
inductive CalleeId where
  | addr (a : ByteAddr)
  | indirect (c : CallId)
  | fn (f : FunId)
deriving DecidableEq

/-- Modelled from the spec: an immutable function signature owned by the
external Signature Registry; sid is its identity and arity the number of
parameters (which determines how many markers an entry hook inserts). -/
structure FunctionSignature where
  sid : Nat
  arity : Nat
deriving DecidableEq

/-- Modelled from the spec: an immutable call-site signature owned by the
external Signature Registry. -/
structure CallSignature where
  sid : Nat
  arity : Nat
deriving DecidableEq

/-- Key of the entry-hook cache: (function identity, convention identity,
function-signature identity), the tuple type of Hooks::entryHooks_. -/
structure EntryKey where
  function : FunId
  convention : Convention
  signature : FunctionSignature
deriving DecidableEq

/-- Key of the call-hook cache: (call-site identity, convention identity,
call-signature identity, optional resolved target address), the tuple
type of Hooks::callHooks_. -/
structure CallKey where
  call : CallId
  convention : Convention
  signature : CallSignature
  calledAddress : Option ByteAddr
deriving DecidableEq

/-- Key of the return-hook cache: (return-site identity, convention
identity, function-signature identity), the tuple type of
Hooks::returnHooks_. -/
structure ReturnKey where
  ret : RetId
  convention : Convention
  signature : FunctionSignature
deriving DecidableEq

/-- An EntryHook record: immutable once created; hid is its allocation
identity, key the composite cache key it was created for. -/
structure EntryHook where
  hid : HookId
  key : EntryKey
deriving DecidableEq

/-- A CallHook record, immutable once created. -/
structure CallHook where
  hid : HookId
  key : CallKey
deriving DecidableEq

/-- A ReturnHook record, immutable once created. -/
structure ReturnHook where
  hid : HookId
  key : ReturnKey
deriving DecidableEq

/-- The marker statements owned by an entry hook: one per parameter of
the signature it was built for, tagged with the hook's identity. -/
def EntryHook.markers (h : EntryHook) : List StmtId :=
  (List.range h.key.signature.arity).map (fun i => (h.hid, i))

/-- The marker statements owned by a call hook. -/
def CallHook.markers (h : CallHook) : List StmtId :=
  (List.range h.key.signature.arity).map (fun i => (h.hid, i))

/-- The marker statements owned by a return hook. -/
def ReturnHook.markers (h : ReturnHook) : List StmtId :=
  (List.range h.key.signature.arity).map (fun i => (h.hid, i))

/-- A call statement of the IR. -/
structure Call where
  cid : CallId
deriving DecidableEq

/-- A return statement of the IR. -/
structure Return where
  rid : RetId
deriving DecidableEq

/-- A function of the IR: its identity, its callee identity (used to
resolve its convention and signature), and its call and return sites in
program order. -/
structure Function where
  fid : FunId
  calleeId : CalleeId
  calls : List Call
  rets : List Return
deriving DecidableEq

/-- Well-formedness of a function: its call sites and return sites have
pairwise distinct identities. -/
def Function.wf (f : Function) : Prop :=
  (f.calls.map Call.cid).Nodup ∧ (f.rets.map Return.rid).Nodup

/-- The external convention registry (Conventions, held by const
reference by the engine): assignment of conventions to callee ids,
mutated only by the caller-supplied detection procedure. -/
abbrev Conventions := List (CalleeId × Convention)

/-- The external signature registry (Signatures, held by const reference
by the engine); the engine only reads it. -/
structure Signatures where
  functionSignature : CalleeId → Option FunctionSignature
  callSignature : CallId → Option CallSignature

/-- The Dataflow facade: supplies the resolved target address of a call
site, when the analysis has resolved it. -/
abbrev Dataflow := CallId → Option ByteAddr

/-- The caller-supplied calling-convention detector: invoked with a
callee id, it may mutate the convention registry and returns nothing
else (modelled as a function from registry to registry). -/
abbrev ConventionDetector := CalleeId → Conventions → Conventions

/-- An instrumentation site: the entry of a function, a call statement,
or a return statement. -/
inductive SiteKey where
  | entry (f : FunId)
  | call (c : CallId)
  | ret (r : RetId)
deriving DecidableEq

/-- Ghost trace events recording what one engine operation did, used to
state the ordering guarantees of the spec. -/
inductive Event where
  | detect (cid : CalleeId)
  | deinstallEntry (f : FunId)
  | installEntry (f : FunId) (h : HookId)
  | deinstallCall (c : CallId)
  | installCall (c : CallId) (h : HookId)
  | deinstallReturn (r : RetId)
  | installReturn (r : RetId) (h : HookId)
deriving DecidableEq

/-- The site an event acts on, if any. -/
def Event.site : Event → Option SiteKey
  | .detect _ => none
  | .deinstallEntry f => some (SiteKey.entry f)
  | .installEntry f _ => some (SiteKey.entry f)
  | .deinstallCall c => some (SiteKey.call c)
  | .installCall c _ => some (SiteKey.call c)
  | .deinstallReturn r => some (SiteKey.ret r)
  | .installReturn r _ => some (SiteKey.ret r)

/-- Whether an event removes the markers of a hook from the body. -/
def Event.isDeinstall : Event → Bool
  | .deinstallEntry _ => true
  | .deinstallCall _ => true
  | .deinstallReturn _ => true
  | _ => false

/-- Whether an event inserts the markers of a hook into the body. -/
def Event.isInstall : Event → Bool
  | .installEntry _ _ => true
  | .installCall _ _ => true
  | .installReturn _ _ => true
  | _ => false

/-- Whether an event acts on a function-entry site. -/
def Event.isEntrySite : Event → Bool
  | .deinstallEntry _ => true
  | .installEntry _ _ => true
  | _ => false

/-- Whether an event acts on a call or return site. -/
def Event.isBodySite : Event → Bool
  | .deinstallCall _ => true
  | .installCall _ _ => true
  | .deinstallReturn _ => true
  | .installReturn _ _ => true
  | _ => false

/-- The subtrace of events acting on one given site. -/
def siteTrace (s : SiteKey) (t : List Event) : List Event :=
  t.filter (fun e => decide (e.site = some s))

/-- Number of detector invocations for a given callee id in a trace. -/
def countDetect (cid : CalleeId) : List Event → Nat
  | [] => 0
  | e :: t => (if e = Event.detect cid then 1 else 0) + countDetect cid t

/-- Lookup in an association list (models std::map / unordered_map find). -/
def alookup {α β : Type} [DecidableEq α] (k : α) : List (α × β) → Option β
  | [] => none
  | p :: t => if p.1 = k then some p.2 else alookup k t

/-- Insert-or-assign in an association list (models map operator[] assignment). -/
def aupdate {α β : Type} [DecidableEq α] (k : α) (v : β) : List (α × β) → List (α × β)
  | [] => [(k, v)]
  | p :: t => if p.1 = k then (k, v) :: t else p :: aupdate k v t

/-- Erase a key from an association list (models map erase). -/
def aerase {α β : Type} [DecidableEq α] (k : α) : List (α × β) → List (α × β)
  | [] => []
  | p :: t => if p.1 = k then aerase k t else p :: aerase k t

/-- Remove from a statement sequence every statement whose id occurs in
the given list (models removeStatements(ids), exact removal by id). -/
def removeAll {α : Type} [DecidableEq α] : List α → List α → List α
  | [], _ => []
  | x :: t, rem => if x ∈ rem then removeAll t rem else x :: removeAll t rem

/-- The full mutable state of the Hooks engine: the three append-only
hook caches, the per-site last-hook maps, the marker statements currently
present in the bodies (per site), and the allocation counter for hook
records.  The field names follow the data members of class Hooks. -/
structure Hooks where
  entryHooks_ : List (EntryKey × EntryHook)
  lastEntryHooks_ : List (FunId × EntryHook)
  callHooks_ : List (CallKey × CallHook)
  lastCallHooks_ : List (CallId × CallHook)
  returnHooks_ : List (ReturnKey × ReturnHook)
  lastReturnHooks_ : List (RetId × ReturnHook)
  body : List (SiteKey × List StmtId)
  nextHookId : HookId
deriving DecidableEq

/-- The engine state before any instrumentation. -/
def Hooks.init : Hooks := ⟨[], [], [], [], [], [], [], 0⟩

/-- Accessor: the last EntryHook used for instrumenting this function
(Hooks::getEntryHook); none when the function is not instrumented. -/
def Hooks.getEntryHook (st : Hooks) (f : FunId) : Option EntryHook :=
  alookup f st.lastEntryHooks_

/-- Accessor: the last CallHook used for instrumenting this call. -/
def Hooks.getCallHook (st : Hooks) (c : CallId) : Option CallHook :=
  alookup c st.lastCallHooks_

/-- Accessor: the last ReturnHook used for instrumenting this return. -/
def Hooks.getReturnHook (st : Hooks) (r : RetId) : Option ReturnHook :=
  alookup r st.lastReturnHooks_

/-- The marker statements currently present in the body at a given site. -/
def Hooks.bodyAt (st : Hooks) (s : SiteKey) : List StmtId :=
  (alookup s st.body).getD []

/-- Modelled from the spec: the Hook Cache contract getOrCreate(key,
builder): return the cached record for the key, invoking the builder to
materialize a new record only on first demand; the key-to-record mapping
is append-only. -/
def getOrCreate {κ ρ : Type} [DecidableEq κ] (key : κ) (build : HookId → ρ × HookId)
    (cache : List (κ × ρ)) (next : HookId) : ρ × List (κ × ρ) × HookId :=
  match alookup key cache with
  | some r => (r, cache, next)
  | none =>
    let rn := build next
    (rn.1, cache ++ [(key, rn.1)], rn.2)

/-- Builder for a fresh EntryHook record for a given key. -/
def buildEntryHook (key : EntryKey) : HookId → EntryHook × HookId :=
  fun n => (⟨n, key⟩, n + 1)

/-- Builder for a fresh CallHook record for a given key. -/
def buildCallHook (key : CallKey) : HookId → CallHook × HookId :=
  fun n => (⟨n, key⟩, n + 1)

/-- Builder for a fresh ReturnHook record for a given key. -/
def buildReturnHook (key : ReturnKey) : HookId → ReturnHook × HookId :=
  fun n => (⟨n, key⟩, n + 1)

/-- Result of a convention resolution: the convention found (if any), the
possibly mutated registry, the updated set of callee ids for which the
detector has already been invoked during the current instrument call, and
the ghost events. -/
structure ConvResult where
  result : Option Convention
  conv : Conventions
  attempted : List CalleeId
  events : List Event

/-- Modelled from the spec (Hooks::getConvention, Convention Resolution
Bridge): query the registry; if absent and a detection procedure is
registered and was not already invoked for this callee id during the
current instrument call, invoke it once (it mutates the registry) and
re-query exactly once; if still absent yield none, with no retries and no
error. -/
def getConvention (d : Option ConventionDetector) (cid : CalleeId)
    (R : Conventions) (att : List CalleeId) : ConvResult :=
  match alookup cid R with
  | some c => ⟨some c, R, att, []⟩
  | none =>
    match d with
    | none => ⟨none, R, att, []⟩
    | some det =>
      if cid ∈ att then ⟨none, R, att, []⟩
      else
        let R2 := det cid R
        ⟨alookup cid R2, R2, cid :: att, [Event.detect cid]⟩

/-- Modelled from the spec (Hooks::deinstrumentEntry): undo the
instrumentation of a function's entry if performed before (remove the
last entry hook's markers from the body and clear the last-hook
reference); otherwise do nothing. -/
def Hooks.deinstrumentEntry (st : Hooks) (f : FunId) : Hooks × List Event :=
  match alookup f st.lastEntryHooks_ with
  | none => (st, [])
  | some h =>
    ({ st with
        lastEntryHooks_ := aerase f st.lastEntryHooks_,
        body := aupdate (SiteKey.entry f)
          (removeAll (st.bodyAt (SiteKey.entry f)) h.markers) st.body },
     [Event.deinstallEntry f])

/-- Modelled from the spec (Hooks::deinstrumentCall). -/
def Hooks.deinstrumentCall (st : Hooks) (c : CallId) : Hooks × List Event :=
  match alookup c st.lastCallHooks_ with
  | none => (st, [])
  | some h =>
    ({ st with
        lastCallHooks_ := aerase c st.lastCallHooks_,
        body := aupdate (SiteKey.call c)
          (removeAll (st.bodyAt (SiteKey.call c)) h.markers) st.body },
     [Event.deinstallCall c])

/-- Modelled from the spec (Hooks::deinstrumentReturn). -/
def Hooks.deinstrumentReturn (st : Hooks) (r : RetId) : Hooks × List Event :=
  match alookup r st.lastReturnHooks_ with
  | none => (st, [])
  | some h =>
    ({ st with
        lastReturnHooks_ := aerase r st.lastReturnHooks_,
        body := aupdate (SiteKey.ret r)
          (removeAll (st.bodyAt (SiteKey.ret r)) h.markers) st.body },
     [Event.deinstallReturn r])

/-- Modelled from the spec: fetch or build the entry hook for the key and
install its markers at function start, recording it as last-entry. -/
def Hooks.installEntry (st : Hooks) (f : FunId) (cv : Convention)
    (sg : FunctionSignature) : Hooks × List Event :=
  let key : EntryKey := ⟨f, cv, sg⟩
  let r := getOrCreate key (buildEntryHook key) st.entryHooks_ st.nextHookId
  ({ st with
      entryHooks_ := r.2.1,
      nextHookId := r.2.2,
      lastEntryHooks_ := aupdate f r.1 st.lastEntryHooks_,
      body := aupdate (SiteKey.entry f)
        (st.bodyAt (SiteKey.entry f) ++ r.1.markers) st.body },
   [Event.installEntry f r.1.hid])

/-- Modelled from the spec: fetch or build the call hook for the key and
install its markers at the call site, recording it as last hook. -/
def Hooks.installCall (st : Hooks) (c : CallId) (cv : Convention)
    (sg : CallSignature) (calledAddress : Option ByteAddr) : Hooks × List Event :=
  let key : CallKey := ⟨c, cv, sg, calledAddress⟩
  let r := getOrCreate key (buildCallHook key) st.callHooks_ st.nextHookId
  ({ st with
      callHooks_ := r.2.1,
      nextHookId := r.2.2,
      lastCallHooks_ := aupdate c r.1 st.lastCallHooks_,
      body := aupdate (SiteKey.call c)
        (st.bodyAt (SiteKey.call c) ++ r.1.markers) st.body },
   [Event.installCall c r.1.hid])

/-- Modelled from the spec: fetch or build the return hook for the key
and install its markers at the return site, recording it as last hook. -/
def Hooks.installReturn (st : Hooks) (r : RetId) (cv : Convention)
    (sg : FunctionSignature) : Hooks × List Event :=
  let key : ReturnKey := ⟨r, cv, sg⟩
  let g := getOrCreate key (buildReturnHook key) st.returnHooks_ st.nextHookId
  ({ st with
      returnHooks_ := g.2.1,
      nextHookId := g.2.2,
      lastReturnHooks_ := aupdate r g.1 st.lastReturnHooks_,
      body := aupdate (SiteKey.ret r)
        (st.bodyAt (SiteKey.ret r) ++ g.1.markers) st.body },
   [Event.installReturn r g.1.hid])

/-- Modelled from the spec (Hooks::instrumentEntry, with the convention
and signature already resolved by instrument): compute the entry key; if
it equals the key of the currently installed entry hook, do nothing
(idempotent); otherwise deinstall the old generation first and only then
fetch-or-build and install the new hook. -/
def Hooks.instrumentEntry (st : Hooks) (f : FunId) (cv : Convention)
    (sg : FunctionSignature) : Hooks × List Event :=
  let key : EntryKey := ⟨f, cv, sg⟩
  match alookup f st.lastEntryHooks_ with
  | some h =>
    if h.key = key then (st, [])
    else
      let de := st.deinstrumentEntry f
      let ins := de.1.installEntry f cv sg
      (ins.1, de.2 ++ ins.2)
  | none =>
    let de := st.deinstrumentEntry f
    let ins := de.1.installEntry f cv sg
    (ins.1, de.2 ++ ins.2)

/-- Modelled from the spec: the per-call-site analogue of
Hooks::instrumentEntry, keyed additionally by the optional resolved
target address. -/
def Hooks.instrumentCallSite (st : Hooks) (c : CallId) (cv : Convention)
    (sg : CallSignature) (calledAddress : Option ByteAddr) : Hooks × List Event :=
  let key : CallKey := ⟨c, cv, sg, calledAddress⟩
  match alookup c st.lastCallHooks_ with
  | some h =>
    if h.key = key then (st, [])
    else
      let de := st.deinstrumentCall c
      let ins := de.1.installCall c cv sg calledAddress
      (ins.1, de.2 ++ ins.2)
  | none =>
    let de := st.deinstrumentCall c
    let ins := de.1.installCall c cv sg calledAddress
    (ins.1, de.2 ++ ins.2)

/-- Modelled from the spec: the per-return-site analogue. -/
def Hooks.instrumentReturnSite (st : Hooks) (r : RetId) (cv : Convention)
    (sg : FunctionSignature) : Hooks × List Event :=
  let key : ReturnKey := ⟨r, cv, sg⟩
  match alookup r st.lastReturnHooks_ with
  | some h =>
    if h.key = key then (st, [])
    else
      let de := st.deinstrumentReturn r
      let ins := de.1.installReturn r cv sg
      (ins.1, de.2 ++ ins.2)
  | none =>
    let de := st.deinstrumentReturn r
    let ins := de.1.installReturn r cv sg
    (ins.1, de.2 ++ ins.2)

/-- The callee identity of a call site: the resolved target address when
the Dataflow facade supplies one, otherwise the abstract indirect-call
identity of the call statement. -/
def getCalleeIdOfCall (c : Call) (calledAddress : Option ByteAddr) : CalleeId :=
  match calledAddress with
  | some a => CalleeId.addr a
  | none => CalleeId.indirect c.cid

/-- State threaded through one instrument pass: the engine state, the
convention registry, the callee ids already given to the detector during
this pass, and the ghost trace. -/
structure StepResult where
  hooks : Hooks
  conv : Conventions
  attempted : List CalleeId
  trace : List Event

/-- Modelled from the spec (Hooks::instrumentCall): resolve the
convention of the call's callee identity (possibly invoking the
detector), resolve the call signature; if either is unknown leave the
site unchanged; otherwise run the key-compare / deinstall / install
sequence for the call site. -/
def instrumentCall (sigs : Signatures) (d : Option ConventionDetector)
    (c : Call) (calledAddress : Option ByteAddr) (s : StepResult) : StepResult :=
  let g := getConvention d (getCalleeIdOfCall c calledAddress) s.conv s.attempted
  let s1 : StepResult := ⟨s.hooks, g.conv, g.attempted, s.trace ++ g.events⟩
  match g.result with
  | none => s1
  | some cv =>
    match sigs.callSignature c.cid with
    | none => s1
    | some sg =>
      let t := s1.hooks.instrumentCallSite c.cid cv sg calledAddress
      ⟨t.1, s1.conv, s1.attempted, s1.trace ++ t.2⟩

/-- Modelled from the spec (Hooks::instrumentReturn, adapted to receive
the enclosing function's callee identity, from which the return hook's
convention and function signature are resolved). -/
def instrumentReturn (sigs : Signatures) (d : Option ConventionDetector)
    (fcid : CalleeId) (r : Return) (s : StepResult) : StepResult :=
  let g := getConvention d fcid s.conv s.attempted
  let s1 : StepResult := ⟨s.hooks, g.conv, g.attempted, s.trace ++ g.events⟩
  match g.result with
  | none => s1
  | some cv =>
    match sigs.functionSignature fcid with
    | none => s1
    | some sg =>
      let t := s1.hooks.instrumentReturnSite r.rid cv sg
      ⟨t.1, s1.conv, s1.attempted, s1.trace ++ t.2⟩

/-- Modelled from the spec (Hooks::instrument): resolve the function's
convention via the bridge; if unknown, leave the function unchanged.
Otherwise resolve the function signature; if unknown, leave unchanged.
Otherwise instrument the entry first, then every call site (with the
dataflow-resolved target address participating in the key) and every
return site, in program order. -/
def instrument (sigs : Signatures) (df : Dataflow) (d : Option ConventionDetector)
    (f : Function) (st : Hooks) (R : Conventions) : StepResult :=
  let g := getConvention d f.calleeId R []
  match g.result with
  | none => ⟨st, g.conv, g.attempted, g.events⟩
  | some cv =>
    match sigs.functionSignature f.calleeId with
    | none => ⟨st, g.conv, g.attempted, g.events⟩
    | some sg =>
      let e := st.instrumentEntry f.fid cv sg
      let s1 : StepResult := ⟨e.1, g.conv, g.attempted, g.events ++ e.2⟩
      let s2 := f.calls.foldl (fun s c => instrumentCall sigs d c (df c.cid) s) s1
      f.rets.foldl (fun s r => instrumentReturn sigs d f.calleeId r s) s2

/-- The body walk of instrument: process every call site (with its
dataflow-resolved target address) and then every return site, in program
order, starting from the state produced by the entry phase. -/
def runSites (sigs : Signatures) (df : Dataflow) (d : Option ConventionDetector)
    (fcid : CalleeId) (calls : List Call) (rets : List Return) (s1 : StepResult) : StepResult :=
  rets.foldl (fun s r => instrumentReturn sigs d fcid r s)
    (calls.foldl (fun s c => instrumentCall sigs d c (df c.cid) s) s1)

/-- Modelled from the spec (Hooks::deinstrument): remove the entry-hook
markers and every call/return hook marker for sites within the function,
clearing all per-site last-hook references; idempotent. -/
def deinstrument (f : Function) (st : Hooks) : Hooks :=
  let st1 := (st.deinstrumentEntry f.fid).1
  let st2 := f.calls.foldl (fun s c => (s.deinstrumentCall c.cid).1) st1
  f.rets.foldl (fun s r => (s.deinstrumentReturn r.rid).1) st2

/-- All hook-record allocation identities present in the three caches. -/
def hookIds (st : Hooks) : List HookId :=
  st.entryHooks_.map (fun p => p.2.hid) ++ st.callHooks_.map (fun p => p.2.hid)
    ++ st.returnHooks_.map (fun p => p.2.hid)

/-- Well-formedness of the engine state: every cached record carries the
key it is cached under, allocation identities are fresh and pairwise
distinct, and every last-hook reference points to a cached record for its
own site (the spec's no-eviction-while-referenced invariant). -/
structure CacheWF (st : Hooks) : Prop where
  entryKeyEq : ∀ p ∈ st.entryHooks_, p.2.key = p.1
  callKeyEq : ∀ p ∈ st.callHooks_, p.2.key = p.1
  retKeyEq : ∀ p ∈ st.returnHooks_, p.2.key = p.1
  idsLt : ∀ i ∈ hookIds st, i < st.nextHookId
  idsNodup : (hookIds st).Nodup
  lastEntryMem : ∀ p ∈ st.lastEntryHooks_, (p.2.key, p.2) ∈ st.entryHooks_ ∧ p.2.key.function = p.1
  lastCallMem : ∀ p ∈ st.lastCallHooks_, (p.2.key, p.2) ∈ st.callHooks_ ∧ p.2.key.call = p.1
  lastRetMem : ∀ p ∈ st.lastReturnHooks_, (p.2.key, p.2) ∈ st.returnHooks_ ∧ p.2.key.ret = p.1

/-- The markers an optional entry hook accounts for. -/
def entryMarkersOf : Option EntryHook → List StmtId
  | none => []
  | some h => h.markers

/-- The markers an optional call hook accounts for. -/
def callMarkersOf : Option CallHook → List StmtId
  | none => []
  | some h => h.markers

/-- The markers an optional return hook accounts for. -/
def retMarkersOf : Option ReturnHook → List StmtId
  | none => []
  | some h => h.markers

/-- The no-stale-coexistence invariant: at every site the markers present
in the body are exactly the markers of the hook currently installed there
(one generation), or none when the site is uninstrumented. -/
def oneGeneration (st : Hooks) : Prop :=
  (∀ f, st.bodyAt (SiteKey.entry f) = entryMarkersOf (st.getEntryHook f)) ∧
  (∀ c, st.bodyAt (SiteKey.call c) = callMarkersOf (st.getCallHook c)) ∧
  (∀ r, st.bodyAt (SiteKey.ret r) = retMarkersOf (st.getReturnHook r))

/-- One list extends another without removing or reordering anything. -/
def appendOnly {α : Type} (old new : List α) : Prop := ∃ t, new = old ++ t

/-- Acceptable per-site event sequence within one instrument pass:
nothing, a bare install, or a deinstall strictly followed by an install
(deinstall-before-install; never two generations installed). -/
def goodSiteTrace (t : List Event) : Prop :=
  t = [] ∨ (∃ e, t = [e] ∧ e.isInstall = true) ∨
    (∃ e1 e2, t = [e1, e2] ∧ e1.isDeinstall = true ∧ e2.isInstall = true)

/-- Replay of the detector invocations recorded in a trace, in order:
the only way the engine ever changes the convention registry. -/
def applyDetections (d : Option ConventionDetector) : List Event → Conventions → Conventions
  | [], R => R
  | e :: t, R =>
    match e, d with
    | Event.detect cid, some det => applyDetections d t (det cid R)
    | _, _ => applyDetections d t R

/-- Pure per-site resolution of the entry key in a fixed registry. -/
def entryResolution (sigs : Signatures) (R : Conventions) (f : Function) : Option EntryKey :=
  match alookup f.calleeId R, sigs.functionSignature f.calleeId with
  | some cv, some sg => some ⟨f.fid, cv, sg⟩
  | _, _ => none

/-- Pure per-site resolution of a call key in a fixed registry. -/
def callResolution (sigs : Signatures) (df : Dataflow) (R : Conventions) (c : Call) : Option CallKey :=
  match alookup (getCalleeIdOfCall c (df c.cid)) R, sigs.callSignature c.cid with
  | some cv, some sg => some ⟨c.cid, cv, sg, df c.cid⟩
  | _, _ => none

/-- Pure per-site resolution of a return key in a fixed registry. -/
def retResolution (sigs : Signatures) (R : Conventions) (fcid : CalleeId) (r : Return) : Option ReturnKey :=
  match alookup fcid R, sigs.functionSignature fcid with
  | some cv, some sg => some ⟨r.rid, cv, sg⟩
  | _, _ => none

/-- Concrete call statement used in the verification scenarios below. -/
def wCall : Call := ⟨20⟩

/-- Concrete return statement used in the verification scenarios below. -/
def wRet : Return := ⟨30⟩

/-- Concrete function with one call site and one return site, whose
callee identity is the entry address 100. -/
def wF : Function := ⟨10, CalleeId.addr 100, [wCall], [wRet]⟩

/-- Concrete signature registry: the function at address 100 has a
two-parameter signature, the call site 20 a one-parameter call signature. -/
def wSigs : Signatures :=
  ⟨fun cid => if cid = CalleeId.addr 100 then some ⟨1, 2⟩ else none,
   fun c => if c = 20 then some ⟨2, 1⟩ else none⟩

/-- Concrete signature registry after refinement: the function at address
100 gained a parameter (a distinct three-parameter signature). -/
def wSigs3 : Signatures :=
  ⟨fun cid => if cid = CalleeId.addr 100 then some ⟨4, 3⟩ else none,
   fun c => if c = 20 then some ⟨2, 1⟩ else none⟩

/-- Concrete convention registry: conventions assigned for the function,
for the resolved call target 555, and for the unresolved indirect call. -/
def wConv : Conventions :=
  [(CalleeId.addr 100, 7), (CalleeId.addr 555, 8), (CalleeId.indirect 20, 8)]

/-- Dataflow that has not resolved any call target. -/
def wDf0 : Dataflow := fun _ => none

/-- Dataflow that has resolved call site 20 to address 555. -/
def wDfA : Dataflow := fun c => if c = 20 then some 555 else none

/-- A concrete convention detector: assigns convention 9 to the queried
callee id (mutating the external registry). -/
def wDet : ConventionDetector := fun cid R => aupdate cid 9 R

/-- The detector makes no progress on a registry (the registry is a
fixpoint of detection: conventions are unchanged). -/
def detectorStableAt (d : Option ConventionDetector) (R : Conventions) : Prop :=
  ∀ det cid, d = some det → det cid R = R

/-- Stability of a function's instrumentation state: whenever a site of
the function resolves to a key in the given registry, the hook currently
installed at that site already has exactly that key. -/
def stableFor (sigs : Signatures) (df : Dataflow) (f : Function)
    (st : Hooks) (R : Conventions) : Prop :=
  (∀ key, entryResolution sigs R f = some key →
    ∃ h, st.getEntryHook f.fid = some h ∧ h.key = key) ∧
  (∀ c, c ∈ f.calls → ∀ key, callResolution sigs df R c = some key →
    ∃ h, st.getCallHook c.cid = some h ∧ h.key = key) ∧
  (∀ r, r ∈ f.rets → ∀ key, retResolution sigs R f.calleeId r = some key →
    ∃ h, st.getReturnHook r.rid = some h ∧ h.key = key)

/-! ### Basic lemmas about the association-list operations -/

theorem alookup_aupdate_self {α β : Type} [DecidableEq α] (k : α) (v : β)
    (l : List (α × β)) : alookup k (aupdate k v l) = some v := by
  induction l with
  | nil => simp [alookup, aupdate]
  | cons p t ih => by_cases h : p.1 = k <;> simp [alookup, aupdate, h, ih]

theorem alookup_aupdate_ne {α β : Type} [DecidableEq α] {k k' : α} (v : β)
    (l : List (α × β)) (hne : k' ≠ k) :
    alookup k' (aupdate k v l) = alookup k' l := by
  induction l with
  | nil => simp [alookup, aupdate, Ne.symm hne]
  | cons p t ih =>
    by_cases h : p.1 = k
    · have e1 : aupdate k v (p :: t) = (k, v) :: t := by simp [aupdate, h]
      have e2 : alookup k' ((k, v) :: t) = alookup k' t := by
        simp [alookup, Ne.symm hne]
      have e3 : alookup k' (p :: t) = alookup k' t := by
        simp [alookup, h, Ne.symm hne]
      rw [e1, e2, e3]
    · have e1 : aupdate k v (p :: t) = p :: aupdate k v t := by simp [aupdate, h]
      rw [e1]
      by_cases h2 : p.1 = k'
      · simp [alookup, h2]
      · simp [alookup, h2, ih]

theorem alookup_aerase_self {α β : Type} [DecidableEq α] (k : α)
    (l : List (α × β)) : alookup k (aerase k l) = none := by
  induction l with
  | nil => simp [alookup, aerase]
  | cons p t ih => by_cases h : p.1 = k <;> simp [alookup, aerase, h, ih]

theorem alookup_aerase_ne {α β : Type} [DecidableEq α] {k k' : α}
    (l : List (α × β)) (hne : k' ≠ k) :
    alookup k' (aerase k l) = alookup k' l := by
  induction l with
  | nil => simp [alookup, aerase]
  | cons p t ih =>
    by_cases h : p.1 = k
    · have e1 : aerase k (p :: t) = aerase k t := by simp [aerase, h]
      have e3 : alookup k' (p :: t) = alookup k' t := by
        simp [alookup, h, Ne.symm hne]
      rw [e1, ih, e3]
    · have e1 : aerase k (p :: t) = p :: aerase k t := by simp [aerase, h]
      rw [e1]
      by_cases h2 : p.1 = k'
      · simp [alookup, h2]
      · simp [alookup, h2, ih]

theorem mem_aupdate {α β : Type} [DecidableEq α] {k : α} {v : β}
    {l : List (α × β)} {p : α × β} (hp : p ∈ aupdate k v l) :
    p = (k, v) ∨ p ∈ l := by
  induction l with
  | nil => simpa [aupdate] using hp
  | cons q t ih =>
    by_cases h : q.1 = k
    · simp only [aupdate, h, if_true, List.mem_cons] at hp
      rcases hp with hp | hp
      · exact Or.inl hp
      · exact Or.inr (List.mem_cons_of_mem _ hp)
    · simp only [aupdate, h, if_false, List.mem_cons] at hp
      rcases hp with hp | hp
      · exact Or.inr (by simp [hp])
      · rcases ih hp with hp2 | hp2
        · exact Or.inl hp2
        · exact Or.inr (List.mem_cons_of_mem _ hp2)

theorem mem_aerase {α β : Type} [DecidableEq α] {k : α}
    {l : List (α × β)} {p : α × β} (hp : p ∈ aerase k l) : p ∈ l := by
  induction l with
  | nil => simp [aerase] at hp
  | cons q t ih =>
    by_cases h : q.1 = k
    · simp only [aerase, h, if_true] at hp
      exact List.mem_cons_of_mem _ (ih hp)
    · simp only [aerase, h, if_false, List.mem_cons] at hp
      rcases hp with hp | hp
      · simp [hp]
      · exact List.mem_cons_of_mem _ (ih hp)

theorem alookup_mem {α β : Type} [DecidableEq α] {k : α} {v : β}
    {l : List (α × β)} (h : alookup k l = some v) : (k, v) ∈ l := by
  induction l with
  | nil => simp [alookup] at h
  | cons p t ih =>
    by_cases h1 : p.1 = k
    · simp only [alookup, h1, if_true, Option.some.injEq] at h
      subst h
      subst h1
      rw [Prod.mk.eta]
      exact List.mem_cons_self p t
    · simp only [alookup, h1, if_false] at h
      exact List.mem_cons_of_mem _ (ih h)

theorem alookup_append_some {α β : Type} [DecidableEq α] {k : α} {v : β}
    {l : List (α × β)} (t : List (α × β)) (h : alookup k l = some v) :
    alookup k (l ++ t) = some v := by
  induction l with
  | nil => simp [alookup] at h
  | cons p q ih =>
    by_cases h1 : p.1 = k <;> simp_all [alookup]

theorem alookup_append_single_self {α β : Type} [DecidableEq α] {k : α} {v : β}
    {l : List (α × β)} (h : alookup k l = none) :
    alookup k (l ++ [(k, v)]) = some v := by
  induction l with
  | nil => simp [alookup]
  | cons p q ih =>
    by_cases h1 : p.1 = k <;> simp_all [alookup]

theorem removeAll_of_sub {α : Type} [DecidableEq α] (xs rem : List α)
    (h : ∀ x ∈ xs, x ∈ rem) : removeAll xs rem = [] := by
  induction xs with
  | nil => rfl
  | cons x t ih =>
    have hx : x ∈ rem := h x (List.mem_cons_self x t)
    simp only [removeAll, hx, if_true]
    exact ih (fun y hy => h y (List.mem_cons_of_mem _ hy))

theorem mem_entry_markers {h : EntryHook} {m : StmtId} :
    m ∈ h.markers ↔ m.1 = h.hid ∧ m.2 < h.key.signature.arity := by
  cases m with
  | mk a b =>
    constructor
    · intro hm
      simp only [EntryHook.markers, List.mem_map, List.mem_range] at hm
      rcases hm with ⟨i, hi, he⟩
      cases he
      exact ⟨rfl, hi⟩
    · rintro ⟨h1, h2⟩
      subst h1
      simp only [EntryHook.markers, List.mem_map, List.mem_range]
      exact ⟨b, h2, rfl⟩

theorem mem_call_markers {h : CallHook} {m : StmtId} :
    m ∈ h.markers ↔ m.1 = h.hid ∧ m.2 < h.key.signature.arity := by
  cases m with
  | mk a b =>
    constructor
    · intro hm
      simp only [CallHook.markers, List.mem_map, List.mem_range] at hm
      rcases hm with ⟨i, hi, he⟩
      cases he
      exact ⟨rfl, hi⟩
    · rintro ⟨h1, h2⟩
      subst h1
      simp only [CallHook.markers, List.mem_map, List.mem_range]
      exact ⟨b, h2, rfl⟩

theorem mem_ret_markers {h : ReturnHook} {m : StmtId} :
    m ∈ h.markers ↔ m.1 = h.hid ∧ m.2 < h.key.signature.arity := by
  cases m with
  | mk a b =>
    constructor
    · intro hm
      simp only [ReturnHook.markers, List.mem_map, List.mem_range] at hm
      rcases hm with ⟨i, hi, he⟩
      cases he
      exact ⟨rfl, hi⟩
    · rintro ⟨h1, h2⟩
      subst h1
      simp only [ReturnHook.markers, List.mem_map, List.mem_range]
      exact ⟨b, h2, rfl⟩

theorem appendOnly_refl {α : Type} (l : List α) : appendOnly l l := ⟨[], by simp⟩

theorem appendOnly_trans {α : Type} {l1 l2 l3 : List α}
    (h1 : appendOnly l1 l2) (h2 : appendOnly l2 l3) : appendOnly l1 l3 := by
  rcases h1 with ⟨t1, rfl⟩
  rcases h2 with ⟨t2, rfl⟩
  exact ⟨t1 ++ t2, by simp⟩

theorem mem_of_appendOnly {α : Type} {l1 l2 : List α} {x : α}
    (h : appendOnly l1 l2) (hx : x ∈ l1) : x ∈ l2 := by
  rcases h with ⟨t, rfl⟩
  exact List.mem_append_left _ hx

/-! ### A generic preservation principle for folds over site lists -/

theorem foldl_preserve {α σ : Type} {P : σ → Prop} (step : σ → α → σ) (l : List α)
    (hstep : ∀ s a, a ∈ l → P s → P (step s a)) {s : σ} (hs : P s) :
    P (l.foldl step s) := by
  induction l generalizing s with
  | nil => exact hs
  | cons x t ih =>
    exact ih (fun s a ha h => hstep s a (List.mem_cons_of_mem _ ha) h)
      (hstep s x (List.mem_cons_self x t) hs)

/-! ### Deinstallation clears the per-site reference -/

theorem getEntryHook_deinstrumentEntry_self (st : Hooks) (f : FunId) :
    (st.deinstrumentEntry f).1.getEntryHook f = none := by
  cases e : alookup f st.lastEntryHooks_ with
  | none => simp [Hooks.deinstrumentEntry, e, Hooks.getEntryHook]
  | some h => simp [Hooks.deinstrumentEntry, e, Hooks.getEntryHook, alookup_aerase_self]

theorem getCallHook_deinstrumentCall_self (st : Hooks) (c : CallId) :
    (st.deinstrumentCall c).1.getCallHook c = none := by
  cases e : alookup c st.lastCallHooks_ with
  | none => simp [Hooks.deinstrumentCall, e, Hooks.getCallHook]
  | some h => simp [Hooks.deinstrumentCall, e, Hooks.getCallHook, alookup_aerase_self]

theorem getReturnHook_deinstrumentReturn_self (st : Hooks) (r : RetId) :
    (st.deinstrumentReturn r).1.getReturnHook r = none := by
  cases e : alookup r st.lastReturnHooks_ with
  | none => simp [Hooks.deinstrumentReturn, e, Hooks.getReturnHook]
  | some h => simp [Hooks.deinstrumentReturn, e, Hooks.getReturnHook, alookup_aerase_self]

/-! ### Preservation of the one-generation invariant by the primitive operations -/

theorem oneGeneration_deinstrumentEntry {st : Hooks} (f : FunId)
    (hI : oneGeneration st) : oneGeneration (st.deinstrumentEntry f).1 := by
  obtain ⟨hE, hC, hR⟩ := hI
  cases e : alookup f st.lastEntryHooks_ with
  | none => simpa [Hooks.deinstrumentEntry, e] using And.intro hE (And.intro hC hR)
  | some h =>
    simp only [Hooks.deinstrumentEntry, e]
    refine ⟨fun f' => ?_, fun c => ?_, fun r => ?_⟩
    · by_cases hf : f' = f
      · subst hf
        have hb := hE f'
        rw [Hooks.getEntryHook, e] at hb
        simp only [Hooks.bodyAt, Hooks.getEntryHook, alookup_aupdate_self,
          alookup_aerase_self, Option.getD_some, entryMarkersOf]
        rw [Hooks.bodyAt] at hb
        rw [hb]
        exact removeAll_of_sub _ _ (fun x hx => by simpa [entryMarkersOf] using hx)
      · have hsne : SiteKey.entry f' ≠ SiteKey.entry f := by simp [hf]
        simp only [Hooks.bodyAt, Hooks.getEntryHook,
          alookup_aupdate_ne _ _ hsne, alookup_aerase_ne _ hf]
        exact hE f'
    · have hsne : SiteKey.call c ≠ SiteKey.entry f := by simp
      simp only [Hooks.bodyAt, Hooks.getCallHook, alookup_aupdate_ne _ _ hsne]
      exact hC c
    · have hsne : SiteKey.ret r ≠ SiteKey.entry f := by simp
      simp only [Hooks.bodyAt, Hooks.getReturnHook, alookup_aupdate_ne _ _ hsne]
      exact hR r

theorem oneGeneration_deinstrumentCall {st : Hooks} (c0 : CallId)
    (hI : oneGeneration st) : oneGeneration (st.deinstrumentCall c0).1 := by
  obtain ⟨hE, hC, hR⟩ := hI
  cases e : alookup c0 st.lastCallHooks_ with
  | none => simpa [Hooks.deinstrumentCall, e] using And.intro hE (And.intro hC hR)
  | some h =>
    simp only [Hooks.deinstrumentCall, e]
    refine ⟨fun f' => ?_, fun c => ?_, fun r => ?_⟩
    · have hsne : SiteKey.entry f' ≠ SiteKey.call c0 := by simp
      simp only [Hooks.bodyAt, Hooks.getEntryHook, alookup_aupdate_ne _ _ hsne]
      exact hE f'
    · by_cases hc : c = c0
      · subst hc
        have hb := hC c
        rw [Hooks.getCallHook, e] at hb
        simp only [Hooks.bodyAt, Hooks.getCallHook, alookup_aupdate_self,
          alookup_aerase_self, Option.getD_some, callMarkersOf]
        rw [Hooks.bodyAt] at hb
        rw [hb]
        exact removeAll_of_sub _ _ (fun x hx => by simpa [callMarkersOf] using hx)
      · have hsne : SiteKey.call c ≠ SiteKey.call c0 := by simp [hc]
        simp only [Hooks.bodyAt, Hooks.getCallHook,
          alookup_aupdate_ne _ _ hsne, alookup_aerase_ne _ hc]
        exact hC c
    · have hsne : SiteKey.ret r ≠ SiteKey.call c0 := by simp
      simp only [Hooks.bodyAt, Hooks.getReturnHook, alookup_aupdate_ne _ _ hsne]
      exact hR r

theorem oneGeneration_deinstrumentReturn {st : Hooks} (r0 : RetId)
    (hI : oneGeneration st) : oneGeneration (st.deinstrumentReturn r0).1 := by
  obtain ⟨hE, hC, hR⟩ := hI
  cases e : alookup r0 st.lastReturnHooks_ with
  | none => simpa [Hooks.deinstrumentReturn, e] using And.intro hE (And.intro hC hR)
  | some h =>
    simp only [Hooks.deinstrumentReturn, e]
    refine ⟨fun f' => ?_, fun c => ?_, fun r => ?_⟩
    · have hsne : SiteKey.entry f' ≠ SiteKey.ret r0 := by simp
      simp only [Hooks.bodyAt, Hooks.getEntryHook, alookup_aupdate_ne _ _ hsne]
      exact hE f'
    · have hsne : SiteKey.call c ≠ SiteKey.ret r0 := by simp
      simp only [Hooks.bodyAt, Hooks.getCallHook, alookup_aupdate_ne _ _ hsne]
      exact hC c
    · by_cases hr : r = r0
      · subst hr
        have hb := hR r
        rw [Hooks.getReturnHook, e] at hb
        simp only [Hooks.bodyAt, Hooks.getReturnHook, alookup_aupdate_self,
          alookup_aerase_self, Option.getD_some, retMarkersOf]
        rw [Hooks.bodyAt] at hb
        rw [hb]
        exact removeAll_of_sub _ _ (fun x hx => by simpa [retMarkersOf] using hx)
      · have hsne : SiteKey.ret r ≠ SiteKey.ret r0 := by simp [hr]
        simp only [Hooks.bodyAt, Hooks.getReturnHook,
          alookup_aupdate_ne _ _ hsne, alookup_aerase_ne _ hr]
        exact hR r

theorem oneGeneration_installEntry {st : Hooks} {f : FunId} (cv : Convention)
    (sg : FunctionSignature) (hI : oneGeneration st) (h0 : st.getEntryHook f = none) :
    oneGeneration (st.installEntry f cv sg).1 := by
  obtain ⟨hE, hC, hR⟩ := hI
  simp only [Hooks.installEntry]
  refine ⟨fun f' => ?_, fun c => ?_, fun r => ?_⟩
  · by_cases hf : f' = f
    · subst hf
      have hb := hE f'
      rw [h0] at hb
      simp only [entryMarkersOf] at hb
      simp only [Hooks.bodyAt, Hooks.getEntryHook, alookup_aupdate_self,
        Option.getD_some, entryMarkersOf]
      rw [Hooks.bodyAt] at hb
      rw [hb]
      simp
    · have hsne : SiteKey.entry f' ≠ SiteKey.entry f := by simp [hf]
      simp only [Hooks.bodyAt, Hooks.getEntryHook,
        alookup_aupdate_ne _ _ hsne, alookup_aupdate_ne _ _ hf]
      exact hE f'
  · have hsne : SiteKey.call c ≠ SiteKey.entry f := by simp
    simp only [Hooks.bodyAt, Hooks.getCallHook, alookup_aupdate_ne _ _ hsne]
    exact hC c
  · have hsne : SiteKey.ret r ≠ SiteKey.entry f := by simp
    simp only [Hooks.bodyAt, Hooks.getReturnHook, alookup_aupdate_ne _ _ hsne]
    exact hR r

theorem oneGeneration_installCall {st : Hooks} {c0 : CallId} (cv : Convention)
    (sg : CallSignature) (a : Option ByteAddr) (hI : oneGeneration st)
    (h0 : st.getCallHook c0 = none) :
    oneGeneration (st.installCall c0 cv sg a).1 := by
  obtain ⟨hE, hC, hR⟩ := hI
  simp only [Hooks.installCall]
  refine ⟨fun f' => ?_, fun c => ?_, fun r => ?_⟩
  · have hsne : SiteKey.entry f' ≠ SiteKey.call c0 := by simp
    simp only [Hooks.bodyAt, Hooks.getEntryHook, alookup_aupdate_ne _ _ hsne]
    exact hE f'
  · by_cases hc : c = c0
    · subst hc
      have hb := hC c
      rw [h0] at hb
      simp only [callMarkersOf] at hb
      simp only [Hooks.bodyAt, Hooks.getCallHook, alookup_aupdate_self,
        Option.getD_some, callMarkersOf]
      rw [Hooks.bodyAt] at hb
      rw [hb]
      simp
    · have hsne : SiteKey.call c ≠ SiteKey.call c0 := by simp [hc]
      simp only [Hooks.bodyAt, Hooks.getCallHook,
        alookup_aupdate_ne _ _ hsne, alookup_aupdate_ne _ _ hc]
      exact hC c
  · have hsne : SiteKey.ret r ≠ SiteKey.call c0 := by simp
    simp only [Hooks.bodyAt, Hooks.getReturnHook, alookup_aupdate_ne _ _ hsne]
    exact hR r

theorem oneGeneration_installReturn {st : Hooks} {r0 : RetId} (cv : Convention)
    (sg : FunctionSignature) (hI : oneGeneration st) (h0 : st.getReturnHook r0 = none) :
    oneGeneration (st.installReturn r0 cv sg).1 := by
  obtain ⟨hE, hC, hR⟩ := hI
  simp only [Hooks.installReturn]
  refine ⟨fun f' => ?_, fun c => ?_, fun r => ?_⟩
  · have hsne : SiteKey.entry f' ≠ SiteKey.ret r0 := by simp
    simp only [Hooks.bodyAt, Hooks.getEntryHook, alookup_aupdate_ne _ _ hsne]
    exact hE f'
  · have hsne : SiteKey.call c ≠ SiteKey.ret r0 := by simp
    simp only [Hooks.bodyAt, Hooks.getCallHook, alookup_aupdate_ne _ _ hsne]
    exact hC c
  · by_cases hr : r = r0
    · subst hr
      have hb := hR r
      rw [h0] at hb
      simp only [retMarkersOf] at hb
      simp only [Hooks.bodyAt, Hooks.getReturnHook, alookup_aupdate_self,
        Option.getD_some, retMarkersOf]
      rw [Hooks.bodyAt] at hb
      rw [hb]
      simp
    · have hsne : SiteKey.ret r ≠ SiteKey.ret r0 := by simp [hr]
      simp only [Hooks.bodyAt, Hooks.getReturnHook,
        alookup_aupdate_ne _ _ hsne, alookup_aupdate_ne _ _ hr]
      exact hR r

/-! ### Preservation of the one-generation invariant by the per-site steps -/

theorem oneGeneration_instrumentEntry {st : Hooks} (f : FunId) (cv : Convention)
    (sg : FunctionSignature) (hI : oneGeneration st) :
    oneGeneration (st.instrumentEntry f cv sg).1 := by
  rw [Hooks.instrumentEntry]
  cases e : alookup f st.lastEntryHooks_ with
  | some h =>
    by_cases hk : h.key = (⟨f, cv, sg⟩ : EntryKey)
    · simpa [hk] using hI
    · simp only [hk, if_false]
      exact oneGeneration_installEntry cv sg (oneGeneration_deinstrumentEntry f hI)
        (getEntryHook_deinstrumentEntry_self st f)
  | none =>
    exact oneGeneration_installEntry cv sg (oneGeneration_deinstrumentEntry f hI)
      (getEntryHook_deinstrumentEntry_self st f)

theorem oneGeneration_instrumentCallSite {st : Hooks} (c : CallId) (cv : Convention)
    (sg : CallSignature) (a : Option ByteAddr) (hI : oneGeneration st) :
    oneGeneration (st.instrumentCallSite c cv sg a).1 := by
  rw [Hooks.instrumentCallSite]
  cases e : alookup c st.lastCallHooks_ with
  | some h =>
    by_cases hk : h.key = (⟨c, cv, sg, a⟩ : CallKey)
    · simpa [hk] using hI
    · simp only [hk, if_false]
      exact oneGeneration_installCall cv sg a (oneGeneration_deinstrumentCall c hI)
        (getCallHook_deinstrumentCall_self st c)
  | none =>
    exact oneGeneration_installCall cv sg a (oneGeneration_deinstrumentCall c hI)
      (getCallHook_deinstrumentCall_self st c)

theorem oneGeneration_instrumentReturnSite {st : Hooks} (r : RetId) (cv : Convention)
    (sg : FunctionSignature) (hI : oneGeneration st) :
    oneGeneration (st.instrumentReturnSite r cv sg).1 := by
  rw [Hooks.instrumentReturnSite]
  cases e : alookup r st.lastReturnHooks_ with
  | some h =>
    by_cases hk : h.key = (⟨r, cv, sg⟩ : ReturnKey)
    · simpa [hk] using hI
    · simp only [hk, if_false]
      exact oneGeneration_installReturn cv sg (oneGeneration_deinstrumentReturn r hI)
        (getReturnHook_deinstrumentReturn_self st r)
  | none =>
    exact oneGeneration_installReturn cv sg (oneGeneration_deinstrumentReturn r hI)
      (getReturnHook_deinstrumentReturn_self st r)

/-! ### Preservation of the one-generation invariant by whole operations -/

theorem oneGeneration_instrumentCall {sigs : Signatures} {d : Option ConventionDetector}
    {c : Call} {a : Option ByteAddr} {s : StepResult} (hI : oneGeneration s.hooks) :
    oneGeneration (instrumentCall sigs d c a s).hooks := by
  rw [instrumentCall]
  cases hg : (getConvention d (getCalleeIdOfCall c a) s.conv s.attempted).result with
  | none => simpa using hI
  | some cv =>
    cases hsg : sigs.callSignature c.cid with
    | none => simpa using hI
    | some sg => exact oneGeneration_instrumentCallSite c.cid cv sg a hI

theorem oneGeneration_instrumentReturn {sigs : Signatures} {d : Option ConventionDetector}
    {fcid : CalleeId} {r : Return} {s : StepResult} (hI : oneGeneration s.hooks) :
    oneGeneration (instrumentReturn sigs d fcid r s).hooks := by
  rw [instrumentReturn]
  cases hg : (getConvention d fcid s.conv s.attempted).result with
  | none => simpa using hI
  | some cv =>
    cases hsg : sigs.functionSignature fcid with
    | none => simpa using hI
    | some sg => exact oneGeneration_instrumentReturnSite r.rid cv sg hI

theorem oneGeneration_instrument (sigs : Signatures) (df : Dataflow)
    (d : Option ConventionDetector) (f : Function) (st : Hooks) (R : Conventions)
    (hI : oneGeneration st) : oneGeneration (instrument sigs df d f st R).hooks := by
  rw [instrument]
  cases hg : (getConvention d f.calleeId R []).result with
  | none => simpa using hI
  | some cv =>
    cases hsg : sigs.functionSignature f.calleeId with
    | none => simpa using hI
    | some sg =>
      refine @foldl_preserve _ _ (fun (s : StepResult) => oneGeneration s.hooks) _ f.rets
        (fun s r hr h => oneGeneration_instrumentReturn h) _ ?_
      refine @foldl_preserve _ _ (fun (s : StepResult) => oneGeneration s.hooks) _ f.calls
        (fun s c hc h => oneGeneration_instrumentCall h) _ ?_
      exact oneGeneration_instrumentEntry f.fid cv sg hI

theorem oneGeneration_deinstrument (f : Function) (st : Hooks)
    (hI : oneGeneration st) : oneGeneration (deinstrument f st) := by
  rw [deinstrument]
  refine @foldl_preserve _ _ oneGeneration _ f.rets
    (fun s r hr h => oneGeneration_deinstrumentReturn r.rid h) _ ?_
  refine @foldl_preserve _ _ oneGeneration _ f.calls
    (fun s c hc h => oneGeneration_deinstrumentCall c.cid h) _ ?_
  exact oneGeneration_deinstrumentEntry f.fid hI

/-! ### Freshness helpers for allocation identities -/

theorem nodup_insert_fresh_left {l1 l2 l3 : List Nat} {n : Nat}
    (hd : (l1 ++ l2 ++ l3).Nodup) (hlt : ∀ i ∈ l1 ++ l2 ++ l3, i < n) :
    ((l1 ++ [n]) ++ l2 ++ l3).Nodup := by
  have h1 : List.Perm (l1 ++ [n]) (n :: l1) := List.perm_append_singleton n l1
  have hp : List.Perm ((l1 ++ [n]) ++ l2 ++ l3) (n :: (l1 ++ l2 ++ l3)) :=
    (h1.append_right l2).append_right l3
  refine hp.nodup_iff.mpr (List.nodup_cons.mpr ⟨?_, hd⟩)
  intro hn
  exact absurd (hlt n hn) (lt_irrefl n)

theorem nodup_insert_fresh_mid {l1 l2 l3 : List Nat} {n : Nat}
    (hd : (l1 ++ l2 ++ l3).Nodup) (hlt : ∀ i ∈ l1 ++ l2 ++ l3, i < n) :
    (l1 ++ (l2 ++ [n]) ++ l3).Nodup := by
  have h1 : List.Perm (l2 ++ [n]) (n :: l2) := List.perm_append_singleton n l2
  have h3 := (h1.append_right l3).append_left l1
  have h4 : List.Perm (l1 ++ n :: (l2 ++ l3)) (n :: (l1 ++ (l2 ++ l3))) :=
    List.perm_middle
  have hp : List.Perm (l1 ++ (l2 ++ [n]) ++ l3) (n :: (l1 ++ l2 ++ l3)) := by
    have h5 := h3.trans h4
    simpa [List.append_assoc] using h5
  refine hp.nodup_iff.mpr (List.nodup_cons.mpr ⟨?_, hd⟩)
  intro hn
  exact absurd (hlt n hn) (lt_irrefl n)

theorem nodup_insert_fresh_right {l1 l2 l3 : List Nat} {n : Nat}
    (hd : (l1 ++ l2 ++ l3).Nodup) (hlt : ∀ i ∈ l1 ++ l2 ++ l3, i < n) :
    (l1 ++ l2 ++ (l3 ++ [n])).Nodup := by
  have h1 : List.Perm (l1 ++ l2 ++ (l3 ++ [n])) ((l1 ++ l2 ++ l3) ++ [n]) := by
    simp [List.append_assoc]
  have hp : List.Perm (l1 ++ l2 ++ (l3 ++ [n])) (n :: (l1 ++ l2 ++ l3)) :=
    h1.trans (List.perm_append_singleton n (l1 ++ l2 ++ l3))
  refine hp.nodup_iff.mpr (List.nodup_cons.mpr ⟨?_, hd⟩)
  intro hn
  exact absurd (hlt n hn) (lt_irrefl n)

theorem mem_hookIds_entry {st : Hooks} {p : EntryKey × EntryHook}
    (hp : p ∈ st.entryHooks_) : p.2.hid ∈ hookIds st := by
  simp only [hookIds, List.mem_append, List.mem_map]
  exact Or.inl (Or.inl ⟨p, hp, rfl⟩)

theorem mem_hookIds_call {st : Hooks} {p : CallKey × CallHook}
    (hp : p ∈ st.callHooks_) : p.2.hid ∈ hookIds st := by
  simp only [hookIds, List.mem_append, List.mem_map]
  exact Or.inl (Or.inr ⟨p, hp, rfl⟩)

theorem mem_hookIds_ret {st : Hooks} {p : ReturnKey × ReturnHook}
    (hp : p ∈ st.returnHooks_) : p.2.hid ∈ hookIds st := by
  simp only [hookIds, List.mem_append, List.mem_map]
  exact Or.inr ⟨p, hp, rfl⟩

/-! ### Preservation of cache well-formedness by the primitive operations -/

theorem cacheWF_deinstrumentEntry {st : Hooks} (f : FunId) (hW : CacheWF st) :
    CacheWF (st.deinstrumentEntry f).1 := by
  cases e : alookup f st.lastEntryHooks_ with
  | none => simpa [Hooks.deinstrumentEntry, e] using hW
  | some h =>
    simp only [Hooks.deinstrumentEntry, e]
    exact ⟨hW.entryKeyEq, hW.callKeyEq, hW.retKeyEq, hW.idsLt, hW.idsNodup,
      fun p hp => hW.lastEntryMem p (mem_aerase hp), hW.lastCallMem, hW.lastRetMem⟩

theorem cacheWF_deinstrumentCall {st : Hooks} (c : CallId) (hW : CacheWF st) :
    CacheWF (st.deinstrumentCall c).1 := by
  cases e : alookup c st.lastCallHooks_ with
  | none => simpa [Hooks.deinstrumentCall, e] using hW
  | some h =>
    simp only [Hooks.deinstrumentCall, e]
    exact ⟨hW.entryKeyEq, hW.callKeyEq, hW.retKeyEq, hW.idsLt, hW.idsNodup,
      hW.lastEntryMem, fun p hp => hW.lastCallMem p (mem_aerase hp), hW.lastRetMem⟩

theorem cacheWF_deinstrumentReturn {st : Hooks} (r : RetId) (hW : CacheWF st) :
    CacheWF (st.deinstrumentReturn r).1 := by
  cases e : alookup r st.lastReturnHooks_ with
  | none => simpa [Hooks.deinstrumentReturn, e] using hW
  | some h =>
    simp only [Hooks.deinstrumentReturn, e]
    exact ⟨hW.entryKeyEq, hW.callKeyEq, hW.retKeyEq, hW.idsLt, hW.idsNodup,
      hW.lastEntryMem, hW.lastCallMem, fun p hp => hW.lastRetMem p (mem_aerase hp)⟩

theorem cacheWF_installEntry {st : Hooks} (f : FunId) (cv : Convention)
    (sg : FunctionSignature) (hW : CacheWF st) : CacheWF (st.installEntry f cv sg).1 := by
  cases e : alookup (⟨f, cv, sg⟩ : EntryKey) st.entryHooks_ with
  | some h =>
    have hmem := alookup_mem e
    have hkey : h.key = ⟨f, cv, sg⟩ := hW.entryKeyEq _ hmem
    simp only [Hooks.installEntry, getOrCreate, e]
    refine ⟨hW.entryKeyEq, hW.callKeyEq, hW.retKeyEq, hW.idsLt, hW.idsNodup, ?_,
      hW.lastCallMem, hW.lastRetMem⟩
    intro p hp
    rcases mem_aupdate hp with hp1 | hp1
    · subst hp1
      refine ⟨?_, by rw [hkey]⟩
      rw [hkey]
      exact hmem
    · exact hW.lastEntryMem p hp1
  | none =>
    simp only [Hooks.installEntry, getOrCreate, e, buildEntryHook]
    refine ⟨?_, hW.callKeyEq, hW.retKeyEq, ?_, ?_, ?_, hW.lastCallMem, hW.lastRetMem⟩
    · intro p hp
      rcases List.mem_append.mp hp with hp1 | hp1
      · exact hW.entryKeyEq p hp1
      · rw [List.mem_singleton] at hp1
        subst hp1
        rfl
    · intro i hi
      simp only [hookIds, List.map_append, List.mem_append, List.mem_map,
        List.map_cons, List.map_nil, List.mem_singleton] at hi
      rcases hi with ((hi | hi) | hi) | hi
      · rcases hi with ⟨p, hp, rfl⟩
        exact Nat.lt_succ_of_lt (hW.idsLt _ (mem_hookIds_entry hp))
      · subst hi
        exact Nat.lt_succ_self _
      · rcases hi with ⟨p, hp, rfl⟩
        exact Nat.lt_succ_of_lt (hW.idsLt _ (mem_hookIds_call hp))
      · rcases hi with ⟨p, hp, rfl⟩
        exact Nat.lt_succ_of_lt (hW.idsLt _ (mem_hookIds_ret hp))
    · simp only [hookIds, List.map_append, List.map_cons, List.map_nil]
      exact nodup_insert_fresh_left hW.idsNodup hW.idsLt
    · intro p hp
      rcases mem_aupdate hp with hp1 | hp1
      · subst hp1
        exact ⟨List.mem_append_right _ (List.mem_singleton.mpr rfl), rfl⟩
      · obtain ⟨hm, hf⟩ := hW.lastEntryMem p hp1
        exact ⟨List.mem_append_left _ hm, hf⟩

theorem cacheWF_installCall {st : Hooks} (c : CallId) (cv : Convention)
    (sg : CallSignature) (a : Option ByteAddr) (hW : CacheWF st) :
    CacheWF (st.installCall c cv sg a).1 := by
  cases e : alookup (⟨c, cv, sg, a⟩ : CallKey) st.callHooks_ with
  | some h =>
    have hmem := alookup_mem e
    have hkey : h.key = ⟨c, cv, sg, a⟩ := hW.callKeyEq _ hmem
    simp only [Hooks.installCall, getOrCreate, e]
    refine ⟨hW.entryKeyEq, hW.callKeyEq, hW.retKeyEq, hW.idsLt, hW.idsNodup,
      hW.lastEntryMem, ?_, hW.lastRetMem⟩
    intro p hp
    rcases mem_aupdate hp with hp1 | hp1
    · subst hp1
      refine ⟨?_, by rw [hkey]⟩
      rw [hkey]
      exact hmem
    · exact hW.lastCallMem p hp1
  | none =>
    simp only [Hooks.installCall, getOrCreate, e, buildCallHook]
    refine ⟨hW.entryKeyEq, ?_, hW.retKeyEq, ?_, ?_, hW.lastEntryMem, ?_, hW.lastRetMem⟩
    · intro p hp
      rcases List.mem_append.mp hp with hp1 | hp1
      · exact hW.callKeyEq p hp1
      · rw [List.mem_singleton] at hp1
        subst hp1
        rfl
    · intro i hi
      simp only [hookIds, List.map_append, List.mem_append, List.mem_map,
        List.map_cons, List.map_nil, List.mem_singleton] at hi
      rcases hi with ((hi | hi | hi) | hi)
      · rcases hi with ⟨p, hp, rfl⟩
        exact Nat.lt_succ_of_lt (hW.idsLt _ (mem_hookIds_entry hp))
      · rcases hi with ⟨p, hp, rfl⟩
        exact Nat.lt_succ_of_lt (hW.idsLt _ (mem_hookIds_call hp))
      · subst hi
        exact Nat.lt_succ_self _
      · rcases hi with ⟨p, hp, rfl⟩
        exact Nat.lt_succ_of_lt (hW.idsLt _ (mem_hookIds_ret hp))
    · simp only [hookIds, List.map_append, List.map_cons, List.map_nil]
      exact nodup_insert_fresh_mid hW.idsNodup hW.idsLt
    · intro p hp
      rcases mem_aupdate hp with hp1 | hp1
      · subst hp1
        exact ⟨List.mem_append_right _ (List.mem_singleton.mpr rfl), rfl⟩
      · obtain ⟨hm, hf⟩ := hW.lastCallMem p hp1
        exact ⟨List.mem_append_left _ hm, hf⟩

theorem cacheWF_installReturn {st : Hooks} (r : RetId) (cv : Convention)
    (sg : FunctionSignature) (hW : CacheWF st) : CacheWF (st.installReturn r cv sg).1 := by
  cases e : alookup (⟨r, cv, sg⟩ : ReturnKey) st.returnHooks_ with
  | some h =>
    have hmem := alookup_mem e
    have hkey : h.key = ⟨r, cv, sg⟩ := hW.retKeyEq _ hmem
    simp only [Hooks.installReturn, getOrCreate, e]
    refine ⟨hW.entryKeyEq, hW.callKeyEq, hW.retKeyEq, hW.idsLt, hW.idsNodup,
      hW.lastEntryMem, hW.lastCallMem, ?_⟩
    intro p hp
    rcases mem_aupdate hp with hp1 | hp1
    · subst hp1
      refine ⟨?_, by rw [hkey]⟩
      rw [hkey]
      exact hmem
    · exact hW.lastRetMem p hp1
  | none =>
    simp only [Hooks.installReturn, getOrCreate, e, buildReturnHook]
    refine ⟨hW.entryKeyEq, hW.callKeyEq, ?_, ?_, ?_, hW.lastEntryMem, hW.lastCallMem, ?_⟩
    · intro p hp
      rcases List.mem_append.mp hp with hp1 | hp1
      · exact hW.retKeyEq p hp1
      · rw [List.mem_singleton] at hp1
        subst hp1
        rfl
    · intro i hi
      simp only [hookIds, List.map_append, List.mem_append, List.mem_map,
        List.map_cons, List.map_nil, List.mem_singleton] at hi
      rcases hi with ((hi | hi) | hi | hi)
      · rcases hi with ⟨p, hp, rfl⟩
        exact Nat.lt_succ_of_lt (hW.idsLt _ (mem_hookIds_entry hp))
      · rcases hi with ⟨p, hp, rfl⟩
        exact Nat.lt_succ_of_lt (hW.idsLt _ (mem_hookIds_call hp))
      · rcases hi with ⟨p, hp, rfl⟩
        exact Nat.lt_succ_of_lt (hW.idsLt _ (mem_hookIds_ret hp))
      · subst hi
        exact Nat.lt_succ_self _
    · simp only [hookIds, List.map_append, List.map_cons, List.map_nil]
      exact nodup_insert_fresh_right hW.idsNodup hW.idsLt
    · intro p hp
      rcases mem_aupdate hp with hp1 | hp1
      · subst hp1
        exact ⟨List.mem_append_right _ (List.mem_singleton.mpr rfl), rfl⟩
      · obtain ⟨hm, hf⟩ := hW.lastRetMem p hp1
        exact ⟨List.mem_append_left _ hm, hf⟩

/-! ### Preservation of cache well-formedness by per-site steps and operations -/

theorem cacheWF_instrumentEntry {st : Hooks} (f : FunId) (cv : Convention)
    (sg : FunctionSignature) (hW : CacheWF st) :
    CacheWF (st.instrumentEntry f cv sg).1 := by
  rw [Hooks.instrumentEntry]
  cases e : alookup f st.lastEntryHooks_ with
  | some h =>
    by_cases hk : h.key = (⟨f, cv, sg⟩ : EntryKey)
    · simpa [hk] using hW
    · simp only [hk, if_false]
      exact cacheWF_installEntry f cv sg (cacheWF_deinstrumentEntry f hW)
  | none => exact cacheWF_installEntry f cv sg (cacheWF_deinstrumentEntry f hW)

theorem cacheWF_instrumentCallSite {st : Hooks} (c : CallId) (cv : Convention)
    (sg : CallSignature) (a : Option ByteAddr) (hW : CacheWF st) :
    CacheWF (st.instrumentCallSite c cv sg a).1 := by
  rw [Hooks.instrumentCallSite]
  cases e : alookup c st.lastCallHooks_ with
  | some h =>
    by_cases hk : h.key = (⟨c, cv, sg, a⟩ : CallKey)
    · simpa [hk] using hW
    · simp only [hk, if_false]
      exact cacheWF_installCall c cv sg a (cacheWF_deinstrumentCall c hW)
  | none => exact cacheWF_installCall c cv sg a (cacheWF_deinstrumentCall c hW)

theorem cacheWF_instrumentReturnSite {st : Hooks} (r : RetId) (cv : Convention)
    (sg : FunctionSignature) (hW : CacheWF st) :
    CacheWF (st.instrumentReturnSite r cv sg).1 := by
  rw [Hooks.instrumentReturnSite]
  cases e : alookup r st.lastReturnHooks_ with
  | some h =>
    by_cases hk : h.key = (⟨r, cv, sg⟩ : ReturnKey)
    · simpa [hk] using hW
    · simp only [hk, if_false]
      exact cacheWF_installReturn r cv sg (cacheWF_deinstrumentReturn r hW)
  | none => exact cacheWF_installReturn r cv sg (cacheWF_deinstrumentReturn r hW)

theorem cacheWF_instrumentCall {sigs : Signatures} {d : Option ConventionDetector}
    {c : Call} {a : Option ByteAddr} {s : StepResult} (hW : CacheWF s.hooks) :
    CacheWF (instrumentCall sigs d c a s).hooks := by
  rw [instrumentCall]
  cases hg : (getConvention d (getCalleeIdOfCall c a) s.conv s.attempted).result with
  | none => simpa using hW
  | some cv =>
    cases hsg : sigs.callSignature c.cid with
    | none => simpa using hW
    | some sg => exact cacheWF_instrumentCallSite c.cid cv sg a hW

theorem cacheWF_instrumentReturn {sigs : Signatures} {d : Option ConventionDetector}
    {fcid : CalleeId} {r : Return} {s : StepResult} (hW : CacheWF s.hooks) :
    CacheWF (instrumentReturn sigs d fcid r s).hooks := by
  rw [instrumentReturn]
  cases hg : (getConvention d fcid s.conv s.attempted).result with
  | none => simpa using hW
  | some cv =>
    cases hsg : sigs.functionSignature fcid with
    | none => simpa using hW
    | some sg => exact cacheWF_instrumentReturnSite r.rid cv sg hW

theorem cacheWF_instrument (sigs : Signatures) (df : Dataflow)
    (d : Option ConventionDetector) (f : Function) (st : Hooks) (R : Conventions)
    (hW : CacheWF st) : CacheWF (instrument sigs df d f st R).hooks := by
  rw [instrument]
  cases hg : (getConvention d f.calleeId R []).result with
  | none => simpa using hW
  | some cv =>
    cases hsg : sigs.functionSignature f.calleeId with
    | none => simpa using hW
    | some sg =>
      refine @foldl_preserve _ _ (fun (s : StepResult) => CacheWF s.hooks) _ f.rets
        (fun s r hr h => cacheWF_instrumentReturn h) _ ?_
      refine @foldl_preserve _ _ (fun (s : StepResult) => CacheWF s.hooks) _ f.calls
        (fun s c hc h => cacheWF_instrumentCall h) _ ?_
      exact cacheWF_instrumentEntry f.fid cv sg hW

theorem cacheWF_deinstrument (f : Function) (st : Hooks) (hW : CacheWF st) :
    CacheWF (deinstrument f st) := by
  rw [deinstrument]
  refine @foldl_preserve _ _ CacheWF _ f.rets
    (fun s r hr h => cacheWF_deinstrumentReturn r.rid h) _ ?_
  refine @foldl_preserve _ _ CacheWF _ f.calls
    (fun s c hc h => cacheWF_deinstrumentCall c.cid h) _ ?_
  exact cacheWF_deinstrumentEntry f.fid hW

/-! ### Frame lemmas: each site operation touches only its own site -/

theorem deinstrumentCall_frame (st : Hooks) (c : CallId) :
    (st.deinstrumentCall c).1.entryHooks_ = st.entryHooks_ ∧
    (st.deinstrumentCall c).1.callHooks_ = st.callHooks_ ∧
    (st.deinstrumentCall c).1.returnHooks_ = st.returnHooks_ ∧
    (st.deinstrumentCall c).1.nextHookId = st.nextHookId ∧
    (st.deinstrumentCall c).1.lastEntryHooks_ = st.lastEntryHooks_ ∧
    (st.deinstrumentCall c).1.lastReturnHooks_ = st.lastReturnHooks_ ∧
    (∀ f, (st.deinstrumentCall c).1.bodyAt (SiteKey.entry f) = st.bodyAt (SiteKey.entry f)) ∧
    (∀ r, (st.deinstrumentCall c).1.bodyAt (SiteKey.ret r) = st.bodyAt (SiteKey.ret r)) ∧
    (∀ c2, c2 ≠ c → (st.deinstrumentCall c).1.getCallHook c2 = st.getCallHook c2 ∧
      (st.deinstrumentCall c).1.bodyAt (SiteKey.call c2) = st.bodyAt (SiteKey.call c2)) := by
  cases e : alookup c st.lastCallHooks_ with
  | none => simp [Hooks.deinstrumentCall, e]
  | some h =>
    simp only [Hooks.deinstrumentCall, e]
    refine ⟨trivial, trivial, trivial, trivial, trivial, trivial,
      fun f => ?_, fun r => ?_, fun c2 hc2 => ⟨?_, ?_⟩⟩
    · have hsne : SiteKey.entry f ≠ SiteKey.call c := by simp
      simp [Hooks.bodyAt, alookup_aupdate_ne _ _ hsne]
    · have hsne : SiteKey.ret r ≠ SiteKey.call c := by simp
      simp [Hooks.bodyAt, alookup_aupdate_ne _ _ hsne]
    · simp [Hooks.getCallHook, alookup_aerase_ne _ hc2]
    · have hsne : SiteKey.call c2 ≠ SiteKey.call c := by simp [hc2]
      simp [Hooks.bodyAt, alookup_aupdate_ne _ _ hsne]

theorem installCall_frame (st : Hooks) (c : CallId) (cv : Convention)
    (sg : CallSignature) (a : Option ByteAddr) :
    (st.installCall c cv sg a).1.entryHooks_ = st.entryHooks_ ∧
    appendOnly st.callHooks_ (st.installCall c cv sg a).1.callHooks_ ∧
    (st.installCall c cv sg a).1.returnHooks_ = st.returnHooks_ ∧
    (st.installCall c cv sg a).1.lastEntryHooks_ = st.lastEntryHooks_ ∧
    (st.installCall c cv sg a).1.lastReturnHooks_ = st.lastReturnHooks_ ∧
    (∀ f, (st.installCall c cv sg a).1.bodyAt (SiteKey.entry f) = st.bodyAt (SiteKey.entry f)) ∧
    (∀ r, (st.installCall c cv sg a).1.bodyAt (SiteKey.ret r) = st.bodyAt (SiteKey.ret r)) ∧
    (∀ c2, c2 ≠ c → (st.installCall c cv sg a).1.getCallHook c2 = st.getCallHook c2 ∧
      (st.installCall c cv sg a).1.bodyAt (SiteKey.call c2) = st.bodyAt (SiteKey.call c2)) := by
  cases e : alookup (⟨c, cv, sg, a⟩ : CallKey) st.callHooks_ with
  | some h =>
    simp only [Hooks.installCall, getOrCreate, e]
    refine ⟨trivial, appendOnly_refl _, trivial, trivial, trivial, fun f => ?_, fun r => ?_,
      fun c2 hc2 => ⟨?_, ?_⟩⟩
    · have hsne : SiteKey.entry f ≠ SiteKey.call c := by simp
      simp [Hooks.bodyAt, alookup_aupdate_ne _ _ hsne]
    · have hsne : SiteKey.ret r ≠ SiteKey.call c := by simp
      simp [Hooks.bodyAt, alookup_aupdate_ne _ _ hsne]
    · simp [Hooks.getCallHook, alookup_aupdate_ne _ _ hc2]
    · have hsne : SiteKey.call c2 ≠ SiteKey.call c := by simp [hc2]
      simp [Hooks.bodyAt, alookup_aupdate_ne _ _ hsne]
  | none =>
    simp only [Hooks.installCall, getOrCreate, e, buildCallHook]
    refine ⟨trivial, ⟨_, rfl⟩, trivial, trivial, trivial, fun f => ?_, fun r => ?_,
      fun c2 hc2 => ⟨?_, ?_⟩⟩
    · have hsne : SiteKey.entry f ≠ SiteKey.call c := by simp
      simp [Hooks.bodyAt, alookup_aupdate_ne _ _ hsne]
    · have hsne : SiteKey.ret r ≠ SiteKey.call c := by simp
      simp [Hooks.bodyAt, alookup_aupdate_ne _ _ hsne]
    · simp [Hooks.getCallHook, alookup_aupdate_ne _ _ hc2]
    · have hsne : SiteKey.call c2 ≠ SiteKey.call c := by simp [hc2]
      simp [Hooks.bodyAt, alookup_aupdate_ne _ _ hsne]

theorem deinstall_install_call_frame (st : Hooks) (c : CallId) (cv : Convention)
    (sg : CallSignature) (a : Option ByteAddr) :
    ((st.deinstrumentCall c).1.installCall c cv sg a).1.entryHooks_ = st.entryHooks_ ∧
    appendOnly st.callHooks_ ((st.deinstrumentCall c).1.installCall c cv sg a).1.callHooks_ ∧
    ((st.deinstrumentCall c).1.installCall c cv sg a).1.returnHooks_ = st.returnHooks_ ∧
    ((st.deinstrumentCall c).1.installCall c cv sg a).1.lastEntryHooks_ = st.lastEntryHooks_ ∧
    ((st.deinstrumentCall c).1.installCall c cv sg a).1.lastReturnHooks_ = st.lastReturnHooks_ ∧
    (∀ f, ((st.deinstrumentCall c).1.installCall c cv sg a).1.bodyAt (SiteKey.entry f)
      = st.bodyAt (SiteKey.entry f)) ∧
    (∀ r, ((st.deinstrumentCall c).1.installCall c cv sg a).1.bodyAt (SiteKey.ret r)
      = st.bodyAt (SiteKey.ret r)) ∧
    (∀ c2, c2 ≠ c →
      ((st.deinstrumentCall c).1.installCall c cv sg a).1.getCallHook c2 = st.getCallHook c2 ∧
      ((st.deinstrumentCall c).1.installCall c cv sg a).1.bodyAt (SiteKey.call c2)
        = st.bodyAt (SiteKey.call c2)) := by
  obtain ⟨d1, d2, d3, d4, d5, d6, d7, d8, d9⟩ := deinstrumentCall_frame st c
  obtain ⟨i1, i2, i3, i4, i5, i6, i7, i8⟩ :=
    installCall_frame (st.deinstrumentCall c).1 c cv sg a
  refine ⟨i1.trans d1, appendOnly_trans (d2 ▸ appendOnly_refl _) i2, i3.trans d3,
    i4.trans d5, i5.trans d6, fun f => (i6 f).trans (d7 f), fun r => (i7 r).trans (d8 r),
    fun c2 hc2 => ?_⟩
  obtain ⟨g1, g2⟩ := i8 c2 hc2
  obtain ⟨g3, g4⟩ := d9 c2 hc2
  exact ⟨g1.trans g3, g2.trans g4⟩

theorem instrumentCallSite_frame (st : Hooks) (c : CallId) (cv : Convention)
    (sg : CallSignature) (a : Option ByteAddr) :
    (st.instrumentCallSite c cv sg a).1.entryHooks_ = st.entryHooks_ ∧
    appendOnly st.callHooks_ (st.instrumentCallSite c cv sg a).1.callHooks_ ∧
    (st.instrumentCallSite c cv sg a).1.returnHooks_ = st.returnHooks_ ∧
    (st.instrumentCallSite c cv sg a).1.lastEntryHooks_ = st.lastEntryHooks_ ∧
    (st.instrumentCallSite c cv sg a).1.lastReturnHooks_ = st.lastReturnHooks_ ∧
    (∀ f, (st.instrumentCallSite c cv sg a).1.bodyAt (SiteKey.entry f) = st.bodyAt (SiteKey.entry f)) ∧
    (∀ r, (st.instrumentCallSite c cv sg a).1.bodyAt (SiteKey.ret r) = st.bodyAt (SiteKey.ret r)) ∧
    (∀ c2, c2 ≠ c → (st.instrumentCallSite c cv sg a).1.getCallHook c2 = st.getCallHook c2 ∧
      (st.instrumentCallSite c cv sg a).1.bodyAt (SiteKey.call c2) = st.bodyAt (SiteKey.call c2)) := by
  cases e : alookup c st.lastCallHooks_ with
  | some h =>
    by_cases hk : h.key = (⟨c, cv, sg, a⟩ : CallKey)
    · have hres : st.instrumentCallSite c cv sg a = (st, []) := by
        simp [Hooks.instrumentCallSite, e, hk]
      rw [hres]
      exact ⟨rfl, appendOnly_refl _, rfl, rfl, rfl, fun f => rfl, fun r => rfl,
        fun c2 hc2 => ⟨rfl, rfl⟩⟩
    · have hres : (st.instrumentCallSite c cv sg a).1
          = ((st.deinstrumentCall c).1.installCall c cv sg a).1 := by
        simp [Hooks.instrumentCallSite, e, hk]
      rw [hres]
      exact deinstall_install_call_frame st c cv sg a
  | none =>
    have hres : (st.instrumentCallSite c cv sg a).1
        = ((st.deinstrumentCall c).1.installCall c cv sg a).1 := by
      simp [Hooks.instrumentCallSite, e]
    rw [hres]
    exact deinstall_install_call_frame st c cv sg a

theorem deinstrumentEntry_frame (st : Hooks) (f : FunId) :
    (st.deinstrumentEntry f).1.entryHooks_ = st.entryHooks_ ∧
    (st.deinstrumentEntry f).1.callHooks_ = st.callHooks_ ∧
    (st.deinstrumentEntry f).1.returnHooks_ = st.returnHooks_ ∧
    (st.deinstrumentEntry f).1.nextHookId = st.nextHookId ∧
    (st.deinstrumentEntry f).1.lastCallHooks_ = st.lastCallHooks_ ∧
    (st.deinstrumentEntry f).1.lastReturnHooks_ = st.lastReturnHooks_ ∧
    (∀ c, (st.deinstrumentEntry f).1.bodyAt (SiteKey.call c) = st.bodyAt (SiteKey.call c)) ∧
    (∀ r, (st.deinstrumentEntry f).1.bodyAt (SiteKey.ret r) = st.bodyAt (SiteKey.ret r)) ∧
    (∀ f2, f2 ≠ f → (st.deinstrumentEntry f).1.getEntryHook f2 = st.getEntryHook f2 ∧
      (st.deinstrumentEntry f).1.bodyAt (SiteKey.entry f2) = st.bodyAt (SiteKey.entry f2)) := by
  cases e : alookup f st.lastEntryHooks_ with
  | none => simp [Hooks.deinstrumentEntry, e]
  | some h =>
    simp only [Hooks.deinstrumentEntry, e]
    refine ⟨trivial, trivial, trivial, trivial, trivial, trivial,
      fun c => ?_, fun r => ?_, fun f2 hf2 => ⟨?_, ?_⟩⟩
    · have hsne : SiteKey.call c ≠ SiteKey.entry f := by simp
      simp [Hooks.bodyAt, alookup_aupdate_ne _ _ hsne]
    · have hsne : SiteKey.ret r ≠ SiteKey.entry f := by simp
      simp [Hooks.bodyAt, alookup_aupdate_ne _ _ hsne]
    · simp [Hooks.getEntryHook, alookup_aerase_ne _ hf2]
    · have hsne : SiteKey.entry f2 ≠ SiteKey.entry f := by simp [hf2]
      simp [Hooks.bodyAt, alookup_aupdate_ne _ _ hsne]

theorem installEntry_frame (st : Hooks) (f : FunId) (cv : Convention)
    (sg : FunctionSignature) :
    appendOnly st.entryHooks_ (st.installEntry f cv sg).1.entryHooks_ ∧
    (st.installEntry f cv sg).1.callHooks_ = st.callHooks_ ∧
    (st.installEntry f cv sg).1.returnHooks_ = st.returnHooks_ ∧
    (st.installEntry f cv sg).1.lastCallHooks_ = st.lastCallHooks_ ∧
    (st.installEntry f cv sg).1.lastReturnHooks_ = st.lastReturnHooks_ ∧
    (∀ c, (st.installEntry f cv sg).1.bodyAt (SiteKey.call c) = st.bodyAt (SiteKey.call c)) ∧
    (∀ r, (st.installEntry f cv sg).1.bodyAt (SiteKey.ret r) = st.bodyAt (SiteKey.ret r)) ∧
    (∀ f2, f2 ≠ f → (st.installEntry f cv sg).1.getEntryHook f2 = st.getEntryHook f2 ∧
      (st.installEntry f cv sg).1.bodyAt (SiteKey.entry f2) = st.bodyAt (SiteKey.entry f2)) := by
  cases e : alookup (⟨f, cv, sg⟩ : EntryKey) st.entryHooks_ with
  | some h =>
    simp only [Hooks.installEntry, getOrCreate, e]
    refine ⟨appendOnly_refl _, trivial, trivial, trivial, trivial, fun c => ?_, fun r => ?_,
      fun f2 hf2 => ⟨?_, ?_⟩⟩
    · have hsne : SiteKey.call c ≠ SiteKey.entry f := by simp
      simp [Hooks.bodyAt, alookup_aupdate_ne _ _ hsne]
    · have hsne : SiteKey.ret r ≠ SiteKey.entry f := by simp
      simp [Hooks.bodyAt, alookup_aupdate_ne _ _ hsne]
    · simp [Hooks.getEntryHook, alookup_aupdate_ne _ _ hf2]
    · have hsne : SiteKey.entry f2 ≠ SiteKey.entry f := by simp [hf2]
      simp [Hooks.bodyAt, alookup_aupdate_ne _ _ hsne]
  | none =>
    simp only [Hooks.installEntry, getOrCreate, e, buildEntryHook]
    refine ⟨⟨_, rfl⟩, trivial, trivial, trivial, trivial, fun c => ?_, fun r => ?_,
      fun f2 hf2 => ⟨?_, ?_⟩⟩
    · have hsne : SiteKey.call c ≠ SiteKey.entry f := by simp
      simp [Hooks.bodyAt, alookup_aupdate_ne _ _ hsne]
    · have hsne : SiteKey.ret r ≠ SiteKey.entry f := by simp
      simp [Hooks.bodyAt, alookup_aupdate_ne _ _ hsne]
    · simp [Hooks.getEntryHook, alookup_aupdate_ne _ _ hf2]
    · have hsne : SiteKey.entry f2 ≠ SiteKey.entry f := by simp [hf2]
      simp [Hooks.bodyAt, alookup_aupdate_ne _ _ hsne]

theorem deinstall_install_entry_frame (st : Hooks) (f : FunId) (cv : Convention)
    (sg : FunctionSignature) :
    appendOnly st.entryHooks_ ((st.deinstrumentEntry f).1.installEntry f cv sg).1.entryHooks_ ∧
    ((st.deinstrumentEntry f).1.installEntry f cv sg).1.callHooks_ = st.callHooks_ ∧
    ((st.deinstrumentEntry f).1.installEntry f cv sg).1.returnHooks_ = st.returnHooks_ ∧
    ((st.deinstrumentEntry f).1.installEntry f cv sg).1.lastCallHooks_ = st.lastCallHooks_ ∧
    ((st.deinstrumentEntry f).1.installEntry f cv sg).1.lastReturnHooks_ = st.lastReturnHooks_ ∧
    (∀ c, ((st.deinstrumentEntry f).1.installEntry f cv sg).1.bodyAt (SiteKey.call c)
      = st.bodyAt (SiteKey.call c)) ∧
    (∀ r, ((st.deinstrumentEntry f).1.installEntry f cv sg).1.bodyAt (SiteKey.ret r)
      = st.bodyAt (SiteKey.ret r)) ∧
    (∀ f2, f2 ≠ f →
      ((st.deinstrumentEntry f).1.installEntry f cv sg).1.getEntryHook f2 = st.getEntryHook f2 ∧
      ((st.deinstrumentEntry f).1.installEntry f cv sg).1.bodyAt (SiteKey.entry f2)
        = st.bodyAt (SiteKey.entry f2)) := by
  obtain ⟨d1, d2, d3, d4, d5, d6, d7, d8, d9⟩ := deinstrumentEntry_frame st f
  obtain ⟨i1, i2, i3, i4, i5, i6, i7, i8⟩ :=
    installEntry_frame (st.deinstrumentEntry f).1 f cv sg
  refine ⟨appendOnly_trans (d1 ▸ appendOnly_refl _) i1, i2.trans d2, i3.trans d3,
    i4.trans d5, i5.trans d6, fun c => (i6 c).trans (d7 c), fun r => (i7 r).trans (d8 r),
    fun f2 hf2 => ?_⟩
  obtain ⟨g1, g2⟩ := i8 f2 hf2
  obtain ⟨g3, g4⟩ := d9 f2 hf2
  exact ⟨g1.trans g3, g2.trans g4⟩

theorem instrumentEntry_frame (st : Hooks) (f : FunId) (cv : Convention)
    (sg : FunctionSignature) :
    appendOnly st.entryHooks_ (st.instrumentEntry f cv sg).1.entryHooks_ ∧
    (st.instrumentEntry f cv sg).1.callHooks_ = st.callHooks_ ∧
    (st.instrumentEntry f cv sg).1.returnHooks_ = st.returnHooks_ ∧
    (st.instrumentEntry f cv sg).1.lastCallHooks_ = st.lastCallHooks_ ∧
    (st.instrumentEntry f cv sg).1.lastReturnHooks_ = st.lastReturnHooks_ ∧
    (∀ c, (st.instrumentEntry f cv sg).1.bodyAt (SiteKey.call c) = st.bodyAt (SiteKey.call c)) ∧
    (∀ r, (st.instrumentEntry f cv sg).1.bodyAt (SiteKey.ret r) = st.bodyAt (SiteKey.ret r)) ∧
    (∀ f2, f2 ≠ f → (st.instrumentEntry f cv sg).1.getEntryHook f2 = st.getEntryHook f2 ∧
      (st.instrumentEntry f cv sg).1.bodyAt (SiteKey.entry f2) = st.bodyAt (SiteKey.entry f2)) := by
  cases e : alookup f st.lastEntryHooks_ with
  | some h =>
    by_cases hk : h.key = (⟨f, cv, sg⟩ : EntryKey)
    · have hres : st.instrumentEntry f cv sg = (st, []) := by
        simp [Hooks.instrumentEntry, e, hk]
      rw [hres]
      exact ⟨appendOnly_refl _, rfl, rfl, rfl, rfl, fun c => rfl, fun r => rfl,
        fun f2 hf2 => ⟨rfl, rfl⟩⟩
    · have hres : (st.instrumentEntry f cv sg).1
          = ((st.deinstrumentEntry f).1.installEntry f cv sg).1 := by
        simp [Hooks.instrumentEntry, e, hk]
      rw [hres]
      exact deinstall_install_entry_frame st f cv sg
  | none =>
    have hres : (st.instrumentEntry f cv sg).1
        = ((st.deinstrumentEntry f).1.installEntry f cv sg).1 := by
      simp [Hooks.instrumentEntry, e]
    rw [hres]
    exact deinstall_install_entry_frame st f cv sg

theorem deinstrumentReturn_frame (st : Hooks) (r : RetId) :
    (st.deinstrumentReturn r).1.entryHooks_ = st.entryHooks_ ∧
    (st.deinstrumentReturn r).1.callHooks_ = st.callHooks_ ∧
    (st.deinstrumentReturn r).1.returnHooks_ = st.returnHooks_ ∧
    (st.deinstrumentReturn r).1.nextHookId = st.nextHookId ∧
    (st.deinstrumentReturn r).1.lastEntryHooks_ = st.lastEntryHooks_ ∧
    (st.deinstrumentReturn r).1.lastCallHooks_ = st.lastCallHooks_ ∧
    (∀ f, (st.deinstrumentReturn r).1.bodyAt (SiteKey.entry f) = st.bodyAt (SiteKey.entry f)) ∧
    (∀ c, (st.deinstrumentReturn r).1.bodyAt (SiteKey.call c) = st.bodyAt (SiteKey.call c)) ∧
    (∀ r2, r2 ≠ r → (st.deinstrumentReturn r).1.getReturnHook r2 = st.getReturnHook r2 ∧
      (st.deinstrumentReturn r).1.bodyAt (SiteKey.ret r2) = st.bodyAt (SiteKey.ret r2)) := by
  cases e : alookup r st.lastReturnHooks_ with
  | none => simp [Hooks.deinstrumentReturn, e]
  | some h =>
    simp only [Hooks.deinstrumentReturn, e]
    refine ⟨trivial, trivial, trivial, trivial, trivial, trivial,
      fun f => ?_, fun c => ?_, fun r2 hr2 => ⟨?_, ?_⟩⟩
    · have hsne : SiteKey.entry f ≠ SiteKey.ret r := by simp
      simp [Hooks.bodyAt, alookup_aupdate_ne _ _ hsne]
    · have hsne : SiteKey.call c ≠ SiteKey.ret r := by simp
      simp [Hooks.bodyAt, alookup_aupdate_ne _ _ hsne]
    · simp [Hooks.getReturnHook, alookup_aerase_ne _ hr2]
    · have hsne : SiteKey.ret r2 ≠ SiteKey.ret r := by simp [hr2]
      simp [Hooks.bodyAt, alookup_aupdate_ne _ _ hsne]

theorem installReturn_frame (st : Hooks) (r : RetId) (cv : Convention)
    (sg : FunctionSignature) :
    (st.installReturn r cv sg).1.entryHooks_ = st.entryHooks_ ∧
    (st.installReturn r cv sg).1.callHooks_ = st.callHooks_ ∧
    appendOnly st.returnHooks_ (st.installReturn r cv sg).1.returnHooks_ ∧
    (st.installReturn r cv sg).1.lastEntryHooks_ = st.lastEntryHooks_ ∧
    (st.installReturn r cv sg).1.lastCallHooks_ = st.lastCallHooks_ ∧
    (∀ f, (st.installReturn r cv sg).1.bodyAt (SiteKey.entry f) = st.bodyAt (SiteKey.entry f)) ∧
    (∀ c, (st.installReturn r cv sg).1.bodyAt (SiteKey.call c) = st.bodyAt (SiteKey.call c)) ∧
    (∀ r2, r2 ≠ r → (st.installReturn r cv sg).1.getReturnHook r2 = st.getReturnHook r2 ∧
      (st.installReturn r cv sg).1.bodyAt (SiteKey.ret r2) = st.bodyAt (SiteKey.ret r2)) := by
  cases e : alookup (⟨r, cv, sg⟩ : ReturnKey) st.returnHooks_ with
  | some h =>
    simp only [Hooks.installReturn, getOrCreate, e]
    refine ⟨trivial, trivial, appendOnly_refl _, trivial, trivial, fun f => ?_, fun c => ?_,
      fun r2 hr2 => ⟨?_, ?_⟩⟩
    · have hsne : SiteKey.entry f ≠ SiteKey.ret r := by simp
      simp [Hooks.bodyAt, alookup_aupdate_ne _ _ hsne]
    · have hsne : SiteKey.call c ≠ SiteKey.ret r := by simp
      simp [Hooks.bodyAt, alookup_aupdate_ne _ _ hsne]
    · simp [Hooks.getReturnHook, alookup_aupdate_ne _ _ hr2]
    · have hsne : SiteKey.ret r2 ≠ SiteKey.ret r := by simp [hr2]
      simp [Hooks.bodyAt, alookup_aupdate_ne _ _ hsne]
  | none =>
    simp only [Hooks.installReturn, getOrCreate, e, buildReturnHook]
    refine ⟨trivial, trivial, ⟨_, rfl⟩, trivial, trivial, fun f => ?_, fun c => ?_,
      fun r2 hr2 => ⟨?_, ?_⟩⟩
    · have hsne : SiteKey.entry f ≠ SiteKey.ret r := by simp
      simp [Hooks.bodyAt, alookup_aupdate_ne _ _ hsne]
    · have hsne : SiteKey.call c ≠ SiteKey.ret r := by simp
      simp [Hooks.bodyAt, alookup_aupdate_ne _ _ hsne]
    · simp [Hooks.getReturnHook, alookup_aupdate_ne _ _ hr2]
    · have hsne : SiteKey.ret r2 ≠ SiteKey.ret r := by simp [hr2]
      simp [Hooks.bodyAt, alookup_aupdate_ne _ _ hsne]

theorem deinstall_install_ret_frame (st : Hooks) (r : RetId) (cv : Convention)
    (sg : FunctionSignature) :
    ((st.deinstrumentReturn r).1.installReturn r cv sg).1.entryHooks_ = st.entryHooks_ ∧
    ((st.deinstrumentReturn r).1.installReturn r cv sg).1.callHooks_ = st.callHooks_ ∧
    appendOnly st.returnHooks_ ((st.deinstrumentReturn r).1.installReturn r cv sg).1.returnHooks_ ∧
    ((st.deinstrumentReturn r).1.installReturn r cv sg).1.lastEntryHooks_ = st.lastEntryHooks_ ∧
    ((st.deinstrumentReturn r).1.installReturn r cv sg).1.lastCallHooks_ = st.lastCallHooks_ ∧
    (∀ f, ((st.deinstrumentReturn r).1.installReturn r cv sg).1.bodyAt (SiteKey.entry f)
      = st.bodyAt (SiteKey.entry f)) ∧
    (∀ c, ((st.deinstrumentReturn r).1.installReturn r cv sg).1.bodyAt (SiteKey.call c)
      = st.bodyAt (SiteKey.call c)) ∧
    (∀ r2, r2 ≠ r →
      ((st.deinstrumentReturn r).1.installReturn r cv sg).1.getReturnHook r2 = st.getReturnHook r2 ∧
      ((st.deinstrumentReturn r).1.installReturn r cv sg).1.bodyAt (SiteKey.ret r2)
        = st.bodyAt (SiteKey.ret r2)) := by
  obtain ⟨d1, d2, d3, d4, d5, d6, d7, d8, d9⟩ := deinstrumentReturn_frame st r
  obtain ⟨i1, i2, i3, i4, i5, i6, i7, i8⟩ :=
    installReturn_frame (st.deinstrumentReturn r).1 r cv sg
  refine ⟨i1.trans d1, i2.trans d2, appendOnly_trans (d3 ▸ appendOnly_refl _) i3,
    i4.trans d5, i5.trans d6, fun f => (i6 f).trans (d7 f), fun c => (i7 c).trans (d8 c),
    fun r2 hr2 => ?_⟩
  obtain ⟨g1, g2⟩ := i8 r2 hr2
  obtain ⟨g3, g4⟩ := d9 r2 hr2
  exact ⟨g1.trans g3, g2.trans g4⟩

theorem instrumentReturnSite_frame (st : Hooks) (r : RetId) (cv : Convention)
    (sg : FunctionSignature) :
    (st.instrumentReturnSite r cv sg).1.entryHooks_ = st.entryHooks_ ∧
    (st.instrumentReturnSite r cv sg).1.callHooks_ = st.callHooks_ ∧
    appendOnly st.returnHooks_ (st.instrumentReturnSite r cv sg).1.returnHooks_ ∧
    (st.instrumentReturnSite r cv sg).1.lastEntryHooks_ = st.lastEntryHooks_ ∧
    (st.instrumentReturnSite r cv sg).1.lastCallHooks_ = st.lastCallHooks_ ∧
    (∀ f, (st.instrumentReturnSite r cv sg).1.bodyAt (SiteKey.entry f) = st.bodyAt (SiteKey.entry f)) ∧
    (∀ c, (st.instrumentReturnSite r cv sg).1.bodyAt (SiteKey.call c) = st.bodyAt (SiteKey.call c)) ∧
    (∀ r2, r2 ≠ r → (st.instrumentReturnSite r cv sg).1.getReturnHook r2 = st.getReturnHook r2 ∧
      (st.instrumentReturnSite r cv sg).1.bodyAt (SiteKey.ret r2) = st.bodyAt (SiteKey.ret r2)) := by
  cases e : alookup r st.lastReturnHooks_ with
  | some h =>
    by_cases hk : h.key = (⟨r, cv, sg⟩ : ReturnKey)
    · have hres : st.instrumentReturnSite r cv sg = (st, []) := by
        simp [Hooks.instrumentReturnSite, e, hk]
      rw [hres]
      exact ⟨rfl, rfl, appendOnly_refl _, rfl, rfl, fun f => rfl, fun c => rfl,
        fun r2 hr2 => ⟨rfl, rfl⟩⟩
    · have hres : (st.instrumentReturnSite r cv sg).1
          = ((st.deinstrumentReturn r).1.installReturn r cv sg).1 := by
        simp [Hooks.instrumentReturnSite, e, hk]
      rw [hres]
      exact deinstall_install_ret_frame st r cv sg
  | none =>
    have hres : (st.instrumentReturnSite r cv sg).1
        = ((st.deinstrumentReturn r).1.installReturn r cv sg).1 := by
      simp [Hooks.instrumentReturnSite, e]
    rw [hres]
    exact deinstall_install_ret_frame st r cv sg

/-! ### Behaviour of the convention-resolution bridge -/

theorem getConvention_none_detector (cid : CalleeId) (R : Conventions)
    (att : List CalleeId) : getConvention none cid R att = ⟨alookup cid R, R, att, []⟩ := by
  cases e : alookup cid R <;> simp [getConvention, e]

theorem getConvention_hit {cid : CalleeId} {R : Conventions} {c : Convention}
    (d : Option ConventionDetector) (att : List CalleeId) (e : alookup cid R = some c) :
    getConvention d cid R att = ⟨some c, R, att, []⟩ := by
  simp [getConvention, e]

theorem getConvention_stable {d : Option ConventionDetector} {R : Conventions}
    (hstab : detectorStableAt d R) (cid : CalleeId) (att : List CalleeId) :
    (getConvention d cid R att).result = alookup cid R ∧
    (getConvention d cid R att).conv = R := by
  cases e : alookup cid R with
  | some c => simp [getConvention, e]
  | none =>
    cases d with
    | none => simp [getConvention, e]
    | some det =>
      by_cases ha : cid ∈ att
      · simp [getConvention, e, ha]
      · have hd := hstab det cid rfl
        simp [getConvention, e, ha, hd]

theorem getConvention_events (d : Option ConventionDetector) (cid : CalleeId)
    (R : Conventions) (att : List CalleeId) :
    (getConvention d cid R att).events = [] ∨
      (getConvention d cid R att).events = [Event.detect cid] := by
  cases e : alookup cid R with
  | some c => simp [getConvention, e]
  | none =>
    cases d with
    | none => simp [getConvention, e]
    | some det =>
      by_cases ha : cid ∈ att <;> simp [getConvention, e, ha]

/-! ### The events emitted by the per-site steps -/

theorem installEntry_events (st : Hooks) (f : FunId) (cv : Convention)
    (sg : FunctionSignature) :
    ∃ hid, (st.installEntry f cv sg).2 = [Event.installEntry f hid] := by
  cases e : alookup (⟨f, cv, sg⟩ : EntryKey) st.entryHooks_ with
  | some h =>
    refine ⟨h.hid, ?_⟩
    simp [Hooks.installEntry, getOrCreate, e]
  | none =>
    refine ⟨st.nextHookId, ?_⟩
    simp [Hooks.installEntry, getOrCreate, e, buildEntryHook]

theorem installCall_events (st : Hooks) (c : CallId) (cv : Convention)
    (sg : CallSignature) (a : Option ByteAddr) :
    ∃ hid, (st.installCall c cv sg a).2 = [Event.installCall c hid] := by
  cases e : alookup (⟨c, cv, sg, a⟩ : CallKey) st.callHooks_ with
  | some h =>
    refine ⟨h.hid, ?_⟩
    simp [Hooks.installCall, getOrCreate, e]
  | none =>
    refine ⟨st.nextHookId, ?_⟩
    simp [Hooks.installCall, getOrCreate, e, buildCallHook]

theorem installReturn_events (st : Hooks) (r : RetId) (cv : Convention)
    (sg : FunctionSignature) :
    ∃ hid, (st.installReturn r cv sg).2 = [Event.installReturn r hid] := by
  cases e : alookup (⟨r, cv, sg⟩ : ReturnKey) st.returnHooks_ with
  | some h =>
    refine ⟨h.hid, ?_⟩
    simp [Hooks.installReturn, getOrCreate, e]
  | none =>
    refine ⟨st.nextHookId, ?_⟩
    simp [Hooks.installReturn, getOrCreate, e, buildReturnHook]

theorem instrumentEntry_events (st : Hooks) (f : FunId) (cv : Convention)
    (sg : FunctionSignature) :
    (st.instrumentEntry f cv sg).2 = [] ∨
      (∃ hid, (st.instrumentEntry f cv sg).2 = [Event.installEntry f hid]) ∨
      (∃ hid, (st.instrumentEntry f cv sg).2
        = [Event.deinstallEntry f, Event.installEntry f hid]) := by
  obtain ⟨hid, hins⟩ := installEntry_events (st.deinstrumentEntry f).1 f cv sg
  cases e : alookup f st.lastEntryHooks_ with
  | some h =>
    by_cases hk : h.key = (⟨f, cv, sg⟩ : EntryKey)
    · left
      simp [Hooks.instrumentEntry, e, hk]
    · right; right
      refine ⟨hid, ?_⟩
      have hde : (st.deinstrumentEntry f).2 = [Event.deinstallEntry f] := by
        simp [Hooks.deinstrumentEntry, e]
      have hev : (st.instrumentEntry f cv sg).2
          = (st.deinstrumentEntry f).2 ++ ((st.deinstrumentEntry f).1.installEntry f cv sg).2 := by
        simp [Hooks.instrumentEntry, e, hk]
      rw [hev, hde, hins]
      rfl
  | none =>
    right; left
    refine ⟨hid, ?_⟩
    have hde : (st.deinstrumentEntry f).2 = [] := by
      simp [Hooks.deinstrumentEntry, e]
    have hev : (st.instrumentEntry f cv sg).2
        = (st.deinstrumentEntry f).2 ++ ((st.deinstrumentEntry f).1.installEntry f cv sg).2 := by
      simp [Hooks.instrumentEntry, e]
    rw [hev, hde, hins]
    rfl

theorem instrumentCallSite_events (st : Hooks) (c : CallId) (cv : Convention)
    (sg : CallSignature) (a : Option ByteAddr) :
    (st.instrumentCallSite c cv sg a).2 = [] ∨
      (∃ hid, (st.instrumentCallSite c cv sg a).2 = [Event.installCall c hid]) ∨
      (∃ hid, (st.instrumentCallSite c cv sg a).2
        = [Event.deinstallCall c, Event.installCall c hid]) := by
  obtain ⟨hid, hins⟩ := installCall_events (st.deinstrumentCall c).1 c cv sg a
  cases e : alookup c st.lastCallHooks_ with
  | some h =>
    by_cases hk : h.key = (⟨c, cv, sg, a⟩ : CallKey)
    · left
      simp [Hooks.instrumentCallSite, e, hk]
    · right; right
      refine ⟨hid, ?_⟩
      have hde : (st.deinstrumentCall c).2 = [Event.deinstallCall c] := by
        simp [Hooks.deinstrumentCall, e]
      have hev : (st.instrumentCallSite c cv sg a).2
          = (st.deinstrumentCall c).2 ++ ((st.deinstrumentCall c).1.installCall c cv sg a).2 := by
        simp [Hooks.instrumentCallSite, e, hk]
      rw [hev, hde, hins]
      rfl
  | none =>
    right; left
    refine ⟨hid, ?_⟩
    have hde : (st.deinstrumentCall c).2 = [] := by
      simp [Hooks.deinstrumentCall, e]
    have hev : (st.instrumentCallSite c cv sg a).2
        = (st.deinstrumentCall c).2 ++ ((st.deinstrumentCall c).1.installCall c cv sg a).2 := by
      simp [Hooks.instrumentCallSite, e]
    rw [hev, hde, hins]
    rfl

theorem instrumentReturnSite_events (st : Hooks) (r : RetId) (cv : Convention)
    (sg : FunctionSignature) :
    (st.instrumentReturnSite r cv sg).2 = [] ∨
      (∃ hid, (st.instrumentReturnSite r cv sg).2 = [Event.installReturn r hid]) ∨
      (∃ hid, (st.instrumentReturnSite r cv sg).2
        = [Event.deinstallReturn r, Event.installReturn r hid]) := by
  obtain ⟨hid, hins⟩ := installReturn_events (st.deinstrumentReturn r).1 r cv sg
  cases e : alookup r st.lastReturnHooks_ with
  | some h =>
    by_cases hk : h.key = (⟨r, cv, sg⟩ : ReturnKey)
    · left
      simp [Hooks.instrumentReturnSite, e, hk]
    · right; right
      refine ⟨hid, ?_⟩
      have hde : (st.deinstrumentReturn r).2 = [Event.deinstallReturn r] := by
        simp [Hooks.deinstrumentReturn, e]
      have hev : (st.instrumentReturnSite r cv sg).2
          = (st.deinstrumentReturn r).2 ++ ((st.deinstrumentReturn r).1.installReturn r cv sg).2 := by
        simp [Hooks.instrumentReturnSite, e, hk]
      rw [hev, hde, hins]
      rfl
  | none =>
    right; left
    refine ⟨hid, ?_⟩
    have hde : (st.deinstrumentReturn r).2 = [] := by
      simp [Hooks.deinstrumentReturn, e]
    have hev : (st.instrumentReturnSite r cv sg).2
        = (st.deinstrumentReturn r).2 ++ ((st.deinstrumentReturn r).1.installReturn r cv sg).2 := by
      simp [Hooks.instrumentReturnSite, e]
    rw [hev, hde, hins]
    rfl

/-! ### Behaviour of the per-site wrapper operations -/

theorem instrumentCall_conv (sigs : Signatures) (d : Option ConventionDetector)
    (c : Call) (a : Option ByteAddr) (s : StepResult) :
    (instrumentCall sigs d c a s).conv
      = (getConvention d (getCalleeIdOfCall c a) s.conv s.attempted).conv ∧
    (instrumentCall sigs d c a s).attempted
      = (getConvention d (getCalleeIdOfCall c a) s.conv s.attempted).attempted := by
  rw [instrumentCall]
  cases hg : (getConvention d (getCalleeIdOfCall c a) s.conv s.attempted).result with
  | none => exact ⟨rfl, rfl⟩
  | some cv =>
    cases hs : sigs.callSignature c.cid with
    | none => exact ⟨rfl, rfl⟩
    | some sg => exact ⟨rfl, rfl⟩

theorem instrumentReturn_conv (sigs : Signatures) (d : Option ConventionDetector)
    (fcid : CalleeId) (r : Return) (s : StepResult) :
    (instrumentReturn sigs d fcid r s).conv
      = (getConvention d fcid s.conv s.attempted).conv ∧
    (instrumentReturn sigs d fcid r s).attempted
      = (getConvention d fcid s.conv s.attempted).attempted := by
  rw [instrumentReturn]
  cases hg : (getConvention d fcid s.conv s.attempted).result with
  | none => exact ⟨rfl, rfl⟩
  | some cv =>
    cases hs : sigs.functionSignature fcid with
    | none => exact ⟨rfl, rfl⟩
    | some sg => exact ⟨rfl, rfl⟩

theorem instrumentCall_trace (sigs : Signatures) (d : Option ConventionDetector)
    (c : Call) (a : Option ByteAddr) (s : StepResult) :
    ∃ evd evs, (instrumentCall sigs d c a s).trace = s.trace ++ evd ++ evs ∧
      (evd = [] ∨ evd = [Event.detect (getCalleeIdOfCall c a)]) ∧
      (evs = [] ∨ (∃ hid, evs = [Event.installCall c.cid hid]) ∨
        (∃ hid, evs = [Event.deinstallCall c.cid, Event.installCall c.cid hid])) := by
  rw [instrumentCall]
  cases hg : (getConvention d (getCalleeIdOfCall c a) s.conv s.attempted).result with
  | none =>
    refine ⟨(getConvention d (getCalleeIdOfCall c a) s.conv s.attempted).events, [],
      by simp, getConvention_events d _ s.conv s.attempted, Or.inl rfl⟩
  | some cv =>
    cases hs : sigs.callSignature c.cid with
    | none =>
      refine ⟨(getConvention d (getCalleeIdOfCall c a) s.conv s.attempted).events, [],
        by simp, getConvention_events d _ s.conv s.attempted, Or.inl rfl⟩
    | some sg =>
      refine ⟨(getConvention d (getCalleeIdOfCall c a) s.conv s.attempted).events,
        (s.hooks.instrumentCallSite c.cid cv sg a).2, rfl,
        getConvention_events d _ s.conv s.attempted,
        instrumentCallSite_events s.hooks c.cid cv sg a⟩

theorem instrumentReturn_trace (sigs : Signatures) (d : Option ConventionDetector)
    (fcid : CalleeId) (r : Return) (s : StepResult) :
    ∃ evd evs, (instrumentReturn sigs d fcid r s).trace = s.trace ++ evd ++ evs ∧
      (evd = [] ∨ evd = [Event.detect fcid]) ∧
      (evs = [] ∨ (∃ hid, evs = [Event.installReturn r.rid hid]) ∨
        (∃ hid, evs = [Event.deinstallReturn r.rid, Event.installReturn r.rid hid])) := by
  rw [instrumentReturn]
  cases hg : (getConvention d fcid s.conv s.attempted).result with
  | none =>
    refine ⟨(getConvention d fcid s.conv s.attempted).events, [],
      by simp, getConvention_events d fcid s.conv s.attempted, Or.inl rfl⟩
  | some cv =>
    cases hs : sigs.functionSignature fcid with
    | none =>
      refine ⟨(getConvention d fcid s.conv s.attempted).events, [],
        by simp, getConvention_events d fcid s.conv s.attempted, Or.inl rfl⟩
    | some sg =>
      refine ⟨(getConvention d fcid s.conv s.attempted).events,
        (s.hooks.instrumentReturnSite r.rid cv sg).2, rfl,
        getConvention_events d fcid s.conv s.attempted,
        instrumentReturnSite_events s.hooks r.rid cv sg⟩

theorem instrumentCall_hframe (sigs : Signatures) (d : Option ConventionDetector)
    (c : Call) (a : Option ByteAddr) (s : StepResult) :
    (instrumentCall sigs d c a s).hooks.lastEntryHooks_ = s.hooks.lastEntryHooks_ ∧
    (instrumentCall sigs d c a s).hooks.lastReturnHooks_ = s.hooks.lastReturnHooks_ ∧
    (instrumentCall sigs d c a s).hooks.entryHooks_ = s.hooks.entryHooks_ ∧
    (instrumentCall sigs d c a s).hooks.returnHooks_ = s.hooks.returnHooks_ ∧
    appendOnly s.hooks.callHooks_ (instrumentCall sigs d c a s).hooks.callHooks_ ∧
    (∀ f, (instrumentCall sigs d c a s).hooks.bodyAt (SiteKey.entry f)
      = s.hooks.bodyAt (SiteKey.entry f)) ∧
    (∀ r, (instrumentCall sigs d c a s).hooks.bodyAt (SiteKey.ret r)
      = s.hooks.bodyAt (SiteKey.ret r)) ∧
    (∀ c2, c2 ≠ c.cid →
      (instrumentCall sigs d c a s).hooks.getCallHook c2 = s.hooks.getCallHook c2 ∧
      (instrumentCall sigs d c a s).hooks.bodyAt (SiteKey.call c2)
        = s.hooks.bodyAt (SiteKey.call c2)) := by
  rw [instrumentCall]
  cases hg : (getConvention d (getCalleeIdOfCall c a) s.conv s.attempted).result with
  | none =>
    exact ⟨rfl, rfl, rfl, rfl, appendOnly_refl _, fun f => rfl, fun r => rfl,
      fun c2 h => ⟨rfl, rfl⟩⟩
  | some cv =>
    cases hs : sigs.callSignature c.cid with
    | none =>
      exact ⟨rfl, rfl, rfl, rfl, appendOnly_refl _, fun f => rfl, fun r => rfl,
        fun c2 h => ⟨rfl, rfl⟩⟩
    | some sg =>
      obtain ⟨i1, i2, i3, i4, i5, i6, i7, i8⟩ := instrumentCallSite_frame s.hooks c.cid cv sg a
      exact ⟨i4, i5, i1, i3, i2, i6, i7, i8⟩

theorem instrumentReturn_hframe (sigs : Signatures) (d : Option ConventionDetector)
    (fcid : CalleeId) (r : Return) (s : StepResult) :
    (instrumentReturn sigs d fcid r s).hooks.lastEntryHooks_ = s.hooks.lastEntryHooks_ ∧
    (instrumentReturn sigs d fcid r s).hooks.lastCallHooks_ = s.hooks.lastCallHooks_ ∧
    (instrumentReturn sigs d fcid r s).hooks.entryHooks_ = s.hooks.entryHooks_ ∧
    (instrumentReturn sigs d fcid r s).hooks.callHooks_ = s.hooks.callHooks_ ∧
    appendOnly s.hooks.returnHooks_ (instrumentReturn sigs d fcid r s).hooks.returnHooks_ ∧
    (∀ f, (instrumentReturn sigs d fcid r s).hooks.bodyAt (SiteKey.entry f)
      = s.hooks.bodyAt (SiteKey.entry f)) ∧
    (∀ c, (instrumentReturn sigs d fcid r s).hooks.bodyAt (SiteKey.call c)
      = s.hooks.bodyAt (SiteKey.call c)) ∧
    (∀ r2, r2 ≠ r.rid →
      (instrumentReturn sigs d fcid r s).hooks.getReturnHook r2 = s.hooks.getReturnHook r2 ∧
      (instrumentReturn sigs d fcid r s).hooks.bodyAt (SiteKey.ret r2)
        = s.hooks.bodyAt (SiteKey.ret r2)) := by
  rw [instrumentReturn]
  cases hg : (getConvention d fcid s.conv s.attempted).result with
  | none =>
    exact ⟨rfl, rfl, rfl, rfl, appendOnly_refl _, fun f => rfl, fun c => rfl,
      fun r2 h => ⟨rfl, rfl⟩⟩
  | some cv =>
    cases hs : sigs.functionSignature fcid with
    | none =>
      exact ⟨rfl, rfl, rfl, rfl, appendOnly_refl _, fun f => rfl, fun c => rfl,
        fun r2 h => ⟨rfl, rfl⟩⟩
    | some sg =>
      obtain ⟨i1, i2, i3, i4, i5, i6, i7, i8⟩ := instrumentReturnSite_frame s.hooks r.rid cv sg
      exact ⟨i4, i5, i1, i2, i3, i6, i7, i8⟩

theorem instrumentCall_run {sigs : Signatures} {d : Option ConventionDetector}
    {c : Call} {a : Option ByteAddr} {s : StepResult} {cv : Convention} {sg : CallSignature}
    (hcv : (getConvention d (getCalleeIdOfCall c a) s.conv s.attempted).result = some cv)
    (hsg : sigs.callSignature c.cid = some sg) :
    (instrumentCall sigs d c a s).hooks = (s.hooks.instrumentCallSite c.cid cv sg a).1 := by
  rw [instrumentCall]
  simp only [hcv, hsg]

theorem instrumentCall_skip {sigs : Signatures} {d : Option ConventionDetector}
    {c : Call} {a : Option ByteAddr} {s : StepResult}
    (h : (getConvention d (getCalleeIdOfCall c a) s.conv s.attempted).result = none ∨
      sigs.callSignature c.cid = none) :
    (instrumentCall sigs d c a s).hooks = s.hooks := by
  rw [instrumentCall]
  cases hg : (getConvention d (getCalleeIdOfCall c a) s.conv s.attempted).result with
  | none => rfl
  | some cv =>
    rcases h with h | h
    · rw [hg] at h
      exact absurd h (by simp)
    · simp only [h]

theorem instrumentReturn_run {sigs : Signatures} {d : Option ConventionDetector}
    {fcid : CalleeId} {r : Return} {s : StepResult} {cv : Convention} {sg : FunctionSignature}
    (hcv : (getConvention d fcid s.conv s.attempted).result = some cv)
    (hsg : sigs.functionSignature fcid = some sg) :
    (instrumentReturn sigs d fcid r s).hooks = (s.hooks.instrumentReturnSite r.rid cv sg).1 := by
  rw [instrumentReturn]
  simp only [hcv, hsg]

theorem instrumentReturn_skip {sigs : Signatures} {d : Option ConventionDetector}
    {fcid : CalleeId} {r : Return} {s : StepResult}
    (h : (getConvention d fcid s.conv s.attempted).result = none ∨
      sigs.functionSignature fcid = none) :
    (instrumentReturn sigs d fcid r s).hooks = s.hooks := by
  rw [instrumentReturn]
  cases hg : (getConvention d fcid s.conv s.attempted).result with
  | none => rfl
  | some cv =>
    rcases h with h | h
    · rw [hg] at h
      exact absurd h (by simp)
    · simp only [h]

theorem instrument_skip {sigs : Signatures} {df : Dataflow} {d : Option ConventionDetector}
    {f : Function} {st : Hooks} {R : Conventions}
    (h : (getConvention d f.calleeId R []).result = none ∨
      sigs.functionSignature f.calleeId = none) :
    (instrument sigs df d f st R).hooks = st ∧
    (instrument sigs df d f st R).conv = (getConvention d f.calleeId R []).conv ∧
    (instrument sigs df d f st R).trace = (getConvention d f.calleeId R []).events := by
  rw [instrument]
  cases hg : (getConvention d f.calleeId R []).result with
  | none => exact ⟨rfl, rfl, rfl⟩
  | some cv =>
    rcases h with h | h
    · rw [hg] at h
      exact absurd h (by simp)
    · rw [h]
      exact ⟨rfl, rfl, rfl⟩

theorem instrument_run {sigs : Signatures} {df : Dataflow} {d : Option ConventionDetector}
    {f : Function} {st : Hooks} {R : Conventions} {cv : Convention} {sg : FunctionSignature}
    (hcv : (getConvention d f.calleeId R []).result = some cv)
    (hsg : sigs.functionSignature f.calleeId = some sg) :
    instrument sigs df d f st R
      = f.rets.foldl (fun s r => instrumentReturn sigs d f.calleeId r s)
          (f.calls.foldl (fun s c => instrumentCall sigs d c (df c.cid) s)
            ⟨(st.instrumentEntry f.fid cv sg).1, (getConvention d f.calleeId R []).conv,
              (getConvention d f.calleeId R []).attempted,
              (getConvention d f.calleeId R []).events ++ (st.instrumentEntry f.fid cv sg).2⟩) := by
  rw [instrument]
  simp only [hcv, hsg]

/-! ### Per-site postconditions: after a step, the site carries the freshly keyed hook -/

theorem installEntry_post {st : Hooks} (f : FunId) (cv : Convention)
    (sg : FunctionSignature) (hW : CacheWF st) :
    ∃ h : EntryHook, (st.installEntry f cv sg).1.getEntryHook f = some h ∧
      h.key = ⟨f, cv, sg⟩ ∧
      (⟨f, cv, sg⟩, h) ∈ (st.installEntry f cv sg).1.entryHooks_ := by
  cases e : alookup (⟨f, cv, sg⟩ : EntryKey) st.entryHooks_ with
  | some h =>
    refine ⟨h, ?_, hW.entryKeyEq _ (alookup_mem e), ?_⟩
    · simp [Hooks.installEntry, getOrCreate, e, Hooks.getEntryHook, alookup_aupdate_self]
    · simp only [Hooks.installEntry, getOrCreate, e]
      exact alookup_mem e
  | none =>
    refine ⟨⟨st.nextHookId, ⟨f, cv, sg⟩⟩, ?_, rfl, ?_⟩
    · simp [Hooks.installEntry, getOrCreate, e, buildEntryHook, Hooks.getEntryHook,
        alookup_aupdate_self]
    · simp only [Hooks.installEntry, getOrCreate, e, buildEntryHook]
      exact List.mem_append_right _ (List.mem_singleton.mpr rfl)

theorem installCall_post {st : Hooks} (c : CallId) (cv : Convention)
    (sg : CallSignature) (a : Option ByteAddr) (hW : CacheWF st) :
    ∃ h : CallHook, (st.installCall c cv sg a).1.getCallHook c = some h ∧
      h.key = ⟨c, cv, sg, a⟩ ∧
      (⟨c, cv, sg, a⟩, h) ∈ (st.installCall c cv sg a).1.callHooks_ := by
  cases e : alookup (⟨c, cv, sg, a⟩ : CallKey) st.callHooks_ with
  | some h =>
    refine ⟨h, ?_, hW.callKeyEq _ (alookup_mem e), ?_⟩
    · simp [Hooks.installCall, getOrCreate, e, Hooks.getCallHook, alookup_aupdate_self]
    · simp only [Hooks.installCall, getOrCreate, e]
      exact alookup_mem e
  | none =>
    refine ⟨⟨st.nextHookId, ⟨c, cv, sg, a⟩⟩, ?_, rfl, ?_⟩
    · simp [Hooks.installCall, getOrCreate, e, buildCallHook, Hooks.getCallHook,
        alookup_aupdate_self]
    · simp only [Hooks.installCall, getOrCreate, e, buildCallHook]
      exact List.mem_append_right _ (List.mem_singleton.mpr rfl)

theorem installReturn_post {st : Hooks} (r : RetId) (cv : Convention)
    (sg : FunctionSignature) (hW : CacheWF st) :
    ∃ h : ReturnHook, (st.installReturn r cv sg).1.getReturnHook r = some h ∧
      h.key = ⟨r, cv, sg⟩ ∧
      (⟨r, cv, sg⟩, h) ∈ (st.installReturn r cv sg).1.returnHooks_ := by
  cases e : alookup (⟨r, cv, sg⟩ : ReturnKey) st.returnHooks_ with
  | some h =>
    refine ⟨h, ?_, hW.retKeyEq _ (alookup_mem e), ?_⟩
    · simp [Hooks.installReturn, getOrCreate, e, Hooks.getReturnHook, alookup_aupdate_self]
    · simp only [Hooks.installReturn, getOrCreate, e]
      exact alookup_mem e
  | none =>
    refine ⟨⟨st.nextHookId, ⟨r, cv, sg⟩⟩, ?_, rfl, ?_⟩
    · simp [Hooks.installReturn, getOrCreate, e, buildReturnHook, Hooks.getReturnHook,
        alookup_aupdate_self]
    · simp only [Hooks.installReturn, getOrCreate, e, buildReturnHook]
      exact List.mem_append_right _ (List.mem_singleton.mpr rfl)

theorem instrumentEntry_post {st : Hooks} (f : FunId) (cv : Convention)
    (sg : FunctionSignature) (hW : CacheWF st) :
    ∃ h : EntryHook, (st.instrumentEntry f cv sg).1.getEntryHook f = some h ∧
      h.key = ⟨f, cv, sg⟩ ∧
      (⟨f, cv, sg⟩, h) ∈ (st.instrumentEntry f cv sg).1.entryHooks_ := by
  cases e : alookup f st.lastEntryHooks_ with
  | some h0 =>
    by_cases hk : h0.key = (⟨f, cv, sg⟩ : EntryKey)
    · have hres : st.instrumentEntry f cv sg = (st, []) := by
        simp [Hooks.instrumentEntry, e, hk]
      rw [hres]
      obtain ⟨hm, _⟩ := hW.lastEntryMem (f, h0) (alookup_mem e)
      refine ⟨h0, e, hk, ?_⟩
      rw [← hk]
      exact hm
    · have hres : (st.instrumentEntry f cv sg).1
          = ((st.deinstrumentEntry f).1.installEntry f cv sg).1 := by
        simp [Hooks.instrumentEntry, e, hk]
      rw [hres]
      exact installEntry_post f cv sg (cacheWF_deinstrumentEntry f hW)
  | none =>
    have hres : (st.instrumentEntry f cv sg).1
        = ((st.deinstrumentEntry f).1.installEntry f cv sg).1 := by
      simp [Hooks.instrumentEntry, e]
    rw [hres]
    exact installEntry_post f cv sg (cacheWF_deinstrumentEntry f hW)

theorem instrumentCallSite_post {st : Hooks} (c : CallId) (cv : Convention)
    (sg : CallSignature) (a : Option ByteAddr) (hW : CacheWF st) :
    ∃ h : CallHook, (st.instrumentCallSite c cv sg a).1.getCallHook c = some h ∧
      h.key = ⟨c, cv, sg, a⟩ ∧
      (⟨c, cv, sg, a⟩, h) ∈ (st.instrumentCallSite c cv sg a).1.callHooks_ := by
  cases e : alookup c st.lastCallHooks_ with
  | some h0 =>
    by_cases hk : h0.key = (⟨c, cv, sg, a⟩ : CallKey)
    · have hres : st.instrumentCallSite c cv sg a = (st, []) := by
        simp [Hooks.instrumentCallSite, e, hk]
      rw [hres]
      obtain ⟨hm, _⟩ := hW.lastCallMem (c, h0) (alookup_mem e)
      refine ⟨h0, e, hk, ?_⟩
      rw [← hk]
      exact hm
    · have hres : (st.instrumentCallSite c cv sg a).1
          = ((st.deinstrumentCall c).1.installCall c cv sg a).1 := by
        simp [Hooks.instrumentCallSite, e, hk]
      rw [hres]
      exact installCall_post c cv sg a (cacheWF_deinstrumentCall c hW)
  | none =>
    have hres : (st.instrumentCallSite c cv sg a).1
        = ((st.deinstrumentCall c).1.installCall c cv sg a).1 := by
      simp [Hooks.instrumentCallSite, e]
    rw [hres]
    exact installCall_post c cv sg a (cacheWF_deinstrumentCall c hW)

theorem instrumentReturnSite_post {st : Hooks} (r : RetId) (cv : Convention)
    (sg : FunctionSignature) (hW : CacheWF st) :
    ∃ h : ReturnHook, (st.instrumentReturnSite r cv sg).1.getReturnHook r = some h ∧
      h.key = ⟨r, cv, sg⟩ ∧
      (⟨r, cv, sg⟩, h) ∈ (st.instrumentReturnSite r cv sg).1.returnHooks_ := by
  cases e : alookup r st.lastReturnHooks_ with
  | some h0 =>
    by_cases hk : h0.key = (⟨r, cv, sg⟩ : ReturnKey)
    · have hres : st.instrumentReturnSite r cv sg = (st, []) := by
        simp [Hooks.instrumentReturnSite, e, hk]
      rw [hres]
      obtain ⟨hm, _⟩ := hW.lastRetMem (r, h0) (alookup_mem e)
      refine ⟨h0, e, hk, ?_⟩
      rw [← hk]
      exact hm
    · have hres : (st.instrumentReturnSite r cv sg).1
          = ((st.deinstrumentReturn r).1.installReturn r cv sg).1 := by
        simp [Hooks.instrumentReturnSite, e, hk]
      rw [hres]
      exact installReturn_post r cv sg (cacheWF_deinstrumentReturn r hW)
  | none =>
    have hres : (st.instrumentReturnSite r cv sg).1
        = ((st.deinstrumentReturn r).1.installReturn r cv sg).1 := by
      simp [Hooks.instrumentReturnSite, e]
    rw [hres]
    exact installReturn_post r cv sg (cacheWF_deinstrumentReturn r hW)

/-! ### No-op characterizations: an unchanged key leaves everything untouched -/

theorem instrumentEntry_noop {st : Hooks} {f : FunId} {cv : Convention}
    {sg : FunctionSignature} {h : EntryHook} (e : st.getEntryHook f = some h)
    (hk : h.key = (⟨f, cv, sg⟩ : EntryKey)) :
    st.instrumentEntry f cv sg = (st, []) := by
  have e2 : alookup f st.lastEntryHooks_ = some h := e
  simp [Hooks.instrumentEntry, e2, hk]

theorem instrumentCallSite_noop {st : Hooks} {c : CallId} {cv : Convention}
    {sg : CallSignature} {a : Option ByteAddr} {h : CallHook}
    (e : st.getCallHook c = some h) (hk : h.key = (⟨c, cv, sg, a⟩ : CallKey)) :
    st.instrumentCallSite c cv sg a = (st, []) := by
  have e2 : alookup c st.lastCallHooks_ = some h := e
  simp [Hooks.instrumentCallSite, e2, hk]

theorem instrumentReturnSite_noop {st : Hooks} {r : RetId} {cv : Convention}
    {sg : FunctionSignature} {h : ReturnHook}
    (e : st.getReturnHook r = some h) (hk : h.key = (⟨r, cv, sg⟩ : ReturnKey)) :
    st.instrumentReturnSite r cv sg = (st, []) := by
  have e2 : alookup r st.lastReturnHooks_ = some h := e
  simp [Hooks.instrumentReturnSite, e2, hk]

/-! ### A keyed fold principle giving per-element postconditions -/

theorem foldl_post {α σ κ : Type} (step : σ → α → σ) (l : List α) (key : α → κ)
    (P : σ → Prop) (Post : α → σ → Prop)
    (hnd : (l.map key).Nodup)
    (hP : ∀ s a, a ∈ l → P s → P (step s a))
    (hinit : ∀ s a, a ∈ l → P s → Post a (step s a))
    (hframe : ∀ s a b, a ∈ l → b ∈ l → key b ≠ key a → Post b s → Post b (step s a))
    {s0 : σ} (h0 : P s0) : ∀ a, a ∈ l → Post a (l.foldl step s0) := by
  induction l generalizing s0 with
  | nil =>
    intro a ha
    cases ha
  | cons x t ih =>
    intro a ha
    simp only [List.map_cons, List.nodup_cons] at hnd
    obtain ⟨hx, hndt⟩ := hnd
    rcases List.mem_cons.mp ha with rfl | hat
    · have h1 : Post a (step s0 a) := hinit s0 a (List.mem_cons_self a t) h0
      have h2 : P (step s0 a) := hP s0 a (List.mem_cons_self a t) h0
      have h3 : (fun s => P s ∧ Post a s) (t.foldl step (step s0 a)) := by
        refine @foldl_preserve α σ (fun s => P s ∧ Post a s) step t ?_ (step s0 a) ⟨h2, h1⟩
        intro s b hb hPs
        refine ⟨hP s b (List.mem_cons_of_mem _ hb) hPs.1, ?_⟩
        refine hframe s b a (List.mem_cons_of_mem _ hb) (List.mem_cons_self a t) ?_ hPs.2
        intro hkeq
        refine hx ?_
        rw [hkeq]
        exact List.mem_map.mpr ⟨b, hb, rfl⟩
      exact h3.2
    · exact ih hndt (fun s b hb => hP s b (List.mem_cons_of_mem _ hb))
        (fun s b hb => hinit s b (List.mem_cons_of_mem _ hb))
        (fun s b b2 hb hb2 => hframe s b b2 (List.mem_cons_of_mem _ hb)
          (List.mem_cons_of_mem _ hb2))
        (hP s0 x (List.mem_cons_self x t) h0) a hat

/-! ### Postcondition of the body walk (no detector registered) -/

theorem instrument_eq_runSites {sigs : Signatures} {df : Dataflow}
    {d : Option ConventionDetector} {f : Function} {st : Hooks} {R : Conventions}
    {cv : Convention} {sg : FunctionSignature}
    (hcv : (getConvention d f.calleeId R []).result = some cv)
    (hsg : sigs.functionSignature f.calleeId = some sg) :
    instrument sigs df d f st R
      = runSites sigs df d f.calleeId f.calls f.rets
          ⟨(st.instrumentEntry f.fid cv sg).1, (getConvention d f.calleeId R []).conv,
            (getConvention d f.calleeId R []).attempted,
            (getConvention d f.calleeId R []).events ++ (st.instrumentEntry f.fid cv sg).2⟩ := by
  rw [instrument, runSites]
  simp only [hcv, hsg]

theorem runSites_post (sigs : Signatures) (df : Dataflow) (fcid : CalleeId)
    (calls : List Call) (rets : List Return) (s1 : StepResult) (R : Conventions)
    (hconv : s1.conv = R) (hW : CacheWF s1.hooks) :
    (runSites sigs df none fcid calls rets s1).conv = R ∧
    CacheWF (runSites sigs df none fcid calls rets s1).hooks ∧
    (runSites sigs df none fcid calls rets s1).hooks.lastEntryHooks_
      = s1.hooks.lastEntryHooks_ ∧
    (runSites sigs df none fcid calls rets s1).hooks.entryHooks_ = s1.hooks.entryHooks_ ∧
    ((calls.map Call.cid).Nodup → ∀ c, c ∈ calls → ∀ cv2 sg2,
      alookup (getCalleeIdOfCall c (df c.cid)) R = some cv2 →
      sigs.callSignature c.cid = some sg2 →
      ∃ h : CallHook,
        (runSites sigs df none fcid calls rets s1).hooks.getCallHook c.cid = some h ∧
        h.key = ⟨c.cid, cv2, sg2, df c.cid⟩ ∧
        (⟨c.cid, cv2, sg2, df c.cid⟩, h)
          ∈ (runSites sigs df none fcid calls rets s1).hooks.callHooks_) ∧
    (∀ cv2 sg2, alookup fcid R = some cv2 → sigs.functionSignature fcid = some sg2 →
      (rets.map Return.rid).Nodup → ∀ r, r ∈ rets →
      ∃ h : ReturnHook,
        (runSites sigs df none fcid calls rets s1).hooks.getReturnHook r.rid = some h ∧
        h.key = ⟨r.rid, cv2, sg2⟩ ∧
        (⟨r.rid, cv2, sg2⟩, h)
          ∈ (runSites sigs df none fcid calls rets s1).hooks.returnHooks_) := by
  have hcallP : ∀ (s : StepResult) (c : Call), c ∈ calls →
      (s.conv = R ∧ CacheWF s.hooks) →
      ((instrumentCall sigs none c (df c.cid) s).conv = R ∧
        CacheWF (instrumentCall sigs none c (df c.cid) s).hooks) := by
    intro s c hc hp
    refine ⟨?_, cacheWF_instrumentCall hp.2⟩
    rw [(instrumentCall_conv sigs none c (df c.cid) s).1, getConvention_none_detector]
    exact hp.1
  have hretP : ∀ (s : StepResult) (r : Return), r ∈ rets →
      (s.conv = R ∧ CacheWF s.hooks) →
      ((instrumentReturn sigs none fcid r s).conv = R ∧
        CacheWF (instrumentReturn sigs none fcid r s).hooks) := by
    intro s r hr hp
    refine ⟨?_, cacheWF_instrumentReturn hp.2⟩
    rw [(instrumentReturn_conv sigs none fcid r s).1, getConvention_none_detector]
    exact hp.1
  have hmid : ((calls.foldl (fun s c => instrumentCall sigs none c (df c.cid) s) s1).conv = R ∧
      CacheWF (calls.foldl (fun s c => instrumentCall sigs none c (df c.cid) s) s1).hooks) :=
    @foldl_preserve _ _ (fun s : StepResult => s.conv = R ∧ CacheWF s.hooks) _ calls
      hcallP s1 ⟨hconv, hW⟩
  have hfin : ((runSites sigs df none fcid calls rets s1).conv = R ∧
      CacheWF (runSites sigs df none fcid calls rets s1).hooks) :=
    @foldl_preserve _ _ (fun s : StepResult => s.conv = R ∧ CacheWF s.hooks) _ rets
      hretP _ hmid
  have hentry : (runSites sigs df none fcid calls rets s1).hooks.lastEntryHooks_
      = s1.hooks.lastEntryHooks_ ∧
      (runSites sigs df none fcid calls rets s1).hooks.entryHooks_
      = s1.hooks.entryHooks_ := by
    refine @foldl_preserve _ _ (fun s : StepResult =>
      s.hooks.lastEntryHooks_ = s1.hooks.lastEntryHooks_ ∧
      s.hooks.entryHooks_ = s1.hooks.entryHooks_) _ rets ?_ _ ?_
    · intro s r hr he
      obtain ⟨f1, _, f3, _, _, _, _, _⟩ := instrumentReturn_hframe sigs none fcid r s
      exact ⟨f1.trans he.1, f3.trans he.2⟩
    · refine @foldl_preserve _ _ (fun s : StepResult =>
        s.hooks.lastEntryHooks_ = s1.hooks.lastEntryHooks_ ∧
        s.hooks.entryHooks_ = s1.hooks.entryHooks_) _ calls ?_ s1 ⟨rfl, rfl⟩
      intro s c hc he
      obtain ⟨f1, _, f3, _, _, _, _, _⟩ := instrumentCall_hframe sigs none c (df c.cid) s
      exact ⟨f1.trans he.1, f3.trans he.2⟩
  refine ⟨hfin.1, hfin.2, hentry.1, hentry.2, ?_, ?_⟩
  · intro hnd c hc cv2 sg2 hcv2 hsg2
    have hcall := foldl_post (fun s c => instrumentCall sigs none c (df c.cid) s) calls
      Call.cid (fun s => s.conv = R ∧ CacheWF s.hooks)
      (fun c s => ∀ cv2 sg2,
        alookup (getCalleeIdOfCall c (df c.cid)) R = some cv2 →
        sigs.callSignature c.cid = some sg2 →
        ∃ h : CallHook, s.hooks.getCallHook c.cid = some h ∧
          h.key = ⟨c.cid, cv2, sg2, df c.cid⟩ ∧
          (⟨c.cid, cv2, sg2, df c.cid⟩, h) ∈ s.hooks.callHooks_)
      hnd hcallP ?_ ?_ ⟨hconv, hW⟩ c hc
    · have hkeep : ∀ (s : StepResult) (r : Return), r ∈ rets →
          (∀ cv2 sg2,
            alookup (getCalleeIdOfCall c (df c.cid)) R = some cv2 →
            sigs.callSignature c.cid = some sg2 →
            ∃ h : CallHook, s.hooks.getCallHook c.cid = some h ∧
              h.key = ⟨c.cid, cv2, sg2, df c.cid⟩ ∧
              (⟨c.cid, cv2, sg2, df c.cid⟩, h) ∈ s.hooks.callHooks_) →
          (∀ cv2 sg2,
            alookup (getCalleeIdOfCall c (df c.cid)) R = some cv2 →
            sigs.callSignature c.cid = some sg2 →
            ∃ h : CallHook, (instrumentReturn sigs none fcid r s).hooks.getCallHook c.cid = some h ∧
              h.key = ⟨c.cid, cv2, sg2, df c.cid⟩ ∧
              (⟨c.cid, cv2, sg2, df c.cid⟩, h)
                ∈ (instrumentReturn sigs none fcid r s).hooks.callHooks_) := by
        intro s r hr hpost cv3 sg3 hcv3 hsg3
        obtain ⟨h, g1, g2, g3⟩ := hpost cv3 sg3 hcv3 hsg3
        obtain ⟨_, f2, _, f4, _, _, _, _⟩ := instrumentReturn_hframe sigs none fcid r s
        refine ⟨h, ?_, g2, ?_⟩
        · show alookup c.cid (instrumentReturn sigs none fcid r s).hooks.lastCallHooks_ = some h
          rw [f2]
          exact g1
        · rw [f4]
          exact g3
      have := @foldl_preserve _ _ (fun s : StepResult => ∀ cv2 sg2,
          alookup (getCalleeIdOfCall c (df c.cid)) R = some cv2 →
          sigs.callSignature c.cid = some sg2 →
          ∃ h : CallHook, s.hooks.getCallHook c.cid = some h ∧
            h.key = ⟨c.cid, cv2, sg2, df c.cid⟩ ∧
            (⟨c.cid, cv2, sg2, df c.cid⟩, h) ∈ s.hooks.callHooks_) _ rets hkeep _ hcall
      exact this cv2 sg2 hcv2 hsg2
    · intro s c2 hc2 hp cv3 sg3 hcv3 hsg3
      have hres : (getConvention none (getCalleeIdOfCall c2 (df c2.cid))
          s.conv s.attempted).result = some cv3 := by
        rw [getConvention_none_detector]
        show alookup (getCalleeIdOfCall c2 (df c2.cid)) s.conv = some cv3
        rw [hp.1]
        exact hcv3
      have hrun := instrumentCall_run hres hsg3
      obtain ⟨h, g1, g2, g3⟩ := instrumentCallSite_post c2.cid cv3 sg3 (df c2.cid) hp.2
      refine ⟨h, ?_, g2, ?_⟩
      · rw [hrun]
        exact g1
      · rw [hrun]
        exact g3
    · intro s a b ha hb hne hpost cv3 sg3 hcv3 hsg3
      obtain ⟨h, g1, g2, g3⟩ := hpost cv3 sg3 hcv3 hsg3
      obtain ⟨_, _, _, _, hao, _, _, hcc⟩ := instrumentCall_hframe sigs none a (df a.cid) s
      obtain ⟨gg1, _⟩ := hcc b.cid hne
      refine ⟨h, ?_, g2, mem_of_appendOnly hao g3⟩
      rw [show (instrumentCall sigs none a (df a.cid) s).hooks.getCallHook b.cid
        = s.hooks.getCallHook b.cid from gg1]
      exact g1
  · intro cv2 sg2 hcv2 hsg2 hnd r hr
    refine foldl_post (fun s r => instrumentReturn sigs none fcid r s) rets
      Return.rid (fun s => s.conv = R ∧ CacheWF s.hooks)
      (fun r s => ∃ h : ReturnHook, s.hooks.getReturnHook r.rid = some h ∧
        h.key = ⟨r.rid, cv2, sg2⟩ ∧ (⟨r.rid, cv2, sg2⟩, h) ∈ s.hooks.returnHooks_)
      hnd hretP ?_ ?_ hmid r hr
    · intro s r2 hr2 hp
      have hres : (getConvention none fcid s.conv s.attempted).result = some cv2 := by
        rw [getConvention_none_detector]
        show alookup fcid s.conv = some cv2
        rw [hp.1]
        exact hcv2
      have hrun := @instrumentReturn_run sigs none fcid r2 s cv2 sg2 hres hsg2
      obtain ⟨h, g1, g2, g3⟩ := instrumentReturnSite_post r2.rid cv2 sg2 hp.2
      refine ⟨h, ?_, g2, ?_⟩
      · rw [hrun]
        exact g1
      · rw [hrun]
        exact g3
    · intro s a b ha hb hne hpost
      obtain ⟨h, g1, g2, g3⟩ := hpost
      obtain ⟨_, _, _, _, hao, _, _, hrr⟩ := instrumentReturn_hframe sigs none fcid a s
      obtain ⟨gg1, _⟩ := hrr b.rid hne
      refine ⟨h, ?_, g2, mem_of_appendOnly hao g3⟩
      rw [show (instrumentReturn sigs none fcid a s).hooks.getReturnHook b.rid
        = s.hooks.getReturnHook b.rid from gg1]
      exact g1

/-! ### When every key is unchanged, an instrument pass is a no-op -/

theorem runSites_noop (sigs : Signatures) (df : Dataflow) (d : Option ConventionDetector)
    (fcid : CalleeId) (calls : List Call) (rets : List Return) (s1 : StepResult)
    (R : Conventions) (hconv : s1.conv = R) (hstab : detectorStableAt d R)
    (hC : ∀ c, c ∈ calls → ∀ cv2 sg2,
      alookup (getCalleeIdOfCall c (df c.cid)) R = some cv2 →
      sigs.callSignature c.cid = some sg2 →
      ∃ h : CallHook, s1.hooks.getCallHook c.cid = some h ∧ h.key = ⟨c.cid, cv2, sg2, df c.cid⟩)
    (hRt : ∀ r, r ∈ rets → ∀ cv2 sg2, alookup fcid R = some cv2 →
      sigs.functionSignature fcid = some sg2 →
      ∃ h : ReturnHook, s1.hooks.getReturnHook r.rid = some h ∧ h.key = ⟨r.rid, cv2, sg2⟩) :
    (runSites sigs df d fcid calls rets s1).hooks = s1.hooks ∧
    (runSites sigs df d fcid calls rets s1).conv = R := by
  have hcstep : ∀ (s : StepResult) (c : Call), c ∈ calls →
      (s.hooks = s1.hooks ∧ s.conv = R) →
      ((instrumentCall sigs d c (df c.cid) s).hooks = s1.hooks ∧
        (instrumentCall sigs d c (df c.cid) s).conv = R) := by
    intro s c hc hp
    have h1 : (getConvention d (getCalleeIdOfCall c (df c.cid)) s.conv s.attempted).result
        = alookup (getCalleeIdOfCall c (df c.cid)) R := by
      rw [hp.2]
      exact (getConvention_stable hstab _ s.attempted).1
    have h2 : (getConvention d (getCalleeIdOfCall c (df c.cid)) s.conv s.attempted).conv = R := by
      rw [hp.2]
      exact (getConvention_stable hstab _ s.attempted).2
    have hcv : (instrumentCall sigs d c (df c.cid) s).conv = R :=
      (instrumentCall_conv sigs d c (df c.cid) s).1.trans h2
    refine ⟨?_, hcv⟩
    cases e2 : alookup (getCalleeIdOfCall c (df c.cid)) R with
    | none => exact (instrumentCall_skip (Or.inl (h1.trans e2))).trans hp.1
    | some cv2 =>
      cases e3 : sigs.callSignature c.cid with
      | none => exact (instrumentCall_skip (Or.inr e3)).trans hp.1
      | some sg2 =>
        obtain ⟨h, he, hk⟩ := hC c hc cv2 sg2 e2 e3
        have he2 : s.hooks.getCallHook c.cid = some h := by
          rw [hp.1]
          exact he
        have hrun := instrumentCall_run (h1.trans e2) e3
        rw [hrun, instrumentCallSite_noop he2 hk]
        exact hp.1
  have hrstep : ∀ (s : StepResult) (r : Return), r ∈ rets →
      (s.hooks = s1.hooks ∧ s.conv = R) →
      ((instrumentReturn sigs d fcid r s).hooks = s1.hooks ∧
        (instrumentReturn sigs d fcid r s).conv = R) := by
    intro s r hr hp
    have h1 : (getConvention d fcid s.conv s.attempted).result = alookup fcid R := by
      rw [hp.2]
      exact (getConvention_stable hstab _ s.attempted).1
    have h2 : (getConvention d fcid s.conv s.attempted).conv = R := by
      rw [hp.2]
      exact (getConvention_stable hstab _ s.attempted).2
    have hcv : (instrumentReturn sigs d fcid r s).conv = R :=
      (instrumentReturn_conv sigs d fcid r s).1.trans h2
    refine ⟨?_, hcv⟩
    cases e2 : alookup fcid R with
    | none => exact (instrumentReturn_skip (Or.inl (h1.trans e2))).trans hp.1
    | some cv2 =>
      cases e3 : sigs.functionSignature fcid with
      | none => exact (instrumentReturn_skip (Or.inr e3)).trans hp.1
      | some sg2 =>
        obtain ⟨h, he, hk⟩ := hRt r hr cv2 sg2 e2 e3
        have he2 : s.hooks.getReturnHook r.rid = some h := by
          rw [hp.1]
          exact he
        have hrun := @instrumentReturn_run sigs d fcid r s cv2 sg2 (h1.trans e2) e3
        rw [hrun, instrumentReturnSite_noop he2 hk]
        exact hp.1
  have hmid := @foldl_preserve _ _
    (fun s : StepResult => s.hooks = s1.hooks ∧ s.conv = R) _ calls hcstep s1 ⟨rfl, hconv⟩
  exact @foldl_preserve _ _
    (fun s : StepResult => s.hooks = s1.hooks ∧ s.conv = R) _ rets hrstep _ hmid

theorem instrument_noop (sigs : Signatures) (df : Dataflow) (d : Option ConventionDetector)
    (f : Function) (st : Hooks) (R : Conventions)
    (hstab : detectorStableAt d R) (hstable : stableFor sigs df f st R) :
    (instrument sigs df d f st R).hooks = st ∧ (instrument sigs df d f st R).conv = R := by
  obtain ⟨hE, hC, hRt⟩ := hstable
  have hgc := getConvention_stable hstab f.calleeId []
  cases hcv : alookup f.calleeId R with
  | none =>
    obtain ⟨g1, g2, _⟩ := @instrument_skip sigs df d f st R (Or.inl (hgc.1.trans hcv))
    exact ⟨g1, g2.trans hgc.2⟩
  | some cv =>
    cases hsg : sigs.functionSignature f.calleeId with
    | none =>
      obtain ⟨g1, g2, _⟩ := @instrument_skip sigs df d f st R (Or.inr hsg)
      exact ⟨g1, g2.trans hgc.2⟩
    | some sg =>
      obtain ⟨h, he, hk⟩ := hE ⟨f.fid, cv, sg⟩ (by rw [entryResolution, hcv, hsg])
      have hres : (getConvention d f.calleeId R []).result = some cv := hgc.1.trans hcv
      rw [instrument_eq_runSites hres hsg]
      have hent := instrumentEntry_noop he hk
      have hs1conv : (⟨(st.instrumentEntry f.fid cv sg).1, (getConvention d f.calleeId R []).conv,
          (getConvention d f.calleeId R []).attempted,
          (getConvention d f.calleeId R []).events ++ (st.instrumentEntry f.fid cv sg).2⟩
          : StepResult).conv = R := hgc.2
      have hs1hooks : (⟨(st.instrumentEntry f.fid cv sg).1, (getConvention d f.calleeId R []).conv,
          (getConvention d f.calleeId R []).attempted,
          (getConvention d f.calleeId R []).events ++ (st.instrumentEntry f.fid cv sg).2⟩
          : StepResult).hooks = st := by
        show (st.instrumentEntry f.fid cv sg).1 = st
        rw [hent]
      obtain ⟨g1, g2⟩ := runSites_noop sigs df d f.calleeId f.calls f.rets _ R hs1conv hstab
        (by
          intro c hc cv2 sg2 hcv2 hsg2
          obtain ⟨h2, he2, hk2⟩ := hC c hc ⟨c.cid, cv2, sg2, df c.cid⟩
            (by rw [callResolution, hcv2, hsg2])
          refine ⟨h2, ?_, hk2⟩
          rw [hs1hooks]
          exact he2)
        (by
          intro r hr cv2 sg2 hcv2 hsg2
          obtain ⟨h2, he2, hk2⟩ := hRt r hr ⟨r.rid, cv2, sg2⟩
            (by rw [retResolution, hcv2, hsg2])
          refine ⟨h2, ?_, hk2⟩
          rw [hs1hooks]
          exact he2)
      exact ⟨g1.trans hs1hooks, g2⟩

/-! ### Deinstrumentation clears each site of the function and is idempotent -/

theorem deiCallsFold_callHook_none (calls : List Call) (st : Hooks) (c : Call)
    (hc : c ∈ calls) :
    (calls.foldl (fun s x => (s.deinstrumentCall x.cid).1) st).getCallHook c.cid = none := by
  have hpres : ∀ (s : Hooks) (y : Call), s.getCallHook c.cid = none →
      ((s.deinstrumentCall y.cid).1).getCallHook c.cid = none := by
    intro s y hnone
    by_cases hy : c.cid = y.cid
    · rw [hy]
      exact getCallHook_deinstrumentCall_self s y.cid
    · obtain ⟨_, _, _, _, _, _, _, _, h9⟩ := deinstrumentCall_frame s y.cid
      exact ((h9 c.cid hy).1).trans hnone
  induction calls generalizing st with
  | nil => cases hc
  | cons x t ih =>
    rcases List.mem_cons.mp hc with heq | hct
    · subst heq
      exact @foldl_preserve _ _ (fun s : Hooks => s.getCallHook c.cid = none) _ t
        (fun s y _ => hpres s y) _ (getCallHook_deinstrumentCall_self st c.cid)
    · exact ih _ hct

theorem deiRetsFold_retHook_none (rets : List Return) (st : Hooks) (r : Return)
    (hr : r ∈ rets) :
    (rets.foldl (fun s x => (s.deinstrumentReturn x.rid).1) st).getReturnHook r.rid = none := by
  have hpres : ∀ (s : Hooks) (y : Return), s.getReturnHook r.rid = none →
      ((s.deinstrumentReturn y.rid).1).getReturnHook r.rid = none := by
    intro s y hnone
    by_cases hy : r.rid = y.rid
    · rw [hy]
      exact getReturnHook_deinstrumentReturn_self s y.rid
    · obtain ⟨_, _, _, _, _, _, _, _, h9⟩ := deinstrumentReturn_frame s y.rid
      exact ((h9 r.rid hy).1).trans hnone
  induction rets generalizing st with
  | nil => cases hr
  | cons x t ih =>
    rcases List.mem_cons.mp hr with heq | hrt
    · subst heq
      exact @foldl_preserve _ _ (fun s : Hooks => s.getReturnHook r.rid = none) _ t
        (fun s y _ => hpres s y) _ (getReturnHook_deinstrumentReturn_self st r.rid)
    · exact ih _ hrt

theorem deiCallsFold_lastEntry (calls : List Call) (st : Hooks) :
    (calls.foldl (fun s x => (s.deinstrumentCall x.cid).1) st).lastEntryHooks_
      = st.lastEntryHooks_ := by
  induction calls generalizing st with
  | nil => rfl
  | cons x t ih =>
    obtain ⟨_, _, _, _, h5, _, _, _, _⟩ := deinstrumentCall_frame st x.cid
    exact (ih _).trans h5

theorem deiRetsFold_lastEntry (rets : List Return) (st : Hooks) :
    (rets.foldl (fun s x => (s.deinstrumentReturn x.rid).1) st).lastEntryHooks_
      = st.lastEntryHooks_ := by
  induction rets generalizing st with
  | nil => rfl
  | cons x t ih =>
    obtain ⟨_, _, _, _, h5, _, _, _, _⟩ := deinstrumentReturn_frame st x.rid
    exact (ih _).trans h5

theorem deiRetsFold_lastCall (rets : List Return) (st : Hooks) :
    (rets.foldl (fun s x => (s.deinstrumentReturn x.rid).1) st).lastCallHooks_
      = st.lastCallHooks_ := by
  induction rets generalizing st with
  | nil => rfl
  | cons x t ih =>
    obtain ⟨_, _, _, _, _, h6, _, _, _⟩ := deinstrumentReturn_frame st x.rid
    exact (ih _).trans h6

theorem deinstrument_post (f : Function) (st : Hooks) :
    (deinstrument f st).getEntryHook f.fid = none ∧
    (∀ c, c ∈ f.calls → (deinstrument f st).getCallHook c.cid = none) ∧
    (∀ r, r ∈ f.rets → (deinstrument f st).getReturnHook r.rid = none) := by
  rw [deinstrument]
  refine ⟨?_, ?_, ?_⟩
  · show alookup f.fid (f.rets.foldl (fun s r => (s.deinstrumentReturn r.rid).1)
      (f.calls.foldl (fun s c => (s.deinstrumentCall c.cid).1)
        (st.deinstrumentEntry f.fid).1)).lastEntryHooks_ = none
    rw [deiRetsFold_lastEntry, deiCallsFold_lastEntry]
    exact getEntryHook_deinstrumentEntry_self st f.fid
  · intro c hc
    show alookup c.cid (f.rets.foldl (fun s r => (s.deinstrumentReturn r.rid).1)
      (f.calls.foldl (fun s c => (s.deinstrumentCall c.cid).1)
        (st.deinstrumentEntry f.fid).1)).lastCallHooks_ = none
    rw [deiRetsFold_lastCall]
    exact deiCallsFold_callHook_none f.calls _ c hc
  · intro r hr
    exact deiRetsFold_retHook_none f.rets _ r hr

theorem deiCallsFold_id (calls : List Call) (st : Hooks)
    (hC : ∀ c, c ∈ calls → st.getCallHook c.cid = none) :
    calls.foldl (fun s x => (s.deinstrumentCall x.cid).1) st = st := by
  induction calls with
  | nil => rfl
  | cons x t ih =>
    have hx : (st.deinstrumentCall x.cid).1 = st := by
      have e : alookup x.cid st.lastCallHooks_ = none := hC x (List.mem_cons_self x t)
      simp [Hooks.deinstrumentCall, e]
    show t.foldl _ ((st.deinstrumentCall x.cid).1) = st
    rw [hx]
    exact ih (fun c hc => hC c (List.mem_cons_of_mem _ hc))

theorem deiRetsFold_id (rets : List Return) (st : Hooks)
    (hR : ∀ r, r ∈ rets → st.getReturnHook r.rid = none) :
    rets.foldl (fun s x => (s.deinstrumentReturn x.rid).1) st = st := by
  induction rets with
  | nil => rfl
  | cons x t ih =>
    have hx : (st.deinstrumentReturn x.rid).1 = st := by
      have e : alookup x.rid st.lastReturnHooks_ = none := hR x (List.mem_cons_self x t)
      simp [Hooks.deinstrumentReturn, e]
    show t.foldl _ ((st.deinstrumentReturn x.rid).1) = st
    rw [hx]
    exact ih (fun r hr => hR r (List.mem_cons_of_mem _ hr))

theorem deinstrument_noop (f : Function) (st : Hooks)
    (hE : st.getEntryHook f.fid = none)
    (hC : ∀ c, c ∈ f.calls → st.getCallHook c.cid = none)
    (hR : ∀ r, r ∈ f.rets → st.getReturnHook r.rid = none) :
    deinstrument f st = st := by
  rw [deinstrument]
  have h1 : (st.deinstrumentEntry f.fid).1 = st := by
    have e : alookup f.fid st.lastEntryHooks_ = none := hE
    simp [Hooks.deinstrumentEntry, e]
  rw [h1, deiCallsFold_id f.calls st hC]
  exact deiRetsFold_id f.rets st hR

/-! ### Counting detector invocations -/

theorem countDetect_append (cid : CalleeId) (t1 t2 : List Event) :
    countDetect cid (t1 ++ t2) = countDetect cid t1 + countDetect cid t2 := by
  induction t1 with
  | nil => simp [countDetect]
  | cons e t ih => simp [countDetect, ih, Nat.add_assoc]

theorem countDetect_of_no_detect {cid : CalleeId} {t : List Event}
    (h : ∀ e ∈ t, ∀ x, e ≠ Event.detect x) : countDetect cid t = 0 := by
  induction t with
  | nil => rfl
  | cons e t ih =>
    have he : ¬(e = Event.detect cid) := h e (List.mem_cons_self e t) cid
    simp only [countDetect, he, if_false, Nat.zero_add]
    exact ih (fun e2 h2 => h e2 (List.mem_cons_of_mem _ h2))

theorem getConvention_att (d : Option ConventionDetector) (cid : CalleeId)
    (R : Conventions) (att : List CalleeId) :
    ((getConvention d cid R att).events = [] ∧ (getConvention d cid R att).attempted = att) ∨
    ((getConvention d cid R att).events = [Event.detect cid] ∧ cid ∉ att ∧
      (getConvention d cid R att).attempted = cid :: att) := by
  cases e : alookup cid R with
  | some c => exact Or.inl (by simp [getConvention, e])
  | none =>
    cases d with
    | none => exact Or.inl (by simp [getConvention, e])
    | some det =>
      by_cases ha : cid ∈ att
      · exact Or.inl (by simp [getConvention, e, ha])
      · refine Or.inr ⟨?_, ha, ?_⟩ <;> simp [getConvention, e, ha]

theorem siteEvents_no_detect_entry (st : Hooks) (f : FunId) (cv : Convention)
    (sg : FunctionSignature) :
    ∀ e ∈ (st.instrumentEntry f cv sg).2, ∀ x, e ≠ Event.detect x := by
  intro e he x
  rcases instrumentEntry_events st f cv sg with h | ⟨hid, h⟩ | ⟨hid, h⟩ <;> rw [h] at he
  · cases he
  · rw [List.mem_singleton] at he
    subst he
    simp
  · rw [List.mem_cons, List.mem_singleton] at he
    rcases he with he | he <;> subst he <;> simp

theorem siteEvents_no_detect_call (st : Hooks) (c : CallId) (cv : Convention)
    (sg : CallSignature) (a : Option ByteAddr) :
    ∀ e ∈ (st.instrumentCallSite c cv sg a).2, ∀ x, e ≠ Event.detect x := by
  intro e he x
  rcases instrumentCallSite_events st c cv sg a with h | ⟨hid, h⟩ | ⟨hid, h⟩ <;> rw [h] at he
  · cases he
  · rw [List.mem_singleton] at he
    subst he
    simp
  · rw [List.mem_cons, List.mem_singleton] at he
    rcases he with he | he <;> subst he <;> simp

theorem siteEvents_no_detect_ret (st : Hooks) (r : RetId) (cv : Convention)
    (sg : FunctionSignature) :
    ∀ e ∈ (st.instrumentReturnSite r cv sg).2, ∀ x, e ≠ Event.detect x := by
  intro e he x
  rcases instrumentReturnSite_events st r cv sg with h | ⟨hid, h⟩ | ⟨hid, h⟩ <;> rw [h] at he
  · cases he
  · rw [List.mem_singleton] at he
    subst he
    simp
  · rw [List.mem_cons, List.mem_singleton] at he
    rcases he with he | he <;> subst he <;> simp

theorem instrumentCall_trace_exact (sigs : Signatures) (d : Option ConventionDetector)
    (c : Call) (a : Option ByteAddr) (s : StepResult) :
    ∃ evs, (instrumentCall sigs d c a s).trace
      = s.trace ++ (getConvention d (getCalleeIdOfCall c a) s.conv s.attempted).events ++ evs ∧
      (∀ e ∈ evs, ∀ x, e ≠ Event.detect x) := by
  rw [instrumentCall]
  cases hg : (getConvention d (getCalleeIdOfCall c a) s.conv s.attempted).result with
  | none => exact ⟨[], by simp, by simp⟩
  | some cv =>
    cases hs : sigs.callSignature c.cid with
    | none => exact ⟨[], by simp, by simp⟩
    | some sg =>
      exact ⟨(s.hooks.instrumentCallSite c.cid cv sg a).2, rfl,
        siteEvents_no_detect_call s.hooks c.cid cv sg a⟩

theorem instrumentReturn_trace_exact (sigs : Signatures) (d : Option ConventionDetector)
    (fcid : CalleeId) (r : Return) (s : StepResult) :
    ∃ evs, (instrumentReturn sigs d fcid r s).trace
      = s.trace ++ (getConvention d fcid s.conv s.attempted).events ++ evs ∧
      (∀ e ∈ evs, ∀ x, e ≠ Event.detect x) := by
  rw [instrumentReturn]
  cases hg : (getConvention d fcid s.conv s.attempted).result with
  | none => exact ⟨[], by simp, by simp⟩
  | some cv =>
    cases hs : sigs.functionSignature fcid with
    | none => exact ⟨[], by simp, by simp⟩
    | some sg =>
      exact ⟨(s.hooks.instrumentReturnSite r.rid cv sg).2, rfl,
        siteEvents_no_detect_ret s.hooks r.rid cv sg⟩

theorem detInv_extend {d : Option ConventionDetector} {cid0 : CalleeId}
    {tr : List Event} {att : List CalleeId} {R : Conventions} {evs : List Event}
    (hevs : ∀ e ∈ evs, ∀ x, e ≠ Event.detect x)
    (hI : ∀ cid, countDetect cid tr ≤ 1 ∧ (1 ≤ countDetect cid tr → cid ∈ att)) :
    ∀ cid, countDetect cid (tr ++ (getConvention d cid0 R att).events ++ evs) ≤ 1 ∧
      (1 ≤ countDetect cid (tr ++ (getConvention d cid0 R att).events ++ evs) →
        cid ∈ (getConvention d cid0 R att).attempted) := by
  intro cid
  have hz : countDetect cid evs = 0 := countDetect_of_no_detect hevs
  rcases getConvention_att d cid0 R att with ⟨he, ha⟩ | ⟨he, hnotin, ha⟩
  · rw [he, ha, countDetect_append, countDetect_append]
    simp only [countDetect, Nat.add_zero, hz]
    exact hI cid
  · rw [he, ha, countDetect_append, countDetect_append, hz]
    by_cases hc : cid = cid0
    · subst hc
      have h0 : countDetect cid tr = 0 := by
        by_contra hpos
        exact hnotin ((hI cid).2 (Nat.one_le_iff_ne_zero.mpr hpos))
      have h1 : countDetect cid [Event.detect cid] = 1 := by simp [countDetect]
      rw [h0, h1]
      exact ⟨le_refl 1, fun _ => List.mem_cons_self _ _⟩
    · have h1 : countDetect cid [Event.detect cid0] = 0 := by
        have : ¬(Event.detect cid0 = Event.detect cid) := by simp [Ne.symm hc]
        simp [countDetect, this]
      rw [h1]
      simp only [Nat.add_zero]
      exact ⟨(hI cid).1, fun hge => List.mem_cons_of_mem _ ((hI cid).2 hge)⟩

theorem detInv_instrumentCall (sigs : Signatures) (d : Option ConventionDetector)
    (c : Call) (a : Option ByteAddr) (s : StepResult)
    (hI : ∀ cid, countDetect cid s.trace ≤ 1 ∧
      (1 ≤ countDetect cid s.trace → cid ∈ s.attempted)) :
    ∀ cid, countDetect cid (instrumentCall sigs d c a s).trace ≤ 1 ∧
      (1 ≤ countDetect cid (instrumentCall sigs d c a s).trace →
        cid ∈ (instrumentCall sigs d c a s).attempted) := by
  obtain ⟨evs, htr, hevs⟩ := instrumentCall_trace_exact sigs d c a s
  intro cid
  rw [htr, (instrumentCall_conv sigs d c a s).2]
  exact detInv_extend hevs hI cid

theorem detInv_instrumentReturn (sigs : Signatures) (d : Option ConventionDetector)
    (fcid : CalleeId) (r : Return) (s : StepResult)
    (hI : ∀ cid, countDetect cid s.trace ≤ 1 ∧
      (1 ≤ countDetect cid s.trace → cid ∈ s.attempted)) :
    ∀ cid, countDetect cid (instrumentReturn sigs d fcid r s).trace ≤ 1 ∧
      (1 ≤ countDetect cid (instrumentReturn sigs d fcid r s).trace →
        cid ∈ (instrumentReturn sigs d fcid r s).attempted) := by
  obtain ⟨evs, htr, hevs⟩ := instrumentReturn_trace_exact sigs d fcid r s
  intro cid
  rw [htr, (instrumentReturn_conv sigs d fcid r s).2]
  exact detInv_extend hevs hI cid

theorem instrument_detect_once (sigs : Signatures) (df : Dataflow)
    (d : Option ConventionDetector) (f : Function) (st : Hooks) (R : Conventions) :
    ∀ cid, countDetect cid (instrument sigs df d f st R).trace ≤ 1 := by
  have hbase : ∀ cid, countDetect cid ([] : List Event) ≤ 1 ∧
      (1 ≤ countDetect cid ([] : List Event) → cid ∈ ([] : List CalleeId)) := by
    intro cid
    exact ⟨Nat.zero_le 1, fun h => absurd h (by simp [countDetect])⟩
  rw [instrument]
  cases hg : (getConvention d f.calleeId R []).result with
  | none =>
    intro cid
    rcases getConvention_att d f.calleeId R [] with ⟨he, _⟩ | ⟨he, _, _⟩ <;> rw [he]
    · simp [countDetect]
    · by_cases hc : cid = f.calleeId
      · subst hc
        simp [countDetect]
      · have : ¬(Event.detect f.calleeId = Event.detect cid) := by simp [Ne.symm hc]
        simp [countDetect, this]
  | some cv =>
    cases hsg : sigs.functionSignature f.calleeId with
    | none =>
      intro cid
      rcases getConvention_att d f.calleeId R [] with ⟨he, _⟩ | ⟨he, _, _⟩ <;> rw [he]
      · simp [countDetect]
      · by_cases hc : cid = f.calleeId
        · subst hc
          simp [countDetect]
        · have : ¬(Event.detect f.calleeId = Event.detect cid) := by simp [Ne.symm hc]
          simp [countDetect, this]
    | some sg =>
      have hs1 : ∀ cid,
          countDetect cid ((getConvention d f.calleeId R []).events
            ++ (st.instrumentEntry f.fid cv sg).2) ≤ 1 ∧
          (1 ≤ countDetect cid ((getConvention d f.calleeId R []).events
            ++ (st.instrumentEntry f.fid cv sg).2) →
            cid ∈ (getConvention d f.calleeId R []).attempted) := by
        intro cid
        exact detInv_extend (siteEvents_no_detect_entry st f.fid cv sg) hbase cid
      have hP := @foldl_preserve _ _
        (fun s : StepResult => ∀ cid, countDetect cid s.trace ≤ 1 ∧
          (1 ≤ countDetect cid s.trace → cid ∈ s.attempted))
        (fun s r => instrumentReturn sigs d f.calleeId r s) f.rets
        (fun s r hr h => detInv_instrumentReturn sigs d f.calleeId r s h) _
        (@foldl_preserve _ _
          (fun s : StepResult => ∀ cid, countDetect cid s.trace ≤ 1 ∧
            (1 ≤ countDetect cid s.trace → cid ∈ s.attempted))
          (fun s c => instrumentCall sigs d c (df c.cid) s) f.calls
          (fun s c hc h => detInv_instrumentCall sigs d c (df c.cid) s h)
          ⟨(st.instrumentEntry f.fid cv sg).1, (getConvention d f.calleeId R []).conv,
            (getConvention d f.calleeId R []).attempted,
            (getConvention d f.calleeId R []).events ++ (st.instrumentEntry f.fid cv sg).2⟩
          hs1)
      intro cid
      exact (hP cid).1

/-! ### The registry changes exactly by replaying the recorded detections -/

theorem applyDetections_append (d : Option ConventionDetector) (t1 t2 : List Event)
    (R : Conventions) :
    applyDetections d (t1 ++ t2) R = applyDetections d t2 (applyDetections d t1 R) := by
  induction t1 generalizing R with
  | nil => simp [applyDetections]
  | cons e t ih => cases e <;> cases d <;> simp [applyDetections, ih]

theorem applyDetections_no_detect {d : Option ConventionDetector} {t : List Event}
    (h : ∀ e ∈ t, ∀ x, e ≠ Event.detect x) (R : Conventions) :
    applyDetections d t R = R := by
  induction t with
  | nil => rfl
  | cons e t ih =>
    have ht := fun e2 h2 => h e2 (List.mem_cons_of_mem _ h2)
    cases e with
    | detect x => exact absurd rfl (h _ (List.mem_cons_self _ _) x)
    | deinstallEntry f => cases d <;> simp [applyDetections, ih ht]
    | installEntry f hid => cases d <;> simp [applyDetections, ih ht]
    | deinstallCall c => cases d <;> simp [applyDetections, ih ht]
    | installCall c hid => cases d <;> simp [applyDetections, ih ht]
    | deinstallReturn r => cases d <;> simp [applyDetections, ih ht]
    | installReturn r hid => cases d <;> simp [applyDetections, ih ht]

theorem getConvention_apply (d : Option ConventionDetector) (cid : CalleeId)
    (R : Conventions) (att : List CalleeId) :
    (getConvention d cid R att).conv
      = applyDetections d (getConvention d cid R att).events R := by
  cases e : alookup cid R with
  | some c => simp [getConvention, e, applyDetections]
  | none =>
    cases d with
    | none => simp [getConvention, e, applyDetections]
    | some det =>
      by_cases ha : cid ∈ att <;> simp [getConvention, e, ha, applyDetections]

theorem instrumentCall_applyInv {sigs : Signatures} {d : Option ConventionDetector}
    {c : Call} {a : Option ByteAddr} {s : StepResult} {R0 : Conventions}
    (h : applyDetections d s.trace R0 = s.conv) :
    applyDetections d (instrumentCall sigs d c a s).trace R0
      = (instrumentCall sigs d c a s).conv := by
  obtain ⟨evs, htr, hevs⟩ := instrumentCall_trace_exact sigs d c a s
  rw [htr, (instrumentCall_conv sigs d c a s).1, applyDetections_append,
    applyDetections_append, h, applyDetections_no_detect hevs]
  exact (getConvention_apply d _ s.conv s.attempted).symm

theorem instrumentReturn_applyInv {sigs : Signatures} {d : Option ConventionDetector}
    {fcid : CalleeId} {r : Return} {s : StepResult} {R0 : Conventions}
    (h : applyDetections d s.trace R0 = s.conv) :
    applyDetections d (instrumentReturn sigs d fcid r s).trace R0
      = (instrumentReturn sigs d fcid r s).conv := by
  obtain ⟨evs, htr, hevs⟩ := instrumentReturn_trace_exact sigs d fcid r s
  rw [htr, (instrumentReturn_conv sigs d fcid r s).1, applyDetections_append,
    applyDetections_append, h, applyDetections_no_detect hevs]
  exact (getConvention_apply d fcid s.conv s.attempted).symm

theorem instrument_apply (sigs : Signatures) (df : Dataflow)
    (d : Option ConventionDetector) (f : Function) (st : Hooks) (R : Conventions) :
    (instrument sigs df d f st R).conv
      = applyDetections d (instrument sigs df d f st R).trace R := by
  rw [instrument]
  cases hg : (getConvention d f.calleeId R []).result with
  | none => exact getConvention_apply d f.calleeId R []
  | some cv =>
    cases hsg : sigs.functionSignature f.calleeId with
    | none => exact getConvention_apply d f.calleeId R []
    | some sg =>
      have hs1 : applyDetections d ((getConvention d f.calleeId R []).events
          ++ (st.instrumentEntry f.fid cv sg).2) R
          = (getConvention d f.calleeId R []).conv := by
        rw [applyDetections_append,
          applyDetections_no_detect (siteEvents_no_detect_entry st f.fid cv sg)]
        exact (getConvention_apply d f.calleeId R []).symm
      have hP := @foldl_preserve _ _
        (fun s : StepResult => applyDetections d s.trace R = s.conv)
        (fun s r => instrumentReturn sigs d f.calleeId r s) f.rets
        (fun s r hr h => instrumentReturn_applyInv h) _
        (@foldl_preserve _ _
          (fun s : StepResult => applyDetections d s.trace R = s.conv)
          (fun s c => instrumentCall sigs d c (df c.cid) s) f.calls
          (fun s c hc h => instrumentCall_applyInv h)
          ⟨(st.instrumentEntry f.fid cv sg).1, (getConvention d f.calleeId R []).conv,
            (getConvention d f.calleeId R []).attempted,
            (getConvention d f.calleeId R []).events ++ (st.instrumentEntry f.fid cv sg).2⟩
          hs1)
      exact hP.symm

/-! ### Per-site subtraces of one instrument pass -/

theorem siteTrace_append (s : SiteKey) (t1 t2 : List Event) :
    siteTrace s (t1 ++ t2) = siteTrace s t1 ++ siteTrace s t2 :=
  List.filter_append t1 t2

theorem siteTrace_of_none {s : SiteKey} {t : List Event}
    (h : ∀ e ∈ t, e.site ≠ some s) : siteTrace s t = [] := by
  induction t with
  | nil => rfl
  | cons e t ih =>
    have he : (decide (e.site = some s)) = false :=
      decide_eq_false (h e (List.mem_cons_self e t))
    have ht := ih (fun e2 h2 => h e2 (List.mem_cons_of_mem _ h2))
    rw [siteTrace] at ht ⊢
    rw [List.filter_cons, he]
    simpa using ht

theorem instrumentCall_siteTrace_other (sigs : Signatures) (d : Option ConventionDetector)
    (x : Call) (a : Option ByteAddr) (s0 : StepResult) (s : SiteKey)
    (hne : s ≠ SiteKey.call x.cid) :
    siteTrace s (instrumentCall sigs d x a s0).trace = siteTrace s s0.trace := by
  obtain ⟨evd, evs, htr, hevd, hevs⟩ := instrumentCall_trace sigs d x a s0
  rw [htr, siteTrace_append, siteTrace_append]
  have h1 : siteTrace s evd = [] := by
    apply siteTrace_of_none
    intro e he
    rcases hevd with h | h <;> rw [h] at he
    · cases he
    · rw [List.mem_singleton] at he
      subst he
      simp [Event.site]
  have h2 : siteTrace s evs = [] := by
    apply siteTrace_of_none
    intro e he
    rcases hevs with h | ⟨hid, h⟩ | ⟨hid, h⟩ <;> rw [h] at he
    · cases he
    · rw [List.mem_singleton] at he
      subst he
      intro hh
      exact hne (Option.some.inj hh).symm
    · rw [List.mem_cons, List.mem_singleton] at he
      rcases he with he | he <;> subst he <;> intro hh <;>
        exact hne (Option.some.inj hh).symm
  rw [h1, h2]
  simp

theorem instrumentReturn_siteTrace_other (sigs : Signatures) (d : Option ConventionDetector)
    (fcid : CalleeId) (x : Return) (s0 : StepResult) (s : SiteKey)
    (hne : s ≠ SiteKey.ret x.rid) :
    siteTrace s (instrumentReturn sigs d fcid x s0).trace = siteTrace s s0.trace := by
  obtain ⟨evd, evs, htr, hevd, hevs⟩ := instrumentReturn_trace sigs d fcid x s0
  rw [htr, siteTrace_append, siteTrace_append]
  have h1 : siteTrace s evd = [] := by
    apply siteTrace_of_none
    intro e he
    rcases hevd with h | h <;> rw [h] at he
    · cases he
    · rw [List.mem_singleton] at he
      subst he
      simp [Event.site]
  have h2 : siteTrace s evs = [] := by
    apply siteTrace_of_none
    intro e he
    rcases hevs with h | ⟨hid, h⟩ | ⟨hid, h⟩ <;> rw [h] at he
    · cases he
    · rw [List.mem_singleton] at he
      subst he
      intro hh
      exact hne (Option.some.inj hh).symm
    · rw [List.mem_cons, List.mem_singleton] at he
      rcases he with he | he <;> subst he <;> intro hh <;>
        exact hne (Option.some.inj hh).symm
  rw [h1, h2]
  simp

theorem callsFold_siteTrace_keep (sigs : Signatures) (d : Option ConventionDetector)
    (df : Dataflow) (calls : List Call) (s : SiteKey)
    (hs : ∀ c, c ∈ calls → s ≠ SiteKey.call c.cid) (s0 : StepResult) :
    siteTrace s (calls.foldl (fun s2 c => instrumentCall sigs d c (df c.cid) s2) s0).trace
      = siteTrace s s0.trace := by
  induction calls generalizing s0 with
  | nil => rfl
  | cons x t ih =>
    have hstep := instrumentCall_siteTrace_other sigs d x (df x.cid) s0 s
      (hs x (List.mem_cons_self x t))
    have ht := ih (fun c hc => hs c (List.mem_cons_of_mem _ hc))
      (instrumentCall sigs d x (df x.cid) s0)
    exact ht.trans hstep

theorem retsFold_siteTrace_keep (sigs : Signatures) (d : Option ConventionDetector)
    (fcid : CalleeId) (rets : List Return) (s : SiteKey)
    (hs : ∀ r, r ∈ rets → s ≠ SiteKey.ret r.rid) (s0 : StepResult) :
    siteTrace s (rets.foldl (fun s2 r => instrumentReturn sigs d fcid r s2) s0).trace
      = siteTrace s s0.trace := by
  induction rets generalizing s0 with
  | nil => rfl
  | cons x t ih =>
    have hstep := instrumentReturn_siteTrace_other sigs d fcid x s0 s
      (hs x (List.mem_cons_self x t))
    have ht := ih (fun r hr => hs r (List.mem_cons_of_mem _ hr))
      (instrumentReturn sigs d fcid x s0)
    exact ht.trans hstep

theorem instrumentCall_siteTrace_self (sigs : Signatures) (d : Option ConventionDetector)
    (x : Call) (a : Option ByteAddr) (s0 : StepResult) :
    ∃ X, siteTrace (SiteKey.call x.cid) (instrumentCall sigs d x a s0).trace
      = siteTrace (SiteKey.call x.cid) s0.trace ++ X ∧ goodSiteTrace X := by
  obtain ⟨evd, evs, htr, hevd, hevs⟩ := instrumentCall_trace sigs d x a s0
  refine ⟨siteTrace (SiteKey.call x.cid) evs, ?_, ?_⟩
  · rw [htr, siteTrace_append, siteTrace_append]
    have h1 : siteTrace (SiteKey.call x.cid) evd = [] := by
      apply siteTrace_of_none
      intro e he
      rcases hevd with h | h <;> rw [h] at he
      · cases he
      · rw [List.mem_singleton] at he
        subst he
        simp [Event.site]
    rw [h1]
    simp
  · rcases hevs with h | ⟨hid, h⟩ | ⟨hid, h⟩ <;> rw [h]
    · exact Or.inl rfl
    · refine Or.inr (Or.inl ⟨Event.installCall x.cid hid, ?_, rfl⟩)
      simp [siteTrace, Event.site]
    · refine Or.inr (Or.inr ⟨Event.deinstallCall x.cid, Event.installCall x.cid hid, ?_, rfl, rfl⟩)
      simp [siteTrace, Event.site]

theorem instrumentReturn_siteTrace_self (sigs : Signatures) (d : Option ConventionDetector)
    (fcid : CalleeId) (x : Return) (s0 : StepResult) :
    ∃ X, siteTrace (SiteKey.ret x.rid) (instrumentReturn sigs d fcid x s0).trace
      = siteTrace (SiteKey.ret x.rid) s0.trace ++ X ∧ goodSiteTrace X := by
  obtain ⟨evd, evs, htr, hevd, hevs⟩ := instrumentReturn_trace sigs d fcid x s0
  refine ⟨siteTrace (SiteKey.ret x.rid) evs, ?_, ?_⟩
  · rw [htr, siteTrace_append, siteTrace_append]
    have h1 : siteTrace (SiteKey.ret x.rid) evd = [] := by
      apply siteTrace_of_none
      intro e he
      rcases hevd with h | h <;> rw [h] at he
      · cases he
      · rw [List.mem_singleton] at he
        subst he
        simp [Event.site]
    rw [h1]
    simp
  · rcases hevs with h | ⟨hid, h⟩ | ⟨hid, h⟩ <;> rw [h]
    · exact Or.inl rfl
    · refine Or.inr (Or.inl ⟨Event.installReturn x.rid hid, ?_, rfl⟩)
      simp [siteTrace, Event.site]
    · refine Or.inr (Or.inr ⟨Event.deinstallReturn x.rid, Event.installReturn x.rid hid, ?_, rfl, rfl⟩)
      simp [siteTrace, Event.site]

theorem callsFold_siteTrace_good (sigs : Signatures) (d : Option ConventionDetector)
    (df : Dataflow) (calls : List Call) (c0 : CallId)
    (hnd : (calls.map Call.cid).Nodup) (s0 : StepResult) :
    ∃ X, siteTrace (SiteKey.call c0)
        (calls.foldl (fun s2 c => instrumentCall sigs d c (df c.cid) s2) s0).trace
      = siteTrace (SiteKey.call c0) s0.trace ++ X ∧ goodSiteTrace X := by
  induction calls generalizing s0 with
  | nil => exact ⟨[], by simp, Or.inl rfl⟩
  | cons x t ih =>
    simp only [List.map_cons, List.nodup_cons] at hnd
    obtain ⟨hx, hndt⟩ := hnd
    by_cases hc : x.cid = c0
    · subst hc
      obtain ⟨X, hX, hgood⟩ := instrumentCall_siteTrace_self sigs d x (df x.cid) s0
      refine ⟨X, ?_, hgood⟩
      have hkeep := callsFold_siteTrace_keep sigs d df t (SiteKey.call x.cid)
        (by
          intro c hc2 heq
          exact hx (by rw [show x.cid = c.cid from SiteKey.call.inj heq]
                       exact List.mem_map.mpr ⟨c, hc2, rfl⟩))
        (instrumentCall sigs d x (df x.cid) s0)
      exact hkeep.trans hX
    · obtain ⟨X, hX, hgood⟩ := ih hndt (instrumentCall sigs d x (df x.cid) s0)
      refine ⟨X, ?_, hgood⟩
      rw [List.foldl_cons, hX]
      rw [instrumentCall_siteTrace_other sigs d x (df x.cid) s0 (SiteKey.call c0)
        (by simp [Ne.symm hc])]

theorem retsFold_siteTrace_good (sigs : Signatures) (d : Option ConventionDetector)
    (fcid : CalleeId) (rets : List Return) (r0 : RetId)
    (hnd : (rets.map Return.rid).Nodup) (s0 : StepResult) :
    ∃ X, siteTrace (SiteKey.ret r0)
        (rets.foldl (fun s2 r => instrumentReturn sigs d fcid r s2) s0).trace
      = siteTrace (SiteKey.ret r0) s0.trace ++ X ∧ goodSiteTrace X := by
  induction rets generalizing s0 with
  | nil => exact ⟨[], by simp, Or.inl rfl⟩
  | cons x t ih =>
    simp only [List.map_cons, List.nodup_cons] at hnd
    obtain ⟨hx, hndt⟩ := hnd
    by_cases hc : x.rid = r0
    · subst hc
      obtain ⟨X, hX, hgood⟩ := instrumentReturn_siteTrace_self sigs d fcid x s0
      refine ⟨X, ?_, hgood⟩
      have hkeep := retsFold_siteTrace_keep sigs d fcid t (SiteKey.ret x.rid)
        (by
          intro r hr2 heq
          exact hx (by rw [show x.rid = r.rid from SiteKey.ret.inj heq]
                       exact List.mem_map.mpr ⟨r, hr2, rfl⟩))
        (instrumentReturn sigs d fcid x s0)
      exact hkeep.trans hX
    · obtain ⟨X, hX, hgood⟩ := ih hndt (instrumentReturn sigs d fcid x s0)
      refine ⟨X, ?_, hgood⟩
      rw [List.foldl_cons, hX]
      rw [instrumentReturn_siteTrace_other sigs d fcid x s0 (SiteKey.ret r0)
        (by simp [Ne.symm hc])]

theorem instrumentEntry_siteTrace (st : Hooks) (f : FunId) (cv : Convention)
    (sg : FunctionSignature) :
    goodSiteTrace (siteTrace (SiteKey.entry f) (st.instrumentEntry f cv sg).2) ∧
    (∀ s, s ≠ SiteKey.entry f → siteTrace s (st.instrumentEntry f cv sg).2 = []) := by
  constructor
  · rcases instrumentEntry_events st f cv sg with h | ⟨hid, h⟩ | ⟨hid, h⟩ <;> rw [h]
    · exact Or.inl rfl
    · refine Or.inr (Or.inl ⟨Event.installEntry f hid, ?_, rfl⟩)
      simp [siteTrace, Event.site]
    · refine Or.inr (Or.inr ⟨Event.deinstallEntry f, Event.installEntry f hid, ?_, rfl, rfl⟩)
      simp [siteTrace, Event.site]
  · intro s hs
    apply siteTrace_of_none
    intro e he
    rcases instrumentEntry_events st f cv sg with h | ⟨hid, h⟩ | ⟨hid, h⟩ <;> rw [h] at he
    · cases he
    · rw [List.mem_singleton] at he
      subst he
      intro hh
      exact hs (Option.some.inj hh).symm
    · rw [List.mem_cons, List.mem_singleton] at he
      rcases he with he | he <;> subst he <;> intro hh <;>
        exact hs (Option.some.inj hh).symm

theorem callsFold_trace_accum (sigs : Signatures) (d : Option ConventionDetector)
    (df : Dataflow) (calls : List Call) (s0 : StepResult) :
    ∃ ev, (calls.foldl (fun s2 c => instrumentCall sigs d c (df c.cid) s2) s0).trace
      = s0.trace ++ ev ∧ ∀ e ∈ ev, e.isEntrySite = false := by
  induction calls generalizing s0 with
  | nil => exact ⟨[], by simp, fun e he => absurd he (List.not_mem_nil e)⟩
  | cons x t ih =>
    obtain ⟨evd, evs, htr, hevd, hevs⟩ := instrumentCall_trace sigs d x (df x.cid) s0
    obtain ⟨ev2, h2, hA2⟩ := ih (instrumentCall sigs d x (df x.cid) s0)
    refine ⟨(evd ++ evs) ++ ev2, ?_, ?_⟩
    · rw [List.foldl_cons, h2, htr]
      simp [List.append_assoc]
    · intro e he
      rcases List.mem_append.mp he with he | he
      · rcases List.mem_append.mp he with he | he
        · rcases hevd with h | h <;> rw [h] at he
          · cases he
          · rw [List.mem_singleton] at he
            subst he
            rfl
        · rcases hevs with h | ⟨hid, h⟩ | ⟨hid, h⟩ <;> rw [h] at he
          · cases he
          · rw [List.mem_singleton] at he
            subst he
            rfl
          · rw [List.mem_cons, List.mem_singleton] at he
            rcases he with he | he <;> subst he <;> rfl
      · exact hA2 e he

theorem retsFold_trace_accum (sigs : Signatures) (d : Option ConventionDetector)
    (fcid : CalleeId) (rets : List Return) (s0 : StepResult) :
    ∃ ev, (rets.foldl (fun s2 r => instrumentReturn sigs d fcid r s2) s0).trace
      = s0.trace ++ ev ∧ ∀ e ∈ ev, e.isEntrySite = false := by
  induction rets generalizing s0 with
  | nil => exact ⟨[], by simp, fun e he => absurd he (List.not_mem_nil e)⟩
  | cons x t ih =>
    obtain ⟨evd, evs, htr, hevd, hevs⟩ := instrumentReturn_trace sigs d fcid x s0
    obtain ⟨ev2, h2, hA2⟩ := ih (instrumentReturn sigs d fcid x s0)
    refine ⟨(evd ++ evs) ++ ev2, ?_, ?_⟩
    · rw [List.foldl_cons, h2, htr]
      simp [List.append_assoc]
    · intro e he
      rcases List.mem_append.mp he with he | he
      · rcases List.mem_append.mp he with he | he
        · rcases hevd with h | h <;> rw [h] at he
          · cases he
          · rw [List.mem_singleton] at he
            subst he
            rfl
        · rcases hevs with h | ⟨hid, h⟩ | ⟨hid, h⟩ <;> rw [h] at he
          · cases he
          · rw [List.mem_singleton] at he
            subst he
            rfl
          · rw [List.mem_cons, List.mem_singleton] at he
            rcases he with he | he <;> subst he <;> rfl
      · exact hA2 e he

/-! ### Remaining auxiliary lemmas -/

theorem oneGeneration_init : oneGeneration Hooks.init :=
  ⟨fun f => rfl, fun c => rfl, fun r => rfl⟩

theorem cacheWF_init : CacheWF Hooks.init := by
  refine ⟨?_, ?_, ?_, ?_, ?_, ?_, ?_, ?_⟩ <;>
    first
      | exact fun p hp => absurd hp (List.not_mem_nil p)
      | exact fun i hi => absurd hi (List.not_mem_nil i)
      | exact List.nodup_nil

theorem applyDetections_none (t : List Event) (R : Conventions) :
    applyDetections none t R = R := by
  induction t with
  | nil => rfl
  | cons e t ih => cases e <;> simp [applyDetections, ih]

theorem siteTrace_getConvention (s : SiteKey) (d : Option ConventionDetector)
    (cid : CalleeId) (R : Conventions) (att : List CalleeId) :
    siteTrace s (getConvention d cid R att).events = [] := by
  apply siteTrace_of_none
  intro e he
  rcases getConvention_events d cid R att with h | h <;> rw [h] at he
  · cases he
  · rw [List.mem_singleton] at he
    subst he
    simp [Event.site]

theorem instrument_cachesExtend (sigs : Signatures) (df : Dataflow)
    (d : Option ConventionDetector) (f : Function) (st : Hooks) (R : Conventions) :
    appendOnly st.entryHooks_ (instrument sigs df d f st R).hooks.entryHooks_ ∧
    appendOnly st.callHooks_ (instrument sigs df d f st R).hooks.callHooks_ ∧
    appendOnly st.returnHooks_ (instrument sigs df d f st R).hooks.returnHooks_ := by
  rw [instrument]
  cases hg : (getConvention d f.calleeId R []).result with
  | none => exact ⟨appendOnly_refl _, appendOnly_refl _, appendOnly_refl _⟩
  | some cv =>
    cases hsg : sigs.functionSignature f.calleeId with
    | none => exact ⟨appendOnly_refl _, appendOnly_refl _, appendOnly_refl _⟩
    | some sg =>
      have hstep : ∀ (s : StepResult) (c : Call), c ∈ f.calls →
          (appendOnly st.entryHooks_ s.hooks.entryHooks_ ∧
            appendOnly st.callHooks_ s.hooks.callHooks_ ∧
            appendOnly st.returnHooks_ s.hooks.returnHooks_) →
          (appendOnly st.entryHooks_ (instrumentCall sigs d c (df c.cid) s).hooks.entryHooks_ ∧
            appendOnly st.callHooks_ (instrumentCall sigs d c (df c.cid) s).hooks.callHooks_ ∧
            appendOnly st.returnHooks_ (instrumentCall sigs d c (df c.cid) s).hooks.returnHooks_) := by
        intro s c hc hp
        obtain ⟨_, _, i3, i4, i5, _, _, _⟩ := instrumentCall_hframe sigs d c (df c.cid) s
        exact ⟨i3 ▸ hp.1, appendOnly_trans hp.2.1 i5, i4 ▸ hp.2.2⟩
      have hstepR : ∀ (s : StepResult) (r : Return), r ∈ f.rets →
          (appendOnly st.entryHooks_ s.hooks.entryHooks_ ∧
            appendOnly st.callHooks_ s.hooks.callHooks_ ∧
            appendOnly st.returnHooks_ s.hooks.returnHooks_) →
          (appendOnly st.entryHooks_ (instrumentReturn sigs d f.calleeId r s).hooks.entryHooks_ ∧
            appendOnly st.callHooks_ (instrumentReturn sigs d f.calleeId r s).hooks.callHooks_ ∧
            appendOnly st.returnHooks_
              (instrumentReturn sigs d f.calleeId r s).hooks.returnHooks_) := by
        intro s r hr hp
        obtain ⟨_, _, i3, i4, i5, _, _, _⟩ := instrumentReturn_hframe sigs d f.calleeId r s
        exact ⟨i3 ▸ hp.1, i4 ▸ hp.2.1, appendOnly_trans hp.2.2 i5⟩
      have hbase : appendOnly st.entryHooks_ (st.instrumentEntry f.fid cv sg).1.entryHooks_ ∧
          appendOnly st.callHooks_ (st.instrumentEntry f.fid cv sg).1.callHooks_ ∧
          appendOnly st.returnHooks_ (st.instrumentEntry f.fid cv sg).1.returnHooks_ := by
        obtain ⟨e1, e2, e3, _, _, _, _, _⟩ := instrumentEntry_frame st f.fid cv sg
        exact ⟨e1, e2 ▸ appendOnly_refl _, e3 ▸ appendOnly_refl _⟩
      exact @foldl_preserve _ _ (fun s : StepResult =>
          appendOnly st.entryHooks_ s.hooks.entryHooks_ ∧
          appendOnly st.callHooks_ s.hooks.callHooks_ ∧
          appendOnly st.returnHooks_ s.hooks.returnHooks_)
        (fun s r => instrumentReturn sigs d f.calleeId r s) f.rets hstepR _
        (@foldl_preserve _ _ (fun s : StepResult =>
            appendOnly st.entryHooks_ s.hooks.entryHooks_ ∧
            appendOnly st.callHooks_ s.hooks.callHooks_ ∧
            appendOnly st.returnHooks_ s.hooks.returnHooks_)
          (fun s c => instrumentCall sigs d c (df c.cid) s) f.calls hstep
          ⟨(st.instrumentEntry f.fid cv sg).1, (getConvention d f.calleeId R []).conv,
            (getConvention d f.calleeId R []).attempted,
            (getConvention d f.calleeId R []).events ++ (st.instrumentEntry f.fid cv sg).2⟩
          hbase)

theorem deiCallsFold_caches (calls : List Call) (st : Hooks) :
    (calls.foldl (fun s x => (s.deinstrumentCall x.cid).1) st).entryHooks_ = st.entryHooks_ ∧
    (calls.foldl (fun s x => (s.deinstrumentCall x.cid).1) st).callHooks_ = st.callHooks_ ∧
    (calls.foldl (fun s x => (s.deinstrumentCall x.cid).1) st).returnHooks_
      = st.returnHooks_ := by
  induction calls generalizing st with
  | nil => exact ⟨rfl, rfl, rfl⟩
  | cons x t ih =>
    obtain ⟨d1, d2, d3, _, _, _, _, _, _⟩ := deinstrumentCall_frame st x.cid
    obtain ⟨i1, i2, i3⟩ := ih (st.deinstrumentCall x.cid).1
    exact ⟨i1.trans d1, i2.trans d2, i3.trans d3⟩

theorem deiRetsFold_caches (rets : List Return) (st : Hooks) :
    (rets.foldl (fun s x => (s.deinstrumentReturn x.rid).1) st).entryHooks_ = st.entryHooks_ ∧
    (rets.foldl (fun s x => (s.deinstrumentReturn x.rid).1) st).callHooks_ = st.callHooks_ ∧
    (rets.foldl (fun s x => (s.deinstrumentReturn x.rid).1) st).returnHooks_
      = st.returnHooks_ := by
  induction rets generalizing st with
  | nil => exact ⟨rfl, rfl, rfl⟩
  | cons x t ih =>
    obtain ⟨d1, d2, d3, _, _, _, _, _, _⟩ := deinstrumentReturn_frame st x.rid
    obtain ⟨i1, i2, i3⟩ := ih (st.deinstrumentReturn x.rid).1
    exact ⟨i1.trans d1, i2.trans d2, i3.trans d3⟩

theorem deinstrument_caches (f : Function) (st : Hooks) :
    (deinstrument f st).entryHooks_ = st.entryHooks_ ∧
    (deinstrument f st).callHooks_ = st.callHooks_ ∧
    (deinstrument f st).returnHooks_ = st.returnHooks_ := by
  rw [deinstrument]
  obtain ⟨e1, e2, e3, _, _, _, _, _, _⟩ := deinstrumentEntry_frame st f.fid
  obtain ⟨c1, c2, c3⟩ := deiCallsFold_caches f.calls (st.deinstrumentEntry f.fid).1
  obtain ⟨r1, r2, r3⟩ := deiRetsFold_caches f.rets
    (f.calls.foldl (fun s c => (s.deinstrumentCall c.cid).1) (st.deinstrumentEntry f.fid).1)
  exact ⟨(r1.trans c1).trans e1, (r2.trans c2).trans e2, (r3.trans c3).trans e3⟩

theorem entry_ids_distinct {st : Hooks} (hW : CacheWF st) {p1 p2 : EntryKey × EntryHook}
    (h1 : p1 ∈ st.entryHooks_) (h2 : p2 ∈ st.entryHooks_) (hne : p1 ≠ p2) :
    p1.2.hid ≠ p2.2.hid := by
  intro heq
  have hnd : (st.entryHooks_.map (fun p => p.2.hid)).Nodup :=
    ((hW.idsNodup).of_append_left).of_append_left
  exact hne (List.inj_on_of_nodup_map hnd h1 h2 heq)

theorem call_ids_distinct {st : Hooks} (hW : CacheWF st) {p1 p2 : CallKey × CallHook}
    (h1 : p1 ∈ st.callHooks_) (h2 : p2 ∈ st.callHooks_) (hne : p1 ≠ p2) :
    p1.2.hid ≠ p2.2.hid := by
  intro heq
  have hnd : (st.callHooks_.map (fun p => p.2.hid)).Nodup :=
    ((hW.idsNodup).of_append_left).of_append_right
  exact hne (List.inj_on_of_nodup_map hnd h1 h2 heq)

theorem stableFor_of_post (sigs : Signatures) (df : Dataflow) (f : Function)
    (st : Hooks) (R : Conventions)
    (hE : ∀ cv2 sg2, alookup f.calleeId R = some cv2 →
      sigs.functionSignature f.calleeId = some sg2 →
      ∃ h : EntryHook, st.getEntryHook f.fid = some h ∧ h.key = ⟨f.fid, cv2, sg2⟩)
    (hC : ∀ c, c ∈ f.calls → ∀ cv2 sg2,
      alookup (getCalleeIdOfCall c (df c.cid)) R = some cv2 →
      sigs.callSignature c.cid = some sg2 →
      ∃ h : CallHook, st.getCallHook c.cid = some h ∧ h.key = ⟨c.cid, cv2, sg2, df c.cid⟩)
    (hR : ∀ r, r ∈ f.rets → ∀ cv2 sg2, alookup f.calleeId R = some cv2 →
      sigs.functionSignature f.calleeId = some sg2 →
      ∃ h : ReturnHook, st.getReturnHook r.rid = some h ∧ h.key = ⟨r.rid, cv2, sg2⟩) :
    stableFor sigs df f st R := by
  refine ⟨?_, ?_, ?_⟩
  · intro key hk
    rw [entryResolution] at hk
    cases e1 : alookup f.calleeId R with
    | none => rw [e1] at hk; cases hk
    | some cv2 =>
      rw [e1] at hk
      cases e2 : sigs.functionSignature f.calleeId with
      | none => rw [e2] at hk; cases hk
      | some sg2 =>
        rw [e2] at hk
        obtain ⟨h, hh1, hh2⟩ := hE cv2 sg2 e1 e2
        exact ⟨h, hh1, hh2.trans (Option.some.inj hk)⟩
  · intro c hc key hk
    rw [callResolution] at hk
    cases e1 : alookup (getCalleeIdOfCall c (df c.cid)) R with
    | none => rw [e1] at hk; cases hk
    | some cv2 =>
      rw [e1] at hk
      cases e2 : sigs.callSignature c.cid with
      | none => rw [e2] at hk; cases hk
      | some sg2 =>
        rw [e2] at hk
        obtain ⟨h, hh1, hh2⟩ := hC c hc cv2 sg2 e1 e2
        exact ⟨h, hh1, hh2.trans (Option.some.inj hk)⟩
  · intro r hr key hk
    rw [retResolution] at hk
    cases e1 : alookup f.calleeId R with
    | none => rw [e1] at hk; cases hk
    | some cv2 =>
      rw [e1] at hk
      cases e2 : sigs.functionSignature f.calleeId with
      | none => rw [e2] at hk; cases hk
      | some sg2 =>
        rw [e2] at hk
        obtain ⟨h, hh1, hh2⟩ := hR r hr cv2 sg2 e1 e2
        exact ⟨h, hh1, hh2.trans (Option.some.inj hk)⟩

theorem instrument_post (sigs : Signatures) (df : Dataflow) (f : Function) (st : Hooks)
    (R : Conventions) (hW : CacheWF st) {cv : Convention} {sg : FunctionSignature}
    (hcv : alookup f.calleeId R = some cv)
    (hsg : sigs.functionSignature f.calleeId = some sg) :
    (instrument sigs df none f st R).conv = R ∧
    CacheWF (instrument sigs df none f st R).hooks ∧
    (∃ h : EntryHook, (instrument sigs df none f st R).hooks.getEntryHook f.fid = some h ∧
      h.key = ⟨f.fid, cv, sg⟩ ∧
      (⟨f.fid, cv, sg⟩, h) ∈ (instrument sigs df none f st R).hooks.entryHooks_) ∧
    ((f.calls.map Call.cid).Nodup → ∀ c, c ∈ f.calls → ∀ cv2 sg2,
      alookup (getCalleeIdOfCall c (df c.cid)) R = some cv2 →
      sigs.callSignature c.cid = some sg2 →
      ∃ h : CallHook, (instrument sigs df none f st R).hooks.getCallHook c.cid = some h ∧
        h.key = ⟨c.cid, cv2, sg2, df c.cid⟩ ∧
        (⟨c.cid, cv2, sg2, df c.cid⟩, h) ∈ (instrument sigs df none f st R).hooks.callHooks_) ∧
    ((f.rets.map Return.rid).Nodup → ∀ r, r ∈ f.rets →
      ∃ h : ReturnHook, (instrument sigs df none f st R).hooks.getReturnHook r.rid = some h ∧
        h.key = ⟨r.rid, cv, sg⟩ ∧
        (⟨r.rid, cv, sg⟩, h) ∈ (instrument sigs df none f st R).hooks.returnHooks_) := by
  have hgc : getConvention none f.calleeId R [] = ⟨some cv, R, [], []⟩ := by
    rw [getConvention_none_detector, hcv]
  have hres : (getConvention none f.calleeId R []).result = some cv := by rw [hgc]
  rw [instrument_eq_runSites hres hsg]
  obtain ⟨p1, p2, p3, p4, p5, p6⟩ := runSites_post sigs df f.calleeId f.calls f.rets
    ⟨(st.instrumentEntry f.fid cv sg).1, (getConvention none f.calleeId R []).conv,
      (getConvention none f.calleeId R []).attempted,
      (getConvention none f.calleeId R []).events ++ (st.instrumentEntry f.fid cv sg).2⟩
    R (by rw [hgc]) (cacheWF_instrumentEntry f.fid cv sg hW)
  obtain ⟨h, hh1, hh2, hh3⟩ := instrumentEntry_post f.fid cv sg hW
  refine ⟨p1, p2, ⟨h, ?_, hh2, ?_⟩, p5, fun hnd r hr => p6 cv sg hcv hsg hnd r hr⟩
  · show alookup f.fid (runSites sigs df none f.calleeId f.calls f.rets _).hooks.lastEntryHooks_
      = some h
    rw [p3]
    exact hh1
  · rw [p4]
    exact hh3

/-! ### The claims -/

/-- C1: for every site, at every observation point after an instrument call, the
markers of exactly one hook generation are present in the body (the one-generation
invariant is preserved, never the union of an old and a new generation); within one
instrument(function) call the entry is processed before any call/return site (the
trace splits into an entry phase with no call/return events followed by a body phase
with no entry events); and per site the events are nothing, one install, or one
deinstall strictly followed by one install — the old hook's markers are removed
before the new hook's markers are inserted whenever the key changed. -/
theorem instrument_no_stale_coexistence (sigs : Signatures) (df : Dataflow)
    (d : Option ConventionDetector) (f : Function) (st : Hooks) (R : Conventions)
    (hwf : f.wf) (hI : oneGeneration st) :
    oneGeneration (instrument sigs df d f st R).hooks ∧
    (∃ t1 t2, (instrument sigs df d f st R).trace = t1 ++ t2 ∧
      (∀ e ∈ t1, e.isBodySite = false) ∧ (∀ e ∈ t2, e.isEntrySite = false)) ∧
    (∀ s : SiteKey, goodSiteTrace (siteTrace s (instrument sigs df d f st R).trace)) := by
  refine ⟨oneGeneration_instrument sigs df d f st R hI, ?_⟩
  have habort : ∀ hres : (instrument sigs df d f st R).trace
      = (getConvention d f.calleeId R []).events,
      (∃ t1 t2, (instrument sigs df d f st R).trace = t1 ++ t2 ∧
        (∀ e ∈ t1, e.isBodySite = false) ∧ (∀ e ∈ t2, e.isEntrySite = false)) ∧
      (∀ s : SiteKey, goodSiteTrace (siteTrace s (instrument sigs df d f st R).trace)) := by
    intro hres
    constructor
    · refine ⟨(getConvention d f.calleeId R []).events, [], by rw [hres]; simp, ?_, ?_⟩
      · intro e he
        rcases getConvention_events d f.calleeId R [] with h | h <;> rw [h] at he
        · cases he
        · rw [List.mem_singleton] at he
          subst he
          rfl
      · intro e he
        cases he
    · intro s
      rw [hres, siteTrace_getConvention]
      exact Or.inl rfl
  cases hg : (getConvention d f.calleeId R []).result with
  | none => exact habort (@instrument_skip sigs df d f st R (Or.inl hg)).2.2
  | some cv =>
    cases hsg : sigs.functionSignature f.calleeId with
    | none => exact habort (@instrument_skip sigs df d f st R (Or.inr hsg)).2.2
    | some sg =>
      rw [instrument_eq_runSites hg hsg, runSites]
      set s1 : StepResult := ⟨(st.instrumentEntry f.fid cv sg).1,
        (getConvention d f.calleeId R []).conv,
        (getConvention d f.calleeId R []).attempted,
        (getConvention d f.calleeId R []).events ++ (st.instrumentEntry f.fid cv sg).2⟩
        with hs1
      have hs1tr : s1.trace = (getConvention d f.calleeId R []).events
          ++ (st.instrumentEntry f.fid cv sg).2 := rfl
      obtain ⟨evC, hC1, hC2⟩ := callsFold_trace_accum sigs d df f.calls s1
      obtain ⟨evR, hR1, hR2⟩ := retsFold_trace_accum sigs d f.calleeId f.rets
        (f.calls.foldl (fun s2 c => instrumentCall sigs d c (df c.cid) s2) s1)
      constructor
      · refine ⟨(getConvention d f.calleeId R []).events
          ++ (st.instrumentEntry f.fid cv sg).2, evC ++ evR, ?_, ?_, ?_⟩
        · rw [hR1, hC1, hs1tr]
          simp [List.append_assoc]
        · intro e he
          rcases List.mem_append.mp he with he | he
          · rcases getConvention_events d f.calleeId R [] with h | h <;> rw [h] at he
            · cases he
            · rw [List.mem_singleton] at he
              subst he
              rfl
          · rcases instrumentEntry_events st f.fid cv sg with h | ⟨hid, h⟩ | ⟨hid, h⟩ <;>
              rw [h] at he
            · cases he
            · rw [List.mem_singleton] at he
              subst he
              rfl
            · rw [List.mem_cons, List.mem_singleton] at he
              rcases he with he | he <;> subst he <;> rfl
        · intro e he
          rcases List.mem_append.mp he with he | he
          · exact hC2 e he
          · exact hR2 e he
      · have hz : ∀ s : SiteKey, s ≠ SiteKey.entry f.fid → siteTrace s s1.trace = [] := by
          intro s hs
          rw [hs1tr, siteTrace_append, siteTrace_getConvention,
            (instrumentEntry_siteTrace st f.fid cv sg).2 s hs]
          rfl
        intro s
        cases s with
        | entry f2 =>
          rw [retsFold_siteTrace_keep sigs d f.calleeId f.rets (SiteKey.entry f2)
            (fun r hr => by simp) _]
          rw [callsFold_siteTrace_keep sigs d df f.calls (SiteKey.entry f2)
            (fun c hc => by simp) s1]
          by_cases hf2 : f2 = f.fid
          · subst hf2
            rw [hs1tr, siteTrace_append, siteTrace_getConvention]
            simpa using (instrumentEntry_siteTrace st f.fid cv sg).1
          · rw [hz (SiteKey.entry f2) (by simp [hf2])]
            exact Or.inl rfl
        | call c0 =>
          rw [retsFold_siteTrace_keep sigs d f.calleeId f.rets (SiteKey.call c0)
            (fun r hr => by simp) _]
          obtain ⟨X, hX, hgood⟩ := callsFold_siteTrace_good sigs d df f.calls c0 hwf.1 s1
          rw [hX, hz (SiteKey.call c0) (by simp)]
          simpa using hgood
        | ret r0 =>
          obtain ⟨X, hX, hgood⟩ := retsFold_siteTrace_good sigs d f.calleeId f.rets r0 hwf.2
            (f.calls.foldl (fun s2 c => instrumentCall sigs d c (df c.cid) s2) s1)
          rw [hX]
          rw [callsFold_siteTrace_keep sigs d df f.calls (SiteKey.ret r0)
            (fun c hc => by simp) s1]
          rw [hz (SiteKey.ret r0) (by simp)]
          simpa using hgood

/-- Concrete run of the C1 theorem: a function with one call and one return,
instrumented from the initial state over a registry resolving its callee. -/
theorem instrument_no_stale_coexistence_witness :
    wF.wf ∧ oneGeneration Hooks.init ∧
    (oneGeneration (instrument wSigs wDfA none wF Hooks.init wConv).hooks ∧
      (∃ t1 t2, (instrument wSigs wDfA none wF Hooks.init wConv).trace = t1 ++ t2 ∧
        (∀ e ∈ t1, e.isBodySite = false) ∧ (∀ e ∈ t2, e.isEntrySite = false)) ∧
      (∀ s : SiteKey, goodSiteTrace
        (siteTrace s (instrument wSigs wDfA none wF Hooks.init wConv).trace))) :=
  ⟨⟨by decide, by decide⟩, oneGeneration_init,
    instrument_no_stale_coexistence wSigs wDfA none wF Hooks.init wConv
      ⟨by decide, by decide⟩ oneGeneration_init⟩

/-- C7: when the convention for the function's callee id cannot be resolved even
after consulting the detector, or the function signature is missing, instrument
aborts without touching any hook state: the hooks object, every site body, and
every last-hook lookup are unchanged, and the trace holds no install and no
deinstall event. -/
theorem instrument_unresolved_frame (sigs : Signatures) (df : Dataflow)
    (d : Option ConventionDetector) (f : Function) (st : Hooks) (R : Conventions)
    (h : (getConvention d f.calleeId R []).result = none ∨
      sigs.functionSignature f.calleeId = none) :
    (instrument sigs df d f st R).hooks = st ∧
    (∀ s, ((instrument sigs df d f st R).hooks).bodyAt s = st.bodyAt s) ∧
    (∀ g, ((instrument sigs df d f st R).hooks).getEntryHook g = st.getEntryHook g) ∧
    (∀ c, ((instrument sigs df d f st R).hooks).getCallHook c = st.getCallHook c) ∧
    (∀ r, ((instrument sigs df d f st R).hooks).getReturnHook r = st.getReturnHook r) ∧
    (∀ e ∈ (instrument sigs df d f st R).trace,
      e.isInstall = false ∧ e.isDeinstall = false) := by
  obtain ⟨h1, h2, h3⟩ := @instrument_skip sigs df d f st R h
  refine ⟨h1, fun s => by rw [h1], fun g => by rw [h1], fun c => by rw [h1],
    fun r => by rw [h1], ?_⟩
  intro e he
  rw [h3] at he
  rcases getConvention_events d f.calleeId R [] with hev | hev <;> rw [hev] at he
  · cases he
  · rw [List.mem_singleton] at he
    subst he
    exact ⟨rfl, rfl⟩

/-- Concrete run of the C7 theorem: instrumenting over the empty registry with no
detector leaves the initial state untouched. -/
theorem instrument_unresolved_frame_witness :
    ((getConvention none wF.calleeId ([] : Conventions) []).result = none ∨
      wSigs.functionSignature wF.calleeId = none) ∧
    ((instrument wSigs wDf0 none wF Hooks.init []).hooks = Hooks.init ∧
      (∀ s, ((instrument wSigs wDf0 none wF Hooks.init []).hooks).bodyAt s
        = Hooks.init.bodyAt s) ∧
      (∀ g, ((instrument wSigs wDf0 none wF Hooks.init []).hooks).getEntryHook g
        = Hooks.init.getEntryHook g) ∧
      (∀ c, ((instrument wSigs wDf0 none wF Hooks.init []).hooks).getCallHook c
        = Hooks.init.getCallHook c) ∧
      (∀ r, ((instrument wSigs wDf0 none wF Hooks.init []).hooks).getReturnHook r
        = Hooks.init.getReturnHook r) ∧
      (∀ e ∈ (instrument wSigs wDf0 none wF Hooks.init []).trace,
        e.isInstall = false ∧ e.isDeinstall = false)) :=
  ⟨Or.inl (by decide),
    instrument_unresolved_frame wSigs wDf0 none wF Hooks.init [] (Or.inl (by decide))⟩

/-- C10: the hook engine never mutates the conventions registry on its own: the
registry coming out of an instrument call equals the input registry transformed
solely by replaying the installed detector on the detect events of the trace, and
when no detector is installed the registry comes back unchanged. -/
theorem engine_preserves_registries (sigs : Signatures) (df : Dataflow)
    (d : Option ConventionDetector) (f : Function) (st : Hooks) (R : Conventions) :
    (instrument sigs df d f st R).conv
      = applyDetections d (instrument sigs df d f st R).trace R ∧
    (instrument sigs df none f st R).conv = R :=
  ⟨instrument_apply sigs df d f st R,
    (instrument_apply sigs df none f st R).trans
      (applyDetections_none (instrument sigs df none f st R).trace R)⟩

/-- C3: the hook caches memoize. Looking up a key already in a cache returns the
cached record and leaves the cache and the id counter unchanged; a missing key
appends exactly one fresh record for that key, and repeating the lookup on the
grown cache returns that very record without further growth; an instrument call
only ever appends to the three hook caches (records are never dropped or
replaced), and deinstrument leaves all three caches exactly as they were. -/
theorem hookCache_memoizes :
    (∀ (key : EntryKey) (cache : List (EntryKey × EntryHook)) (next : HookId)
      (h : EntryHook), alookup key cache = some h →
        getOrCreate key (buildEntryHook key) cache next = (h, cache, next)) ∧
    (∀ (key : EntryKey) (cache : List (EntryKey × EntryHook)) (next : HookId),
      alookup key cache = none →
        getOrCreate key (buildEntryHook key) cache next
          = (⟨next, key⟩, cache ++ [(key, ⟨next, key⟩)], next + 1) ∧
        getOrCreate key (buildEntryHook key)
          (cache ++ [(key, (⟨next, key⟩ : EntryHook))]) (next + 1)
          = (⟨next, key⟩, cache ++ [(key, ⟨next, key⟩)], next + 1)) ∧
    (∀ sigs df d f st R,
      appendOnly st.entryHooks_ (instrument sigs df d f st R).hooks.entryHooks_ ∧
      appendOnly st.callHooks_ (instrument sigs df d f st R).hooks.callHooks_ ∧
      appendOnly st.returnHooks_ (instrument sigs df d f st R).hooks.returnHooks_) ∧
    (∀ f st, (deinstrument f st).entryHooks_ = st.entryHooks_ ∧
      (deinstrument f st).callHooks_ = st.callHooks_ ∧
      (deinstrument f st).returnHooks_ = st.returnHooks_) := by
  refine ⟨?_, ?_, fun sigs df d f st R => instrument_cachesExtend sigs df d f st R,
    fun f st => deinstrument_caches f st⟩
  · intro key cache next h e
    simp [getOrCreate, e]
  · intro key cache next e
    constructor
    · simp [getOrCreate, e, buildEntryHook]
    · have e2 := @alookup_append_single_self _ _ _ key (⟨next, key⟩ : EntryHook) cache e
      simp [getOrCreate, e2]

/-- Concrete run of the C3 theorem: a fresh key is created once at id 0, and a
repeated lookup returns the same record without growing the cache. -/
theorem hookCache_memoizes_witness :
    alookup (⟨1, 2, ⟨3, 1⟩⟩ : EntryKey) ([] : List (EntryKey × EntryHook)) = none ∧
    (getOrCreate (⟨1, 2, ⟨3, 1⟩⟩ : EntryKey) (buildEntryHook ⟨1, 2, ⟨3, 1⟩⟩) [] 0
      = (⟨0, ⟨1, 2, ⟨3, 1⟩⟩⟩, [] ++ [(⟨1, 2, ⟨3, 1⟩⟩, ⟨0, ⟨1, 2, ⟨3, 1⟩⟩⟩)], 0 + 1) ∧
     getOrCreate (⟨1, 2, ⟨3, 1⟩⟩ : EntryKey) (buildEntryHook ⟨1, 2, ⟨3, 1⟩⟩)
      ([] ++ [(⟨1, 2, ⟨3, 1⟩⟩, (⟨0, ⟨1, 2, ⟨3, 1⟩⟩⟩ : EntryHook))]) (0 + 1)
      = (⟨0, ⟨1, 2, ⟨3, 1⟩⟩⟩, [] ++ [(⟨1, 2, ⟨3, 1⟩⟩, ⟨0, ⟨1, 2, ⟨3, 1⟩⟩⟩)], 0 + 1)) :=
  ⟨rfl, hookCache_memoizes.2.1 ⟨1, 2, ⟨3, 1⟩⟩ [] 0 rfl⟩

/-- C6: convention resolution. A registry hit returns the assigned convention
without invoking the detector; a miss with a detector installed and the callee id
not yet attempted invokes the detector once, re-queries the registry once, and
marks the callee id attempted; a miss with no detector resolves to nothing; and
across one whole instrument call the detector fires at most once per callee id. -/
theorem getConvention_single_detection :
    (∀ sigs df d f st R cid,
      countDetect cid (instrument sigs df d f st R).trace ≤ 1) ∧
    (∀ (d : Option ConventionDetector) (cid : CalleeId) (R : Conventions)
      (att : List CalleeId) (c : Convention), alookup cid R = some c →
        getConvention d cid R att = ⟨some c, R, att, []⟩) ∧
    (∀ (det : ConventionDetector) (cid : CalleeId) (R : Conventions)
      (att : List CalleeId), alookup cid R = none → cid ∉ att →
        getConvention (some det) cid R att
          = ⟨alookup cid (det cid R), det cid R, cid :: att, [Event.detect cid]⟩) ∧
    (∀ (cid : CalleeId) (R : Conventions) (att : List CalleeId),
      getConvention none cid R att = ⟨alookup cid R, R, att, []⟩) := by
  refine ⟨fun sigs df d f st R cid => instrument_detect_once sigs df d f st R cid,
    ?_, ?_, fun cid R att => getConvention_none_detector cid R att⟩
  · intro d cid R att c e
    exact getConvention_hit d att e
  · intro det cid R att h hnot
    simp [getConvention, h, hnot]

/-- Concrete run of the C6 theorem: on the empty registry the detector is invoked
and its result re-queried; over a full instrument call its detect count stays
at most one. -/
theorem getConvention_single_detection_witness :
    alookup (CalleeId.addr 100) ([] : Conventions) = none ∧
    (getConvention (some wDet) (CalleeId.addr 100) [] []
      = ⟨alookup (CalleeId.addr 100) (wDet (CalleeId.addr 100) []),
          wDet (CalleeId.addr 100) [], [CalleeId.addr 100],
          [Event.detect (CalleeId.addr 100)]⟩) ∧
    countDetect (CalleeId.addr 100)
      (instrument wSigs wDf0 (some wDet) wF Hooks.init []).trace ≤ 1 :=
  ⟨rfl,
    getConvention_single_detection.2.2.1 wDet (CalleeId.addr 100) [] [] rfl (by simp),
    getConvention_single_detection.1 wSigs wDf0 (some wDet) wF Hooks.init []
      (CalleeId.addr 100)⟩

/-- C8: deinstrument undoes the instrumentation of a function. Afterwards the
last entry hook of the function and the last call and return hooks of each of its
calls and returns are gone; under the one-generation invariant the bodies at all
those sites are empty; and deinstrumenting again is a no-op (deinstrumenting a
never-instrumented site does nothing). -/
theorem deinstrument_clears (f : Function) (st : Hooks) (hI : oneGeneration st) :
    (deinstrument f st).getEntryHook f.fid = none ∧
    (∀ c ∈ f.calls, (deinstrument f st).getCallHook c.cid = none) ∧
    (∀ r ∈ f.rets, (deinstrument f st).getReturnHook r.rid = none) ∧
    (deinstrument f st).bodyAt (SiteKey.entry f.fid) = [] ∧
    (∀ c ∈ f.calls, (deinstrument f st).bodyAt (SiteKey.call c.cid) = []) ∧
    (∀ r ∈ f.rets, (deinstrument f st).bodyAt (SiteKey.ret r.rid) = []) ∧
    deinstrument f (deinstrument f st) = deinstrument f st := by
  obtain ⟨hE, hC, hR⟩ := deinstrument_post f st
  have hG := oneGeneration_deinstrument f st hI
  refine ⟨hE, hC, hR, ?_, ?_, ?_, ?_⟩
  · rw [hG.1 f.fid, hE]
    rfl
  · intro c hc
    rw [hG.2.1 c.cid, hC c hc]
    rfl
  · intro r hr
    rw [hG.2.2 r.rid, hR r hr]
    rfl
  · exact deinstrument_noop f _ hE hC hR

/-- Concrete run of the C8 theorem: deinstrumenting the instrumented witness
function clears all its hooks and bodies, idempotently. -/
theorem deinstrument_clears_witness :
    oneGeneration (instrument wSigs wDfA none wF Hooks.init wConv).hooks ∧
    ((deinstrument wF (instrument wSigs wDfA none wF Hooks.init wConv).hooks).getEntryHook
        wF.fid = none ∧
      (∀ c ∈ wF.calls,
        (deinstrument wF (instrument wSigs wDfA none wF Hooks.init wConv).hooks).getCallHook
          c.cid = none) ∧
      (∀ r ∈ wF.rets,
        (deinstrument wF (instrument wSigs wDfA none wF Hooks.init wConv).hooks).getReturnHook
          r.rid = none) ∧
      (deinstrument wF (instrument wSigs wDfA none wF Hooks.init wConv).hooks).bodyAt
        (SiteKey.entry wF.fid) = [] ∧
      (∀ c ∈ wF.calls,
        (deinstrument wF (instrument wSigs wDfA none wF Hooks.init wConv).hooks).bodyAt
          (SiteKey.call c.cid) = []) ∧
      (∀ r ∈ wF.rets,
        (deinstrument wF (instrument wSigs wDfA none wF Hooks.init wConv).hooks).bodyAt
          (SiteKey.ret r.rid) = []) ∧
      deinstrument wF (deinstrument wF (instrument wSigs wDfA none wF Hooks.init wConv).hooks)
        = deinstrument wF (instrument wSigs wDfA none wF Hooks.init wConv).hooks) :=
  ⟨oneGeneration_instrument wSigs wDfA none wF Hooks.init wConv oneGeneration_init,
    deinstrument_clears wF (instrument wSigs wDfA none wF Hooks.init wConv).hooks
      (oneGeneration_instrument wSigs wDfA none wF Hooks.init wConv oneGeneration_init)⟩

/-- C2: instrumenting a function twice in a row with unchanged signatures,
dataflow and registry is idempotent. Provided the detector makes no progress on
the registry the first call produced and every site of the function that resolves
in that registry already carries the hook with exactly the freshly computed key
(which the first call establishes whenever it resolves), the second instrument
call returns the identical hooks object: the installed EntryHook record, every
last-hook lookup, every site body and the registry are all unchanged. -/
theorem instrument_idempotent (sigs : Signatures) (df : Dataflow)
    (d : Option ConventionDetector) (f : Function) (st0 : Hooks) (R0 : Conventions)
    (hstab : detectorStableAt d (instrument sigs df d f st0 R0).conv)
    (hstable : stableFor sigs df f (instrument sigs df d f st0 R0).hooks
      (instrument sigs df d f st0 R0).conv) :
    (instrument sigs df d f (instrument sigs df d f st0 R0).hooks
        (instrument sigs df d f st0 R0).conv).hooks
      = (instrument sigs df d f st0 R0).hooks ∧
    (instrument sigs df d f (instrument sigs df d f st0 R0).hooks
        (instrument sigs df d f st0 R0).conv).conv
      = (instrument sigs df d f st0 R0).conv ∧
    (∀ g, (instrument sigs df d f (instrument sigs df d f st0 R0).hooks
        (instrument sigs df d f st0 R0).conv).hooks.getEntryHook g
      = (instrument sigs df d f st0 R0).hooks.getEntryHook g) ∧
    (∀ s, (instrument sigs df d f (instrument sigs df d f st0 R0).hooks
        (instrument sigs df d f st0 R0).conv).hooks.bodyAt s
      = (instrument sigs df d f st0 R0).hooks.bodyAt s) := by
  obtain ⟨h1, h2⟩ := instrument_noop sigs df d f
    (instrument sigs df d f st0 R0).hooks (instrument sigs df d f st0 R0).conv hstab hstable
  exact ⟨h1, h2, fun g => by rw [h1], fun s => by rw [h1]⟩

/-- Concrete run of the C2 theorem: after a first successful instrumentation of
the witness function its state is stable, so the second call returns the
identical hooks object. -/
theorem instrument_idempotent_witness :
    detectorStableAt none (instrument wSigs wDfA none wF Hooks.init wConv).conv ∧
    stableFor wSigs wDfA wF (instrument wSigs wDfA none wF Hooks.init wConv).hooks
      (instrument wSigs wDfA none wF Hooks.init wConv).conv ∧
    (instrument wSigs wDfA none wF
        (instrument wSigs wDfA none wF Hooks.init wConv).hooks
        (instrument wSigs wDfA none wF Hooks.init wConv).conv).hooks
      = (instrument wSigs wDfA none wF Hooks.init wConv).hooks := by
  have hstab : detectorStableAt none (instrument wSigs wDfA none wF Hooks.init wConv).conv := by
    intro det cid h
    cases h
  have hcv : alookup wF.calleeId wConv = some 7 := by decide
  have hsg : wSigs.functionSignature wF.calleeId = some ⟨1, 2⟩ := rfl
  obtain ⟨p1, p2, pE, pC, pR⟩ :=
    instrument_post wSigs wDfA wF Hooks.init wConv cacheWF_init hcv hsg
  have hstable : stableFor wSigs wDfA wF
      (instrument wSigs wDfA none wF Hooks.init wConv).hooks
      (instrument wSigs wDfA none wF Hooks.init wConv).conv := by
    refine stableFor_of_post wSigs wDfA wF _ _ ?_ ?_ ?_
    · intro cv2 sg2 e1 e2
      rw [p1, hcv] at e1
      rw [hsg] at e2
      cases Option.some.inj e1
      cases Option.some.inj e2
      obtain ⟨h, hh1, hh2, _⟩ := pE
      exact ⟨h, hh1, hh2⟩
    · intro c hc cv2 sg2 e1 e2
      rw [p1] at e1
      obtain ⟨h, hh1, hh2, _⟩ := pC (by decide) c hc cv2 sg2 e1 e2
      exact ⟨h, hh1, hh2⟩
    · intro r hr cv2 sg2 e1 e2
      rw [p1, hcv] at e1
      rw [hsg] at e2
      cases Option.some.inj e1
      cases Option.some.inj e2
      obtain ⟨h, hh1, hh2, _⟩ := pR (by decide) r hr
      exact ⟨h, hh1, hh2⟩
  exact ⟨hstab, hstable,
    (instrument_idempotent wSigs wDfA none wF Hooks.init wConv hstab hstable).1⟩

/-- C4: a changed key always yields an identity-distinct hook record: when a
function's signature changes (for instance gains a parameter) between two
instrument calls over the same registry, the EntryHook installed after the second
call has a different allocation identity than the one installed after the first,
and the entry body afterwards holds exactly the new hook's markers and none of
the old hook's markers. -/
theorem key_change_distinct_hook (sigs1 sigs2 : Signatures) (df : Dataflow)
    (f : Function) (st0 : Hooks) (R : Conventions) (hW : CacheWF st0)
    (hG : oneGeneration st0) {cv : Convention} {sg1 sg2 : FunctionSignature}
    (hcv : alookup f.calleeId R = some cv)
    (hsg1 : sigs1.functionSignature f.calleeId = some sg1)
    (hsg2 : sigs2.functionSignature f.calleeId = some sg2)
    (hne : sg1 ≠ sg2) :
    ∃ h1 h2 : EntryHook,
      (instrument sigs1 df none f st0 R).hooks.getEntryHook f.fid = some h1 ∧
      (instrument sigs2 df none f
        (instrument sigs1 df none f st0 R).hooks R).hooks.getEntryHook f.fid = some h2 ∧
      h1.key = ⟨f.fid, cv, sg1⟩ ∧ h2.key = ⟨f.fid, cv, sg2⟩ ∧
      h1.hid ≠ h2.hid ∧
      (instrument sigs2 df none f
        (instrument sigs1 df none f st0 R).hooks R).hooks.bodyAt (SiteKey.entry f.fid)
        = h2.markers ∧
      (∀ m ∈ h1.markers, m ∉ (instrument sigs2 df none f
        (instrument sigs1 df none f st0 R).hooks R).hooks.bodyAt (SiteKey.entry f.fid)) := by
  obtain ⟨q1, q2, qE1, _, _⟩ := instrument_post sigs1 df f st0 R hW hcv hsg1
  obtain ⟨h1, hh1, hk1, hm1⟩ := qE1
  obtain ⟨p1, p2, pE2, _, _⟩ := instrument_post sigs2 df f
    (instrument sigs1 df none f st0 R).hooks R q2 hcv hsg2
  obtain ⟨h2, hh2, hk2, hm2⟩ := pE2
  have hext := (instrument_cachesExtend sigs2 df none f
    (instrument sigs1 df none f st0 R).hooks R).1
  have hm1' : ((⟨f.fid, cv, sg1⟩ : EntryKey), h1) ∈ (instrument sigs2 df none f
      (instrument sigs1 df none f st0 R).hooks R).hooks.entryHooks_ :=
    mem_of_appendOnly hext hm1
  have hpairne : ((⟨f.fid, cv, sg1⟩ : EntryKey), h1)
      ≠ ((⟨f.fid, cv, sg2⟩ : EntryKey), h2) := by
    intro he
    exact hne (congrArg (fun p => p.1.signature) he)
  have hidne : h1.hid ≠ h2.hid := entry_ids_distinct p2 hm1' hm2 hpairne
  have hG2 : oneGeneration (instrument sigs2 df none f
      (instrument sigs1 df none f st0 R).hooks R).hooks :=
    oneGeneration_instrument sigs2 df none f _ R
      (oneGeneration_instrument sigs1 df none f st0 R hG)
  have hbody : (instrument sigs2 df none f
      (instrument sigs1 df none f st0 R).hooks R).hooks.bodyAt (SiteKey.entry f.fid)
      = h2.markers := by
    rw [hG2.1 f.fid, hh2]
    rfl
  refine ⟨h1, h2, hh1, hh2, hk1, hk2, hidne, hbody, ?_⟩
  intro m hm hmem
  rw [hbody] at hmem
  exact hidne ((mem_entry_markers.mp hm).1.symm.trans (mem_entry_markers.mp hmem).1)

/-- Concrete run of the C4 theorem: the witness function is instrumented with a
two-parameter signature and re-instrumented after the signature gained a
parameter; the two entry hooks are identity-distinct. -/
theorem key_change_distinct_hook_witness :
    alookup wF.calleeId wConv = some 7 ∧
    wSigs.functionSignature wF.calleeId = some ⟨1, 2⟩ ∧
    wSigs3.functionSignature wF.calleeId = some ⟨4, 3⟩ ∧
    ((⟨1, 2⟩ : FunctionSignature) ≠ ⟨4, 3⟩) ∧
    (∃ h1 h2 : EntryHook,
      (instrument wSigs wDfA none wF Hooks.init wConv).hooks.getEntryHook wF.fid = some h1 ∧
      (instrument wSigs3 wDfA none wF
        (instrument wSigs wDfA none wF Hooks.init wConv).hooks wConv).hooks.getEntryHook
          wF.fid = some h2 ∧
      h1.key = ⟨wF.fid, 7, ⟨1, 2⟩⟩ ∧ h2.key = ⟨wF.fid, 7, ⟨4, 3⟩⟩ ∧
      h1.hid ≠ h2.hid ∧
      (instrument wSigs3 wDfA none wF
        (instrument wSigs wDfA none wF Hooks.init wConv).hooks wConv).hooks.bodyAt
          (SiteKey.entry wF.fid) = h2.markers ∧
      (∀ m ∈ h1.markers, m ∉ (instrument wSigs3 wDfA none wF
        (instrument wSigs wDfA none wF Hooks.init wConv).hooks wConv).hooks.bodyAt
          (SiteKey.entry wF.fid))) :=
  ⟨by decide, rfl, rfl, by decide,
    key_change_distinct_hook wSigs wSigs3 wDfA wF Hooks.init wConv cacheWF_init
      oneGeneration_init (by decide) rfl rfl (by decide)⟩

/-- C5: the optional dataflow-resolved target address participates in the
call-hook cache key: instrumenting a call site first with an unresolved target
and then with the target resolved to address A creates two cache entries with
identity-distinct hook records (keyed by none and by some A), and a further
instrument pass that again resolves the same address A reuses the identical
cached record without changing the hooks object. -/
theorem call_address_in_key (sigs : Signatures) (df0 dfA : Dataflow) (f : Function)
    (st0 : Hooks) (R : Conventions) (c : Call) (hc : c ∈ f.calls) (hwf : f.wf)
    (hW : CacheWF st0) {cv cvf : Convention} {sg : CallSignature}
    {sgf : FunctionSignature} {A : ByteAddr}
    (h0 : df0 c.cid = none) (hA : dfA c.cid = some A)
    (hcv0 : alookup (CalleeId.indirect c.cid) R = some cv)
    (hcvA : alookup (CalleeId.addr A) R = some cv)
    (hsg : sigs.callSignature c.cid = some sg)
    (hcvf : alookup f.calleeId R = some cvf)
    (hsgf : sigs.functionSignature f.calleeId = some sgf) :
    ∃ h1 h2 : CallHook,
      (instrument sigs df0 none f st0 R).hooks.getCallHook c.cid = some h1 ∧
      h1.key = ⟨c.cid, cv, sg, none⟩ ∧
      (instrument sigs dfA none f
        (instrument sigs df0 none f st0 R).hooks R).hooks.getCallHook c.cid = some h2 ∧
      h2.key = ⟨c.cid, cv, sg, some A⟩ ∧
      h1.hid ≠ h2.hid ∧
      ((⟨c.cid, cv, sg, none⟩ : CallKey), h1) ∈ (instrument sigs dfA none f
        (instrument sigs df0 none f st0 R).hooks R).hooks.callHooks_ ∧
      ((⟨c.cid, cv, sg, some A⟩ : CallKey), h2) ∈ (instrument sigs dfA none f
        (instrument sigs df0 none f st0 R).hooks R).hooks.callHooks_ ∧
      (instrument sigs dfA none f (instrument sigs dfA none f
        (instrument sigs df0 none f st0 R).hooks R).hooks R).hooks.getCallHook c.cid
        = some h2 ∧
      (instrument sigs dfA none f (instrument sigs dfA none f
        (instrument sigs df0 none f st0 R).hooks R).hooks R).hooks
        = (instrument sigs dfA none f
            (instrument sigs df0 none f st0 R).hooks R).hooks := by
  obtain ⟨q1, q2, _, qC1, _⟩ := instrument_post sigs df0 f st0 R hW hcvf hsgf
  have e10 : alookup (getCalleeIdOfCall c (df0 c.cid)) R = some cv := by
    rw [h0]
    exact hcv0
  obtain ⟨h1, hh1, hk1, hm1⟩ := qC1 hwf.1 c hc cv sg e10 hsg
  rw [h0] at hk1 hm1
  obtain ⟨p1, p2, pE2, pC2, pR2⟩ := instrument_post sigs dfA f
    (instrument sigs df0 none f st0 R).hooks R q2 hcvf hsgf
  have e1A : alookup (getCalleeIdOfCall c (dfA c.cid)) R = some cv := by
    rw [hA]
    exact hcvA
  obtain ⟨h2, hh2, hk2, hm2⟩ := pC2 hwf.1 c hc cv sg e1A hsg
  rw [hA] at hk2 hm2
  have hext := (instrument_cachesExtend sigs dfA none f
    (instrument sigs df0 none f st0 R).hooks R).2.1
  have hm1' := mem_of_appendOnly hext hm1
  have hpairne : ((⟨c.cid, cv, sg, none⟩ : CallKey), h1)
      ≠ ((⟨c.cid, cv, sg, some A⟩ : CallKey), h2) := by
    intro he
    have hca := congrArg (fun p => p.1.calledAddress) he
    simp at hca
  have hidne : h1.hid ≠ h2.hid := call_ids_distinct p2 hm1' hm2 hpairne
  have hstab : detectorStableAt none R := by
    intro det cid h
    cases h
  have hstable : stableFor sigs dfA f (instrument sigs dfA none f
      (instrument sigs df0 none f st0 R).hooks R).hooks R := by
    refine stableFor_of_post sigs dfA f _ R ?_ ?_ ?_
    · intro cv2 sg2 e1 e2
      rw [hcvf] at e1
      rw [hsgf] at e2
      cases Option.some.inj e1
      cases Option.some.inj e2
      obtain ⟨h, hq1, hq2, _⟩ := pE2
      exact ⟨h, hq1, hq2⟩
    · intro c2 hc2 cv2 sg2 e1 e2
      obtain ⟨h, hq1, hq2, _⟩ := pC2 hwf.1 c2 hc2 cv2 sg2 e1 e2
      exact ⟨h, hq1, hq2⟩
    · intro r hr cv2 sg2 e1 e2
      rw [hcvf] at e1
      rw [hsgf] at e2
      cases Option.some.inj e1
      cases Option.some.inj e2
      obtain ⟨h, hq1, hq2, _⟩ := pR2 hwf.2 r hr
      exact ⟨h, hq1, hq2⟩
  obtain ⟨n1, _⟩ := instrument_noop sigs dfA none f (instrument sigs dfA none f
    (instrument sigs df0 none f st0 R).hooks R).hooks R hstab hstable
  refine ⟨h1, h2, hh1, hk1, hh2, hk2, hidne, hm1', hm2, ?_, n1⟩
  rw [n1]
  exact hh2

/-- Concrete run of the C5 theorem: call site 20 is instrumented with an
unresolved target, then with the target resolved to address 555, then once more
with the same resolution; the first two passes create identity-distinct call
hooks and the third pass reuses the second record unchanged. -/
theorem call_address_in_key_witness :
    wCall ∈ wF.calls ∧ wF.wf ∧ wDf0 wCall.cid = none ∧ wDfA wCall.cid = some 555 ∧
    alookup (CalleeId.indirect wCall.cid) wConv = some 8 ∧
    alookup (CalleeId.addr 555) wConv = some 8 ∧
    wSigs.callSignature wCall.cid = some ⟨2, 1⟩ ∧
    (∃ h1 h2 : CallHook,
      (instrument wSigs wDf0 none wF Hooks.init wConv).hooks.getCallHook wCall.cid
        = some h1 ∧
      h1.key = ⟨wCall.cid, 8, ⟨2, 1⟩, none⟩ ∧
      (instrument wSigs wDfA none wF
        (instrument wSigs wDf0 none wF Hooks.init wConv).hooks wConv).hooks.getCallHook
          wCall.cid = some h2 ∧
      h2.key = ⟨wCall.cid, 8, ⟨2, 1⟩, some 555⟩ ∧
      h1.hid ≠ h2.hid ∧
      ((⟨wCall.cid, 8, ⟨2, 1⟩, none⟩ : CallKey), h1) ∈ (instrument wSigs wDfA none wF
        (instrument wSigs wDf0 none wF Hooks.init wConv).hooks wConv).hooks.callHooks_ ∧
      ((⟨wCall.cid, 8, ⟨2, 1⟩, some 555⟩ : CallKey), h2) ∈ (instrument wSigs wDfA none wF
        (instrument wSigs wDf0 none wF Hooks.init wConv).hooks wConv).hooks.callHooks_ ∧
      (instrument wSigs wDfA none wF (instrument wSigs wDfA none wF
        (instrument wSigs wDf0 none wF Hooks.init wConv).hooks wConv).hooks
          wConv).hooks.getCallHook wCall.cid = some h2 ∧
      (instrument wSigs wDfA none wF (instrument wSigs wDfA none wF
        (instrument wSigs wDf0 none wF Hooks.init wConv).hooks wConv).hooks wConv).hooks
        = (instrument wSigs wDfA none wF
            (instrument wSigs wDf0 none wF Hooks.init wConv).hooks wConv).hooks) :=
  ⟨by decide, ⟨by decide, by decide⟩, rfl, rfl, by decide, by decide, rfl,
    @call_address_in_key wSigs wDf0 wDfA wF Hooks.init wConv wCall (by decide)
      ⟨by decide, by decide⟩ cacheWF_init 8 7 ⟨2, 1⟩ ⟨1, 2⟩ 555 rfl rfl (by decide)
      (by decide) rfl (by decide) rfl⟩

end Snowman
